import Mathlib

set_option linter.unusedSectionVars false

/-!
Verification of the graph data type and the Ford–Fulkerson step engine of the
graph_visualizer repository (src/graph.rs, src/graph_flows.rs, and the text
(de)serialization of src/graph.rs).

Rust `BTreeMap`s and `BTreeSet`s are embedded as strictly-sorted association
lists (sorted by the key the Rust `Ord` instances compare: vertex id for the
vertex map, source id for the adjacency map, and target id `to` for each
adjacency set, since `Edge`'s `Ord` impl compares only `to`).  Mutating
methods that return `Result<(), E>` on a `&mut self` receiver are embedded as
functions returning the pair (result, post-state); an error constructor is
paired with the unchanged pre-state exactly where the Rust code returns before
mutating.  `i32` arithmetic is embedded as `Int` with explicit two's-complement
wrapping.  Rust panics (`unwrap` on map entries guaranteed present by the
vertex/adjacency key invariant) are embedded as benign defaults and are
unreachable under the well-formedness hypotheses used below.
-/

/-- Lookup of the first element with the given key in an association list.
Embeds `BTreeMap::get` / `BTreeSet::get` (on sorted lists the first match is
the only one). -/
def mapLookup {I A : Type} [DecidableEq I] (key : A → I) (k : I) : List A → Option A
  | [] => none
  | a :: t => if key a = k then some a else mapLookup key k t

/-- Insertion into a sorted association list, replacing an element with the
same key.  Embeds `BTreeMap::insert`. -/
def mapInsertReplace {I A : Type} [LinearOrder I] (key : A → I) (a : A) : List A → List A
  | [] => [a]
  | b :: t =>
    if key a < key b then a :: b :: t
    else if key a = key b then a :: t
    else b :: mapInsertReplace key a t

/-- Insertion into a sorted association list, keeping an existing element with
the same key.  Embeds `BTreeSet::insert` (which does not replace an equal
element). -/
def mapInsertKeep {I A : Type} [LinearOrder I] (key : A → I) (a : A) : List A → List A
  | [] => [a]
  | b :: t =>
    if key a < key b then a :: b :: t
    else if key a = key b then b :: t
    else b :: mapInsertKeep key a t

/-- Removal of the (first) element with the given key.  Embeds
`BTreeMap::remove` / `BTreeSet::remove`. -/
def mapRemove {I A : Type} [DecidableEq I] (key : A → I) (k : I) : List A → List A
  | [] => []
  | b :: t => if key b = k then t else b :: mapRemove key k t

/-- In-place update of the value stored at a key, a no-op when the key is
absent.  Embeds `if let Some(x) = map.get_mut(k) { ... }` and (for keys known
to be present) `map.get_mut(k).unwrap()`. -/
def mapAdjust {I A : Type} [DecidableEq I] (key : A → I) (k : I) (f : A → A) : List A → List A
  | [] => []
  | b :: t => if key b = k then f b :: t else b :: mapAdjust key k f t

/-- The key list obtained after inserting key `k` (shared shape of the key
lists of `mapInsertReplace` and `mapInsertKeep`). -/
def insertKey {I : Type} [LinearOrder I] (k : I) : List I → List I
  | [] => [k]
  | b :: t => if k < b then k :: b :: t else if k = b then b :: t else b :: insertKey k t

/-- The key list obtained after removing key `k`. -/
def removeKey {I : Type} [DecidableEq I] (k : I) : List I → List I
  | [] => []
  | b :: t => if b = k then t else b :: removeKey k t

/-- Strict sortedness of an association list by its key. -/
def SortedByKey {I A : Type} [LT I] (key : A → I) (l : List A) : Prop :=
  l.Pairwise (fun a b => key a < key b)

/-- Vertex of the graph: identifier plus optional label (graph.rs `Vertex`). -/
structure Vertex (I : Type) where
  id : I
  label : Option String
deriving DecidableEq, Repr

/-- Directed edge record: target vertex and optional weight (graph.rs `Edge`).
The Rust `Ord`/`Eq` impls for `Edge` compare only `to`. -/
structure Edge (I W : Type) where
  to_ : I
  weight : Option W
deriving DecidableEq, Repr

/-- The graph (graph.rs `Graph`): vertex map, adjacency map, and the three
creation-time flags. -/
structure Graph (I W : Type) where
  vertices : List (Vertex I)
  edges : List (I × List (Edge I W))
  is_directed : Bool
  is_weighted : Bool
  is_float_weights : Bool
deriving DecidableEq, Repr

/-- Errors of the graph mutation API (graph_errors.rs `GraphOperationError`). -/
inductive GraphOperationError where
  | VertexExists
  | VertexNotFound
  | EdgeExists
  | EdgeNotFound
  | SomeVerticesNotFound
  | WeightedEdgeInUnweightedGraph
  | UnweightedEdgeInWeightedGraph
deriving DecidableEq, Repr

/-- Errors of the textual interface (graph_errors.rs `GraphInterfaceError`). -/
inductive GraphInterfaceError where
  | IncorrectArgumentCount
  | IncorrectArgument (i : Nat)
  | GraphNotExist
  | FileError
  | WrongParsingVerticesStart
  | EmptyFile
deriving DecidableEq, Repr

/-- Errors of the flow algorithm preconditions (graph_errors.rs
`GraphAlgorithmError`). -/
inductive GraphAlgorithmError where
  | GraphNotDirected
  | GraphNotWeighted
deriving DecidableEq, Repr

/-- The unified error type (graph_errors.rs `GraphError`); the IO variant is
never produced by the embedded code. -/
inductive GraphError where
  | operationError (e : GraphOperationError)
  | interfaceError (e : GraphInterfaceError)
  | algorithmError (e : GraphAlgorithmError)
  | ioError
deriving DecidableEq, Repr

namespace Graph

variable {I W : Type} [LinearOrder I] [DecidableEq I]

/-- `self.vertices.contains_key(i)`. -/
def containsVertex (g : Graph I W) (i : I) : Bool :=
  (mapLookup (fun v : Vertex I => v.id) i g.vertices).isSome

/-- `self.edges.get(i)` (the adjacency set of `i`, when the entry exists). -/
def adjGet (g : Graph I W) (i : I) : Option (List (Edge I W)) :=
  (mapLookup Prod.fst i g.edges).map Prod.snd

/-- `self.edges[&i]` / `self.edges.get(i).unwrap()`: indexing into the
adjacency map.  The Rust code only indexes at keys present in the map (a
consequence of the vertex/adjacency key invariant), so the default `[]` branch
is unreachable in all uses below. -/
def adjD (g : Graph I W) (i : I) : List (Edge I W) :=
  (adjGet g i).getD []

/-- graph.rs `Graph::new`: the empty graph with its creation-time flags. -/
def new (is_directed is_weighted is_float_weights : Bool) : Graph I W :=
  ⟨[], [], is_directed, is_weighted, is_float_weights⟩

/-- graph.rs `Graph::get_vertex`. -/
def get_vertex (g : Graph I W) (i : I) : Except GraphOperationError (Vertex I) :=
  match mapLookup (fun v : Vertex I => v.id) i g.vertices with
  | some v => .ok v
  | none => .error .VertexNotFound

/-- graph.rs `Graph::add_vertex`. -/
def add_vertex (g : Graph I W) (v : Vertex I) :
    Except GraphOperationError Unit × Graph I W :=
  if g.containsVertex v.id then (.error .VertexExists, g)
  else
    (.ok (),
      { g with
        edges := mapInsertReplace Prod.fst (v.id, ([] : List (Edge I W))) g.edges,
        vertices := mapInsertReplace (fun v : Vertex I => v.id) v g.vertices })

/-- Removal of the edge targeting `i` from one adjacency entry
(`x.remove(&rev_e)` in graph.rs `Graph::remove_vertex`). -/
def stripEntry (i : I) (p : I × List (Edge I W)) : I × List (Edge I W) :=
  (p.1, mapRemove (fun e : Edge I W => e.to_) i p.2)

/-- The loop of graph.rs `Graph::remove_vertex`: for every vertex key in `vs`,
remove the edge targeting `i` from that key's adjacency set when the entry
exists (`if let Some(x) = self.edges.get_mut(to) { x.remove(&rev_e) }`). -/
def stripTargets (i : I) (vs : List (Vertex I)) (es : List (I × List (Edge I W))) :
    List (I × List (Edge I W)) :=
  vs.foldl (fun es v => mapAdjust Prod.fst v.id (stripEntry i) es) es

/-- graph.rs `Graph::remove_vertex`: strips the edge targeting `i` from the
adjacency set of every vertex key, then drops `i`'s adjacency entry and the
vertex itself. -/
def remove_vertex (g : Graph I W) (i : I) :
    Except GraphOperationError Unit × Graph I W :=
  if ¬ g.containsVertex i then (.error .VertexNotFound, g)
  else
    (.ok (),
      { g with
        edges := mapRemove Prod.fst i (stripTargets i g.vertices g.edges),
        vertices := mapRemove (fun v : Vertex I => v.id) i g.vertices })

/-- graph.rs `Graph::get_edge_list`. -/
def get_edge_list (g : Graph I W) (from_ : I) :
    Except GraphOperationError (List (Edge I W)) :=
  match mapLookup Prod.fst from_ g.edges with
  | some p => .ok p.2
  | none => .error .VertexNotFound

/-- graph.rs `Graph::get_edge`. -/
def get_edge (g : Graph I W) (from_ to_ : I) : Except GraphOperationError (Edge I W) :=
  match g.get_edge_list from_ with
  | .error e => .error e
  | .ok l =>
    match mapLookup (fun e : Edge I W => e.to_) to_ l with
    | some e => .ok e
    | none => .error .EdgeNotFound

/-- Insertion of an edge into one adjacency entry
(`set.insert(e)` inside graph.rs `Graph::add_edge`). -/
def insEntry (e : Edge I W) (p : I × List (Edge I W)) : I × List (Edge I W) :=
  (p.1, mapInsertKeep (fun e' : Edge I W => e'.to_) e p.2)

/-- graph.rs `Graph::add_edge`.  The undirected branch inserts the mirror edge
into the target's adjacency set first, then the given edge, exactly as the
source does. -/
def add_edge (g : Graph I W) (from_ : I) (e : Edge I W) :
    Except GraphOperationError Unit × Graph I W :=
  if e.weight.isSome ∧ ¬ g.is_weighted then (.error .WeightedEdgeInUnweightedGraph, g)
  else if e.weight.isNone ∧ g.is_weighted then (.error .UnweightedEdgeInWeightedGraph, g)
  else if ¬ (g.containsVertex from_ ∧ g.containsVertex e.to_) then
    (.error .SomeVerticesNotFound, g)
  else if g.is_directed then
    if (mapLookup (fun e' : Edge I W => e'.to_) e.to_ (g.adjD from_)).isSome then
      (.error .EdgeExists, g)
    else
      (.ok (), { g with edges := mapAdjust Prod.fst from_ (insEntry e) g.edges })
  else
    let rev_e : Edge I W := ⟨from_, e.weight⟩
    if (mapLookup (fun e' : Edge I W => e'.to_) e.to_ (g.adjD from_)).isSome ∨
        (mapLookup (fun e' : Edge I W => e'.to_) from_ (g.adjD e.to_)).isSome then
      (.error .EdgeExists, g)
    else
      (.ok (),
        { g with
          edges := mapAdjust Prod.fst from_ (insEntry e)
            (mapAdjust Prod.fst e.to_ (insEntry rev_e) g.edges) })

/-- graph.rs `Graph::remove_edge`. -/
def remove_edge (g : Graph I W) (from_ to_ : I) :
    Except GraphOperationError Unit × Graph I W :=
  if ¬ (g.containsVertex from_ ∧ g.containsVertex to_) then
    (.error .SomeVerticesNotFound, g)
  else if (mapLookup (fun e' : Edge I W => e'.to_) to_ (g.adjD from_)).isNone then
    (.error .EdgeNotFound, g)
  else
    let es1 := mapAdjust Prod.fst from_ (stripEntry to_) g.edges
    let es2 :=
      if g.is_directed then es1
      else mapAdjust Prod.fst to_ (stripEntry from_) es1
    (.ok (), { g with edges := es2 })

/-- The weight stored on the arc `u → v` of a raw adjacency map: `some w` when
the arc is stored with weight field `w`, `none` when `u` has no adjacency
entry or no arc to `v`. -/
def lookupW (es : List (I × List (Edge I W))) (u v : I) : Option (Option W) :=
  (mapLookup Prod.fst u es).bind fun p =>
    (mapLookup (fun e : Edge I W => e.to_) v p.2).map (fun e => e.weight)

/-- The weight stored on the arc `u → v` of a graph. -/
def edgeWeight (g : Graph I W) (u v : I) : Option (Option W) :=
  lookupW g.edges u v

/-- Ids of the vertex map. -/
def vertexKeys (g : Graph I W) : List I :=
  g.vertices.map (fun v => v.id)

/-- Keys of the adjacency map. -/
def edgeKeys (g : Graph I W) : List I :=
  g.edges.map Prod.fst

/-- The key sets of the vertex map and the adjacency map coincide (stated as
equality of the two sorted key lists). -/
def KeysEq (g : Graph I W) : Prop :=
  g.vertexKeys = g.edgeKeys

/-- Structural sortedness of the three sorted containers of a graph. -/
def GSorted (g : Graph I W) : Prop :=
  SortedByKey (fun v : Vertex I => v.id) g.vertices ∧
  SortedByKey Prod.fst g.edges ∧
  ∀ p ∈ g.edges, SortedByKey (fun e : Edge I W => e.to_) p.2

instance (g : Graph I W) : Decidable g.KeysEq :=
  inferInstanceAs (Decidable
    (g.vertices.map (fun v => v.id) = g.edges.map Prod.fst))

instance (g : Graph I W) : Decidable g.GSorted :=
  inferInstanceAs (Decidable
    (List.Pairwise (fun a b : Vertex I => a.id < b.id) g.vertices ∧
     List.Pairwise (fun a b : I × List (Edge I W) => a.1 < b.1) g.edges ∧
     ∀ p ∈ g.edges, List.Pairwise (fun a b : Edge I W => a.to_ < b.to_) p.2))

end Graph

/-- Two's-complement wrapping into the `i32` range, the release-mode semantics
of Rust `i32` addition and subtraction. -/
def wrap32 (x : Int) : Int := (x + 2 ^ 31) % 2 ^ 32 - 2 ^ 31

/-- `i32` addition (wrapping). -/
def i32add (x y : Int) : Int := wrap32 (x + y)

/-- `i32` subtraction (wrapping). -/
def i32sub (x y : Int) : Int := wrap32 (x - y)

/-- `i32::MAX`, the `INF` sentinel the engine uses for integer weights. -/
def i32max : Int := 2147483647

/-- Data carried by the `Step`/`Finished` states (graph_flows.rs
`AlgorithmData`), specialized to the integer variant of `EdgeWeights`. -/
structure AlgorithmStepData (I : Type) where
  s : I
  t : I
  gc : Graph I Int
  gf : Graph I Int
  curr_path : Option (List ((I × I) × Int))
  last_flow : Int
  total_flow : Int
deriving DecidableEq, Repr

/-- State of the interruptible Ford–Fulkerson computation (graph_flows.rs
`AlgorithmState`). -/
inductive AlgorithmState (I : Type) where
  | NotStarted
  | Step (d : AlgorithmStepData I)
  | Finished (d : AlgorithmStepData I)
deriving DecidableEq, Repr

/-- Result bundle of one `dfs` call: the flow graph, the visited set and the
current-path map as mutated by the call, plus the returned flow. -/
structure DfsRes (I : Type) where
  gf : Graph I Int
  used : List I
  cp : List ((I × I) × Int)
  flow : Int

/-- `BTreeMap<(I, I), W>::insert` on the current-path map: keyed by the arc
pair under the lexicographic order, replacing an existing entry. -/
def cpInsert {I : Type} [LinearOrder I] [DecidableEq I] (k : I × I) (w : Int) :
    List ((I × I) × Int) → List ((I × I) × Int)
  | [] => [(k, w)]
  | b :: t =>
    if k.1 < b.1.1 ∨ (k.1 = b.1.1 ∧ k.2 < b.1.2) then (k, w) :: b :: t
    else if k = b.1 then (k, w) :: t
    else b :: cpInsert k w t

/-- `gf.get_edge(u, v).unwrap().weight.as_ref().unwrap()`: the flow stored on
arc `u → v`.  Both defaults are unreachable in the uses below because `gf`
carries a weighted arc wherever the capacity graph does. -/
def flowAt {I : Type} [LinearOrder I] [DecidableEq I] (gf : Graph I Int) (u v : I) : Int :=
  ((gf.edgeWeight u v).getD none).getD 0

/-- The body of the `for Edge { to, weight: c } in gc.get_edge_list(i)` loop of
graph_flows.rs `dfs`, with the recursive call abstracted as `dfsF`: reads
capacity and current flow, recurses with the tightened flow bound, and on a
positive result records the forward and reverse flow deltas in `gf` and the
current path and returns early. -/
def dfsLoop {I : Type} [LinearOrder I] [DecidableEq I]
    (dfsF : Graph I Int → List I → List ((I × I) × Int) → I → Int → DfsRes I)
    (gf : Graph I Int) (used : List I) (cp : List ((I × I) × Int))
    (i : I) (flow : Int) : List (Edge I Int) → DfsRes I
  | [] => ⟨gf, used, cp, 0⟩
  | e :: rest =>
    let c := e.weight.getD 0
    let f := flowAt gf i e.to_
    let r := i32sub c f
    let res := dfsF gf used cp e.to_ (min flow r)
    if res.flow = 0 then dfsLoop dfsF res.gf res.used res.cp i flow rest
    else
      let cp1 := cpInsert (i, e.to_) res.flow res.cp
      let gf1 := (Graph.remove_edge res.gf i e.to_).2
      let gf2 := (Graph.add_edge gf1 i ⟨e.to_, some (i32add f res.flow)⟩).2
      let cp2 := cpInsert (e.to_, i) (i32sub 0 res.flow) cp1
      let rev_f := flowAt gf2 e.to_ i
      let gf3 := (Graph.remove_edge gf2 e.to_ i).2
      let gf4 := (Graph.add_edge gf3 e.to_ ⟨i, some (i32sub rev_f res.flow)⟩).2
      ⟨gf4, res.used, cp2, res.flow⟩

/-- graph_flows.rs `dfs`, the augmenting-path depth-first search, specialized
to integer weights (`zero = 0`).  The Rust recursion terminates because every
recursive layer inserts a fresh vertex into `used`; the embedding makes this
explicit with a fuel argument, always called with fuel `|vertices| + 1`, which
the depth bound never exhausts. -/
def dfs {I : Type} [LinearOrder I] [DecidableEq I] (fuel : Nat)
    (gc : Graph I Int) (gf : Graph I Int) (used : List I)
    (cp : List ((I × I) × Int)) (s t i : I) (flow : Int) : DfsRes I :=
  match fuel with
  | 0 => ⟨gf, used, cp, 0⟩
  | fuel + 1 =>
    if i = t then ⟨gf, used, cp, flow⟩
    else if flow = 0 ∨ i ∈ used then ⟨gf, used, cp, 0⟩
    else
      dfsLoop (fun gf' used' cp' v fl => dfs fuel gc gf' used' cp' s t v fl)
        gf (insertKey i used) cp i flow (gc.adjD i)

/-- The list of all arcs of the graph, in the iteration order of
graph_flows.rs `algorithm_step` (vertices in ascending id order, each
adjacency set in ascending target order). -/
def arcsOf {I : Type} [LinearOrder I] [DecidableEq I] (g : Graph I Int) : List (I × I) :=
  g.vertices.flatMap fun v => (g.adjD v.id).map fun e => (v.id, e.to_)

/-- The capacity graph `gc` built by the `NotStarted` branch of
graph_flows.rs `algorithm_step`: a clone of the graph into which, for every
arc `(i, to)`, a reverse arc `to → i` of weight `ZERO` is inserted best-effort
(`let _ = gc.add_edge(...)`). -/
def buildGc {I : Type} [LinearOrder I] [DecidableEq I] (g : Graph I Int) : Graph I Int :=
  (arcsOf g).foldl (fun gc p => (Graph.add_edge gc p.2 ⟨p.1, some 0⟩).2) g

/-- The flow graph `gf` built by the `NotStarted` branch of graph_flows.rs
`algorithm_step`: a fresh directed weighted graph with the same vertices, all
arcs of the original inserted with weight `ZERO` (`.unwrap()`), then their
reverses inserted best-effort with weight `ZERO`. -/
def buildGf {I : Type} [LinearOrder I] [DecidableEq I] (g : Graph I Int) : Graph I Int :=
  let gf0 : Graph I Int := Graph.new true true g.is_float_weights
  let gf1 := g.vertices.foldl (fun gf v => (Graph.add_vertex gf v).2) gf0
  let gf2 := (arcsOf g).foldl (fun gf p => (Graph.add_edge gf p.1 ⟨p.2, some 0⟩).2) gf1
  (arcsOf g).foldl (fun gf p => (Graph.add_edge gf p.2 ⟨p.1, some 0⟩).2) gf2

/-- graph_flows.rs `algorithm_step`, specialized to the integer variant of
`EdgeWeights` (`zero = 0`, `inf = i32::MAX`); the source/sink arguments are
taken as already-parsed vertex keys (the `FromStr` parse of the textual
arguments is not modelled, so the `IncorrectArgument` branches are absent). -/
def algorithm_step {I : Type} [LinearOrder I] [DecidableEq I]
    (state : AlgorithmState I) (g : Option (Graph I Int)) (s t : I) :
    Except GraphError (AlgorithmState I) :=
  match state with
  | .NotStarted =>
    match g with
    | none => .error (.interfaceError .GraphNotExist)
    | some g =>
      if ¬ g.is_directed then .error (.algorithmError .GraphNotDirected)
      else if ¬ g.is_weighted then .error (.algorithmError .GraphNotWeighted)
      else .ok (.Step ⟨s, t, buildGc g, buildGf g, none, 0, 0⟩)
  | .Step data =>
    let res := dfs (data.gc.vertices.length + 1) data.gc data.gf [] []
      data.s data.t data.s i32max
    let total := i32add data.total_flow res.flow
    if res.flow = 0 then
      .ok (.Finished ⟨data.s, data.t, data.gc, res.gf, none, res.flow, total⟩)
    else
      .ok (.Step ⟨data.s, data.t, data.gc, res.gf, some res.cp, res.flow, total⟩)
  | .Finished _ => .ok .NotStarted

/-- `n` successive calls of `algorithm_step` starting from `NotStarted`,
feeding each returned state into the next call. -/
def runAlg {I : Type} [LinearOrder I] [DecidableEq I]
    (g : Graph I Int) (s t : I) : Nat → Except GraphError (AlgorithmState I)
  | 0 => .ok .NotStarted
  | n + 1 =>
    match runAlg g s t n with
    | .ok st => algorithm_step st (some g) s t
    | .error e => .error e

/-! ### Lemmas about the sorted association-list primitives -/

section MapLemmas

variable {I A : Type} [LinearOrder I] [DecidableEq I] {key : A → I}
variable {l t : List A} {a b x : A} {k k' : I} {f : A → A}

theorem sortedByKey_cons :
    SortedByKey key (b :: t) ↔ (∀ a ∈ t, key b < key a) ∧ SortedByKey key t :=
  List.pairwise_cons

theorem mapLookup_eq_none :
    mapLookup key k l = none ↔ ∀ a ∈ l, key a ≠ k := by
  induction l with
  | nil => simp [mapLookup]
  | cons b t ih =>
    by_cases h : key b = k <;> simp [mapLookup, h, ih]

theorem mapLookup_mem (h : mapLookup key k l = some a) : a ∈ l ∧ key a = k := by
  induction l with
  | nil => simp [mapLookup] at h
  | cons b t ih =>
    by_cases hb : key b = k
    · simp [mapLookup, hb] at h
      subst h; exact ⟨List.mem_cons_self _ _, hb⟩
    · simp [mapLookup, hb] at h
      obtain ⟨h1, h2⟩ := ih h
      exact ⟨List.mem_cons_of_mem _ h1, h2⟩

theorem mapLookup_of_mem (hs : SortedByKey key l) (ha : a ∈ l) :
    mapLookup key (key a) l = some a := by
  induction l with
  | nil => simp at ha
  | cons b t ih =>
    rw [sortedByKey_cons] at hs
    rcases List.mem_cons.mp ha with h | h
    · subst h; simp [mapLookup]
    · have hne : key b ≠ key a := ne_of_lt (hs.1 a h)
      simp [mapLookup, hne]
      exact ih hs.2 h

theorem mapLookup_isSome_iff :
    (mapLookup key k l).isSome = true ↔ ∃ a ∈ l, key a = k := by
  rcases h : mapLookup key k l with _ | a
  · rw [mapLookup_eq_none] at h
    simp only [Option.isSome_none, Bool.false_eq_true, false_iff]
    push_neg
    exact h
  · obtain ⟨h1, h2⟩ := mapLookup_mem h
    simp only [Option.isSome_some, true_iff]
    exact ⟨a, h1, h2⟩

theorem mem_mapInsertKeep (h : x ∈ mapInsertKeep key a l) : x = a ∨ x ∈ l := by
  induction l with
  | nil => simpa [mapInsertKeep] using h
  | cons b t ih =>
    simp only [mapInsertKeep] at h
    split_ifs at h with h1 h2
    · simpa using h
    · simp [h]
    · rcases List.mem_cons.mp h with h | h
      · simp [h]
      · rcases ih h with h | h
        · exact Or.inl h
        · exact Or.inr (List.mem_cons_of_mem _ h)

theorem mem_mapInsertReplace (h : x ∈ mapInsertReplace key a l) : x = a ∨ x ∈ l := by
  induction l with
  | nil => simpa [mapInsertReplace] using h
  | cons b t ih =>
    simp only [mapInsertReplace] at h
    split_ifs at h with h1 h2
    · simpa using h
    · rcases List.mem_cons.mp h with h | h
      · exact Or.inl h
      · exact Or.inr (List.mem_cons_of_mem _ h)
    · rcases List.mem_cons.mp h with h | h
      · simp [h]
      · rcases ih h with h | h
        · exact Or.inl h
        · exact Or.inr (List.mem_cons_of_mem _ h)

theorem mem_mapRemove (h : x ∈ mapRemove key k l) : x ∈ l := by
  induction l with
  | nil => simpa [mapRemove] using h
  | cons b t ih =>
    simp only [mapRemove] at h
    split_ifs at h with h1
    · exact List.mem_cons_of_mem _ h
    · rcases List.mem_cons.mp h with h | h
      · simp [h]
      · exact List.mem_cons_of_mem _ (ih h)

theorem mem_mapAdjust (h : x ∈ mapAdjust key k f l) : x ∈ l ∨ ∃ b ∈ l, x = f b := by
  induction l with
  | nil => simpa [mapAdjust] using h
  | cons b t ih =>
    simp only [mapAdjust] at h
    split_ifs at h with h1
    · rcases List.mem_cons.mp h with h | h
      · exact Or.inr ⟨b, List.mem_cons_self _ _, h⟩
      · exact Or.inl (List.mem_cons_of_mem _ h)
    · rcases List.mem_cons.mp h with h | h
      · exact Or.inl (by simp [h])
      · rcases ih h with h | ⟨c, hc1, hc2⟩
        · exact Or.inl (List.mem_cons_of_mem _ h)
        · exact Or.inr ⟨c, List.mem_cons_of_mem _ hc1, hc2⟩

theorem sorted_mapInsertKeep (hs : SortedByKey key l) :
    SortedByKey key (mapInsertKeep key a l) := by
  induction l with
  | nil => simp [mapInsertKeep, SortedByKey]
  | cons b t ih =>
    rw [sortedByKey_cons] at hs
    simp only [mapInsertKeep]
    split_ifs with h1 h2
    · rw [sortedByKey_cons, sortedByKey_cons]
      refine ⟨?_, hs⟩
      intro c hc
      rcases List.mem_cons.mp hc with h | h
      · subst h; exact h1
      · exact lt_trans h1 (hs.1 c h)
    · rw [sortedByKey_cons]; exact hs
    · rw [sortedByKey_cons]
      refine ⟨?_, ih hs.2⟩
      intro c hc
      rcases mem_mapInsertKeep hc with h | h
      · subst h; exact lt_of_le_of_ne (le_of_not_lt h1) (Ne.symm h2)
      · exact hs.1 c h

theorem sorted_mapInsertReplace (hs : SortedByKey key l) :
    SortedByKey key (mapInsertReplace key a l) := by
  induction l with
  | nil => simp [mapInsertReplace, SortedByKey]
  | cons b t ih =>
    rw [sortedByKey_cons] at hs
    simp only [mapInsertReplace]
    split_ifs with h1 h2
    · rw [sortedByKey_cons, sortedByKey_cons]
      refine ⟨?_, hs⟩
      intro c hc
      rcases List.mem_cons.mp hc with h | h
      · subst h; exact h1
      · exact lt_trans h1 (hs.1 c h)
    · rw [sortedByKey_cons]
      refine ⟨?_, hs.2⟩
      intro c hc
      rw [h2]
      exact hs.1 c hc
    · rw [sortedByKey_cons]
      refine ⟨?_, ih hs.2⟩
      intro c hc
      rcases mem_mapInsertReplace hc with h | h
      · subst h; exact lt_of_le_of_ne (le_of_not_lt h1) (Ne.symm h2)
      · exact hs.1 c h

theorem sorted_mapRemove (hs : SortedByKey key l) :
    SortedByKey key (mapRemove key k l) := by
  induction l with
  | nil => simp [mapRemove, SortedByKey]
  | cons b t ih =>
    rw [sortedByKey_cons] at hs
    simp only [mapRemove]
    split_ifs with h1
    · exact hs.2
    · rw [sortedByKey_cons]
      exact ⟨fun c hc => hs.1 c (mem_mapRemove hc), ih hs.2⟩

theorem sorted_mapAdjust (hf : ∀ b, key (f b) = key b) (hs : SortedByKey key l) :
    SortedByKey key (mapAdjust key k f l) := by
  induction l with
  | nil => simp [mapAdjust, SortedByKey]
  | cons b t ih =>
    rw [sortedByKey_cons] at hs
    simp only [mapAdjust]
    split_ifs with h1
    · rw [sortedByKey_cons]
      refine ⟨?_, hs.2⟩
      intro c hc
      rw [hf b]
      exact hs.1 c hc
    · rw [sortedByKey_cons]
      refine ⟨?_, ih hs.2⟩
      intro c hc
      rcases mem_mapAdjust hc with h | ⟨d, hd1, hd2⟩
      · exact hs.1 c h
      · subst hd2; rw [hf d]; exact hs.1 d hd1

theorem mapLookup_mapInsertKeep (hs : SortedByKey key l) :
    mapLookup key k (mapInsertKeep key a l) =
      if k = key a then some ((mapLookup key (key a) l).getD a)
      else mapLookup key k l := by
  induction l with
  | nil =>
    by_cases hk : k = key a
    · subst hk; simp [mapInsertKeep, mapLookup]
    · simp [mapInsertKeep, mapLookup, hk, Ne.symm hk]
  | cons b t ih =>
    rw [sortedByKey_cons] at hs
    by_cases h1 : key a < key b
    · rw [show mapInsertKeep key a (b :: t) = a :: b :: t by
        simp [mapInsertKeep, h1]]
      have hnone : mapLookup key (key a) (b :: t) = none := by
        rw [mapLookup_eq_none]
        intro c hc
        rcases List.mem_cons.mp hc with h | h
        · subst h; exact ne_of_gt h1
        · exact ne_of_gt (lt_trans h1 (hs.1 c h))
      by_cases hk : k = key a
      · subst hk
        rw [if_pos rfl, hnone]
        simp [mapLookup]
      · rw [if_neg hk]
        simp [mapLookup, Ne.symm hk]
    · by_cases h2 : key a = key b
      · rw [show mapInsertKeep key a (b :: t) = b :: t by
          simp [mapInsertKeep, h1, h2]]
        by_cases hk : k = key a
        · subst hk
          have hb : key b = key a := h2.symm
          simp [mapLookup, hb]
        · rw [if_neg hk]
      · rw [show mapInsertKeep key a (b :: t) = b :: mapInsertKeep key a t by
          simp [mapInsertKeep, h1, h2]]
        by_cases hbk : key b = k
        · have hk : k ≠ key a := by
            rw [← hbk]; exact fun h => h2 h.symm
          rw [if_neg hk]
          simp [mapLookup, hbk]
        · have hba : key b ≠ key a := fun h => h2 h.symm
          rw [mapLookup, if_neg hbk, ih hs.2]
          by_cases hk : k = key a
          · rw [if_pos hk, if_pos hk, mapLookup, if_neg hba]
          · rw [if_neg hk, if_neg hk, mapLookup, if_neg hbk]

theorem mapLookup_mapInsertReplace (hs : SortedByKey key l) :
    mapLookup key k (mapInsertReplace key a l) =
      if k = key a then some a else mapLookup key k l := by
  induction l with
  | nil =>
    by_cases hk : k = key a
    · subst hk; simp [mapInsertReplace, mapLookup]
    · simp [mapInsertReplace, mapLookup, hk, Ne.symm hk]
  | cons b t ih =>
    rw [sortedByKey_cons] at hs
    by_cases h1 : key a < key b
    · rw [show mapInsertReplace key a (b :: t) = a :: b :: t by
        simp [mapInsertReplace, h1]]
      by_cases hk : k = key a
      · subst hk
        simp [mapLookup]
      · rw [if_neg hk]
        simp [mapLookup, Ne.symm hk]
    · by_cases h2 : key a = key b
      · rw [show mapInsertReplace key a (b :: t) = a :: t by
          simp [mapInsertReplace, h1, h2]]
        by_cases hk : k = key a
        · subst hk
          simp [mapLookup]
        · rw [if_neg hk]
          have hbk : key b ≠ k := by
            rw [← h2]; exact fun h => hk h.symm
          simp [mapLookup, hbk, Ne.symm hk]
      · rw [show mapInsertReplace key a (b :: t) = b :: mapInsertReplace key a t by
          simp [mapInsertReplace, h1, h2]]
        by_cases hbk : key b = k
        · have hk : k ≠ key a := by
            rw [← hbk]; exact fun h => h2 h.symm
          rw [if_neg hk]
          simp [mapLookup, hbk]
        · rw [mapLookup, if_neg hbk, ih hs.2]
          by_cases hk : k = key a
          · rw [if_pos hk, if_pos hk]
          · rw [if_neg hk, if_neg hk, mapLookup, if_neg hbk]

theorem mapLookup_mapRemove (hs : SortedByKey key l) :
    mapLookup key k (mapRemove key k' l) =
      if k = k' then none else mapLookup key k l := by
  induction l with
  | nil => simp [mapRemove, mapLookup]
  | cons b t ih =>
    rw [sortedByKey_cons] at hs
    by_cases hb : key b = k'
    · rw [show mapRemove key k' (b :: t) = t by simp [mapRemove, hb]]
      by_cases hk : k = k'
      · subst hk
        rw [if_pos rfl, mapLookup_eq_none]
        intro c hc
        rw [← hb]
        exact ne_of_gt (hs.1 c hc)
      · rw [if_neg hk, mapLookup, if_neg (by rw [hb]; exact fun h => hk h.symm)]
    · rw [show mapRemove key k' (b :: t) = b :: mapRemove key k' t by
        simp [mapRemove, hb]]
      by_cases hbk : key b = k
      · have hk : k ≠ k' := by rw [← hbk]; exact fun h => hb h
        rw [if_neg hk]
        simp [mapLookup, hbk]
      · rw [mapLookup, if_neg hbk, ih hs.2]
        by_cases hk : k = k'
        · rw [if_pos hk, if_pos hk]
        · rw [if_neg hk, if_neg hk, mapLookup, if_neg hbk]

theorem mapLookup_mapAdjust (hf : ∀ b, key (f b) = key b) (hs : SortedByKey key l) :
    mapLookup key k (mapAdjust key k' f l) =
      if k = k' then (mapLookup key k l).map f else mapLookup key k l := by
  induction l with
  | nil => simp [mapAdjust, mapLookup]
  | cons b t ih =>
    rw [sortedByKey_cons] at hs
    by_cases hb : key b = k'
    · rw [show mapAdjust key k' f (b :: t) = f b :: t by simp [mapAdjust, hb]]
      by_cases hk : k = k'
      · subst hk
        rw [if_pos rfl]
        simp [mapLookup, hf b, hb]
      · rw [if_neg hk]
        have h1 : key (f b) ≠ k := by rw [hf b, hb]; exact fun h => hk h.symm
        have h2 : key b ≠ k := by rw [hb]; exact fun h => hk h.symm
        simp [mapLookup, h1, h2]
    · rw [show mapAdjust key k' f (b :: t) = b :: mapAdjust key k' f t by
        simp [mapAdjust, hb]]
      by_cases hbk : key b = k
      · have hk : k ≠ k' := by rw [← hbk]; exact fun h => hb h
        rw [if_neg hk]
        simp [mapLookup, hbk]
      · rw [mapLookup, if_neg hbk, ih hs.2]
        by_cases hk : k = k'
        · rw [if_pos hk, if_pos hk, mapLookup, if_neg hbk]
        · rw [if_neg hk, if_neg hk, mapLookup, if_neg hbk]

theorem sorted_ext (hs1 : SortedByKey key l) {l2 : List A} (hs2 : SortedByKey key l2)
    (h : ∀ k, mapLookup key k l = mapLookup key k l2) : l = l2 := by
  induction l generalizing l2 with
  | nil =>
    cases l2 with
    | nil => rfl
    | cons b t2 =>
      have := h (key b)
      simp [mapLookup] at this
  | cons a t ih =>
    cases l2 with
    | nil =>
      have := h (key a)
      simp [mapLookup] at this
    | cons b t2 =>
      rw [sortedByKey_cons] at hs1 hs2
      have hab : a = b := by
        by_cases hk : key a = key b
        · have := h (key a)
          simp [mapLookup, hk.symm] at this
          exact this
        · -- a must be in t2 via lookup, forcing key b < key a; symmetric gives key a < key b
          have ha : mapLookup key (key a) (b :: t2) = some a := by
            rw [← h (key a)]; simp [mapLookup]
          have hb : mapLookup key (key b) (a :: t) = some b := by
            rw [h (key b)]; simp [mapLookup]
          have ha2 : a ∈ t2 := by
            rcases List.mem_cons.mp (mapLookup_mem ha).1 with h1 | h1
            · exact absurd (congrArg key h1) hk
            · exact h1
          have hb2 : b ∈ t := by
            rcases List.mem_cons.mp (mapLookup_mem hb).1 with h1 | h1
            · exact absurd (congrArg key h1) (fun h' => hk h'.symm)
            · exact h1
          exact absurd (lt_trans (hs2.1 a ha2) (hs1.1 b hb2)) (lt_irrefl _)
      subst hab
      have ht : t = t2 := by
        apply ih hs1.2 hs2.2
        intro k
        by_cases hk : key a = k
        · subst hk
          rw [mapLookup_eq_none.mpr fun c hc => ne_of_gt (hs1.1 c hc),
            mapLookup_eq_none.mpr fun c hc => ne_of_gt (hs2.1 c hc)]
        · have := h k
          simpa [mapLookup, hk] using this
      rw [ht]

theorem map_key_mapInsertKeep :
    (mapInsertKeep key a l).map key = insertKey (key a) (l.map key) := by
  induction l with
  | nil => simp [mapInsertKeep, insertKey]
  | cons b t ih =>
    simp only [mapInsertKeep, List.map_cons, insertKey]
    split_ifs with h1 h2 <;> simp [ih]

theorem map_key_mapInsertReplace :
    (mapInsertReplace key a l).map key = insertKey (key a) (l.map key) := by
  induction l with
  | nil => simp [mapInsertReplace, insertKey]
  | cons b t ih =>
    simp only [mapInsertReplace, List.map_cons, insertKey]
    split_ifs with h1 h2
    · simp
    · simp [h2]
    · simp [ih]

theorem map_key_mapRemove :
    (mapRemove key k l).map key = removeKey k (l.map key) := by
  induction l with
  | nil => simp [mapRemove, removeKey]
  | cons b t ih => by_cases h1 : key b = k <;> simp [mapRemove, removeKey, h1, ih]

theorem map_key_mapAdjust (hf : ∀ b, key (f b) = key b) :
    (mapAdjust key k f l).map key = l.map key := by
  induction l with
  | nil => simp [mapAdjust]
  | cons b t ih => by_cases h1 : key b = k <;> simp [mapAdjust, h1, ih, hf b]

end MapLemmas

/-! ### Graph-level helper lemmas -/

namespace Graph

variable {I W : Type} [LinearOrder I] [DecidableEq I] [DecidableEq W]
variable {g : Graph I W} {u v k i : I}

theorem containsVertex_iff : g.containsVertex u = true ↔ u ∈ g.vertexKeys := by
  simp [containsVertex, mapLookup_isSome_iff, vertexKeys, List.mem_map]

theorem adjGet_isSome_iff : (g.adjGet u).isSome = true ↔ u ∈ g.edgeKeys := by
  simp [adjGet, mapLookup_isSome_iff, edgeKeys, List.mem_map]

theorem adjGet_eq_some_of_contains (hk : g.KeysEq) (h : g.containsVertex u = true) :
    ∃ l, g.adjGet u = some l := by
  have h1 : u ∈ g.edgeKeys := by
    have h2 := containsVertex_iff.mp h
    rw [KeysEq] at hk
    rwa [hk] at h2
  exact Option.isSome_iff_exists.mp (adjGet_isSome_iff.mpr h1)

theorem edgeWeight_of_mem {p : I × List (Edge I W)} {e : Edge I W} (hs : g.GSorted)
    (hp : p ∈ g.edges) (he : e ∈ p.2) : g.edgeWeight p.1 e.to_ = some e.weight := by
  have h1 : mapLookup Prod.fst p.1 g.edges = some p := mapLookup_of_mem hs.2.1 hp
  have h2 : mapLookup (fun e' : Edge I W => e'.to_) e.to_ p.2 = some e :=
    mapLookup_of_mem (hs.2.2 p hp) he
  simp [edgeWeight, lookupW, h1, h2]

theorem exists_of_edgeWeight_ne_none (h : g.edgeWeight u v ≠ none) :
    ∃ p ∈ g.edges, p.1 = u ∧ ∃ e ∈ p.2, e.to_ = v := by
  rcases h1 : mapLookup Prod.fst u g.edges with _ | p
  · simp [edgeWeight, lookupW, h1] at h
  · rcases h2 : mapLookup (fun e' : Edge I W => e'.to_) v p.2 with _ | e
    · simp [edgeWeight, lookupW, h1, h2] at h
    · obtain ⟨hp, hpu⟩ := mapLookup_mem h1
      obtain ⟨he, hev⟩ := mapLookup_mem h2
      exact ⟨p, hp, hpu, e, he, hev⟩

/-! ### Per-operation shape and preservation lemmas -/

theorem stripEntry_fst (i : I) :
    ∀ p : I × List (Edge I W), Prod.fst (stripEntry i p) = Prod.fst p :=
  fun _ => rfl

theorem add_vertex_fail {v0 : Vertex I} (h : g.containsVertex v0.id = true) :
    g.add_vertex v0 = (.error .VertexExists, g) := by
  simp [add_vertex, h]

theorem add_vertex_ok {v0 : Vertex I} (h : g.containsVertex v0.id = false) :
    g.add_vertex v0 =
      (.ok (),
        { g with
          edges := mapInsertReplace Prod.fst (v0.id, ([] : List (Edge I W))) g.edges,
          vertices := mapInsertReplace (fun v : Vertex I => v.id) v0 g.vertices }) := by
  simp [add_vertex, h]

theorem gsorted_add_vertex {v0 : Vertex I} (hs : g.GSorted) :
    ((g.add_vertex v0).2).GSorted := by
  rcases Bool.eq_false_or_eq_true (g.containsVertex v0.id) with h | h
  · rw [add_vertex_fail h]
    exact hs
  · rw [add_vertex_ok h]
    obtain ⟨h1, h2, h3⟩ := hs
    refine ⟨sorted_mapInsertReplace h1, sorted_mapInsertReplace h2, ?_⟩
    intro p hp
    rcases mem_mapInsertReplace hp with h4 | h4
    · subst h4
      simp [SortedByKey]
    · exact h3 p h4

theorem keysEq_add_vertex {v0 : Vertex I} (hk : g.KeysEq) :
    ((g.add_vertex v0).2).KeysEq := by
  rcases Bool.eq_false_or_eq_true (g.containsVertex v0.id) with h | h
  · rw [add_vertex_fail h]
    exact hk
  · rw [add_vertex_ok h]
    unfold KeysEq vertexKeys edgeKeys at hk ⊢
    simp only [map_key_mapInsertReplace]
    rw [hk]

theorem edgeWeight_add_vertex_ok {v0 : Vertex I} (hs : g.GSorted)
    (h : g.containsVertex v0.id = false) :
    ∀ u v, ((g.add_vertex v0).2).edgeWeight u v =
      if u = v0.id then none else g.edgeWeight u v := by
  intro u v
  rw [add_vertex_ok h]
  simp only [edgeWeight, lookupW]
  rw [mapLookup_mapInsertReplace hs.2.1]
  by_cases hu : u = v0.id
  · simp [hu, mapLookup]
  · simp [hu]

theorem remove_vertex_fail (h : g.containsVertex i = false) :
    g.remove_vertex i = (.error .VertexNotFound, g) := by
  simp [remove_vertex, h]

theorem remove_vertex_ok (h : g.containsVertex i = true) :
    g.remove_vertex i =
      (.ok (),
        { g with
          edges := mapRemove Prod.fst i (stripTargets i g.vertices g.edges),
          vertices := mapRemove (fun v : Vertex I => v.id) i g.vertices }) := by
  simp [remove_vertex, h]

theorem stripTargets_map_fst {vs : List (Vertex I)} {es : List (I × List (Edge I W))} :
    (stripTargets i vs es).map Prod.fst = es.map Prod.fst := by
  induction vs generalizing es with
  | nil => rfl
  | cons v vs ih =>
    rw [show stripTargets i (v :: vs) es =
      stripTargets i vs (mapAdjust Prod.fst v.id (stripEntry i) es) from rfl]
    rw [ih]
    exact map_key_mapAdjust (stripEntry_fst i)

theorem stripTargets_sorted {vs : List (Vertex I)} {es : List (I × List (Edge I W))}
    (hs : SortedByKey Prod.fst es) : SortedByKey Prod.fst (stripTargets i vs es) := by
  induction vs generalizing es with
  | nil => exact hs
  | cons v vs ih =>
    exact ih (sorted_mapAdjust (stripEntry_fst i) hs)

theorem stripTargets_adj_sorted {vs : List (Vertex I)} {es : List (I × List (Edge I W))}
    (h3 : ∀ p ∈ es, SortedByKey (fun e : Edge I W => e.to_) p.2) :
    ∀ p ∈ stripTargets i vs es, SortedByKey (fun e : Edge I W => e.to_) p.2 := by
  induction vs generalizing es with
  | nil => exact h3
  | cons v vs ih =>
    refine ih ?_
    intro p hp
    rcases mem_mapAdjust hp with h4 | ⟨q, hq, h4⟩
    · exact h3 p h4
    · subst h4
      exact sorted_mapRemove (h3 q hq)

theorem stripTargets_lookup {vs : List (Vertex I)} {es : List (I × List (Edge I W))}
    (hs : SortedByKey Prod.fst es) (hvs : SortedByKey (fun v : Vertex I => v.id) vs) :
    mapLookup Prod.fst k (stripTargets i vs es) =
      if k ∈ vs.map (fun v => v.id) then
        (mapLookup Prod.fst k es).map (stripEntry i)
      else mapLookup Prod.fst k es := by
  induction vs generalizing es with
  | nil => simp [stripTargets]
  | cons v vs ih =>
    rw [sortedByKey_cons] at hvs
    rw [show stripTargets i (v :: vs) es =
      stripTargets i vs (mapAdjust Prod.fst v.id (stripEntry i) es) from rfl]
    rw [ih (sorted_mapAdjust (stripEntry_fst i) hs) hvs.2]
    rw [mapLookup_mapAdjust (stripEntry_fst i) hs]
    by_cases hk1 : k = v.id
    · have hnot : k ∉ vs.map (fun v : Vertex I => v.id) := by
        intro hmem
        obtain ⟨a, ha, ha2⟩ := List.mem_map.mp hmem
        rw [hk1] at ha2
        exact absurd (ha2 ▸ hvs.1 a ha) (lt_irrefl _)
      simp [hnot, hk1]
      intro x hx hxid
      exact absurd (List.mem_map.mpr ⟨x, hx, by rw [hxid, ← hk1]⟩) hnot
    · simp [hk1]

theorem gsorted_remove_vertex (hs : g.GSorted) : ((g.remove_vertex i).2).GSorted := by
  rcases Bool.eq_false_or_eq_true (g.containsVertex i) with h | h
  · rw [remove_vertex_ok h]
    obtain ⟨h1, h2, h3⟩ := hs
    refine ⟨sorted_mapRemove h1, sorted_mapRemove (stripTargets_sorted h2), ?_⟩
    intro p hp
    exact stripTargets_adj_sorted h3 p (mem_mapRemove hp)
  · rw [remove_vertex_fail h]
    exact hs

theorem keysEq_remove_vertex (hk : g.KeysEq) : ((g.remove_vertex i).2).KeysEq := by
  rcases Bool.eq_false_or_eq_true (g.containsVertex i) with h | h
  · rw [remove_vertex_ok h]
    unfold KeysEq vertexKeys edgeKeys at hk ⊢
    simp only [map_key_mapRemove]
    rw [stripTargets_map_fst, hk]
  · rw [remove_vertex_fail h]
    exact hk

theorem edgeWeight_remove_vertex_ok (hs : g.GSorted) (hk : g.KeysEq)
    (h : g.containsVertex i = true) :
    ∀ u v, ((g.remove_vertex i).2).edgeWeight u v =
      if u = i ∨ v = i then none else g.edgeWeight u v := by
  intro u v
  rw [remove_vertex_ok h]
  simp only [edgeWeight, lookupW]
  rw [mapLookup_mapRemove (stripTargets_sorted hs.2.1)]
  by_cases hu : u = i
  · simp [hu]
  · rw [if_neg hu]
    rw [stripTargets_lookup hs.2.1 hs.1]
    by_cases hmem : u ∈ g.vertices.map (fun v : Vertex I => v.id)
    · rw [if_pos hmem]
      rcases h1 : mapLookup Prod.fst u g.edges with _ | p
      · simp [hu]
      · have hadj : SortedByKey (fun e : Edge I W => e.to_) p.2 :=
          hs.2.2 p (mapLookup_mem h1).1
        simp only [Option.map_some', Option.some_bind, stripEntry]
        rw [mapLookup_mapRemove hadj]
        by_cases hv : v = i
        · simp [hv, hu]
        · simp [hv, hu]
    · rw [if_neg hmem]
      have hnone : mapLookup Prod.fst u g.edges = none := by
        rw [mapLookup_eq_none]
        intro p hp hpu
        apply hmem
        have h5 : u ∈ g.edgeKeys := by
          rw [edgeKeys]
          exact List.mem_map.mpr ⟨p, hp, hpu⟩
        rw [KeysEq, vertexKeys] at hk
        rw [hk]
        exact h5
      simp [hnone, hu]

theorem remove_vertex_vertices_ok (h : g.containsVertex i = true) :
    ((g.remove_vertex i).2).vertices =
      mapRemove (fun v : Vertex I => v.id) i g.vertices := by
  rw [remove_vertex_ok h]

theorem insEntry_fst (e0 : Edge I W) :
    ∀ p : I × List (Edge I W), Prod.fst (insEntry e0 p) = Prod.fst p :=
  fun _ => rfl

theorem adjD_lookup_isSome_iff (hk : g.KeysEq) (hc : g.containsVertex u = true) :
    (mapLookup (fun e' : Edge I W => e'.to_) v (g.adjD u)).isSome = true ↔
      g.edgeWeight u v ≠ none := by
  obtain ⟨l, hl⟩ := adjGet_eq_some_of_contains hk hc
  obtain ⟨p, hp1, hp2⟩ := Option.map_eq_some'.mp hl
  subst hp2
  simp [adjD, hl, edgeWeight, lookupW, hp1, Option.isSome_iff_ne_none,
    Option.map_eq_none']

theorem lookupW_adjust_ins {es : List (I × List (Edge I W))} {k : I} {e0 : Edge I W}
    (h1 : SortedByKey Prod.fst es)
    (h2 : ∀ p ∈ es, SortedByKey (fun e' : Edge I W => e'.to_) p.2) :
    ∀ u v, lookupW (mapAdjust Prod.fst k (insEntry e0) es) u v =
      if u = k ∧ v = e0.to_ ∧ (mapLookup Prod.fst k es).isSome = true ∧
          lookupW es k e0.to_ = none
      then some e0.weight
      else lookupW es u v := by
  intro u v
  unfold lookupW
  rw [mapLookup_mapAdjust (insEntry_fst e0) h1]
  by_cases hu : u = k
  · subst hu
    rw [if_pos rfl]
    rcases hp : mapLookup Prod.fst u es with _ | p
    · simp [hp]
    · simp only [Option.map_some', Option.some_bind, insEntry]
      rw [mapLookup_mapInsertKeep (h2 p (mapLookup_mem hp).1)]
      by_cases hv : v = e0.to_
      · subst hv
        rcases hq : mapLookup (fun e' : Edge I W => e'.to_) e0.to_ p.2 with _ | e1
        · simp [lookupW, hp, hq]
        · simp [lookupW, hp, hq]
      · simp [lookupW, hp, hv]
  · simp [lookupW, hu]

theorem lookupW_adjust_strip {es : List (I × List (Edge I W))} (k x : I)
    (h1 : SortedByKey Prod.fst es)
    (h2 : ∀ p ∈ es, SortedByKey (fun e' : Edge I W => e'.to_) p.2) :
    ∀ u v, lookupW (mapAdjust Prod.fst k (stripEntry x) es) u v =
      if u = k ∧ v = x then none else lookupW es u v := by
  intro u v
  unfold lookupW
  rw [mapLookup_mapAdjust (stripEntry_fst x) h1]
  by_cases hu : u = k
  · subst hu
    rw [if_pos rfl]
    rcases hp : mapLookup Prod.fst u es with _ | p
    · simp [hp]
    · simp only [Option.map_some', Option.some_bind, stripEntry]
      rw [mapLookup_mapRemove (h2 p (mapLookup_mem hp).1)]
      by_cases hv : v = x
      · simp [hv]
      · simp [lookupW, hp, hv]
  · simp [lookupW, hu]

theorem adj_sorted_adjust_ins {es : List (I × List (Edge I W))} {k : I} {e0 : Edge I W}
    (h2 : ∀ p ∈ es, SortedByKey (fun e' : Edge I W => e'.to_) p.2) :
    ∀ p ∈ mapAdjust Prod.fst k (insEntry e0) es,
      SortedByKey (fun e' : Edge I W => e'.to_) p.2 := by
  intro p hp
  rcases mem_mapAdjust hp with h | ⟨q, hq, h⟩
  · exact h2 p h
  · subst h
    exact sorted_mapInsertKeep (h2 q hq)

theorem adj_sorted_adjust_strip {es : List (I × List (Edge I W))} {k x : I}
    (h2 : ∀ p ∈ es, SortedByKey (fun e' : Edge I W => e'.to_) p.2) :
    ∀ p ∈ mapAdjust Prod.fst k (stripEntry x) es,
      SortedByKey (fun e' : Edge I W => e'.to_) p.2 := by
  intro p hp
  rcases mem_mapAdjust hp with h | ⟨q, hq, h⟩
  · exact h2 p h
  · subst h
    exact sorted_mapRemove (h2 q hq)

theorem gsorted_add_edge {src : I} {e0 : Edge I W} (hs : g.GSorted) :
    ((g.add_edge src e0).2).GSorted := by
  obtain ⟨h1, h2, h3⟩ := hs
  simp only [add_edge]
  split_ifs <;>
    first
      | exact ⟨h1, h2, h3⟩
      | exact ⟨h1, sorted_mapAdjust (insEntry_fst e0) h2, adj_sorted_adjust_ins h3⟩
      | exact ⟨h1,
          sorted_mapAdjust (insEntry_fst e0)
            (sorted_mapAdjust (insEntry_fst ⟨src, e0.weight⟩) h2),
          adj_sorted_adjust_ins (adj_sorted_adjust_ins h3)⟩

theorem keysEq_add_edge {src : I} {e0 : Edge I W} (hk : g.KeysEq) :
    ((g.add_edge src e0).2).KeysEq := by
  unfold KeysEq vertexKeys edgeKeys at hk ⊢
  simp only [add_edge]
  split_ifs <;>
    simp [map_key_mapAdjust (insEntry_fst e0),
      map_key_mapAdjust (insEntry_fst (⟨src, e0.weight⟩ : Edge I W)), hk]

theorem gsorted_remove_edge {src tgt : I} (hs : g.GSorted) :
    ((g.remove_edge src tgt).2).GSorted := by
  obtain ⟨h1, h2, h3⟩ := hs
  simp only [remove_edge]
  split_ifs <;>
    first
      | exact ⟨h1, h2, h3⟩
      | exact ⟨h1, sorted_mapAdjust (stripEntry_fst tgt) h2, adj_sorted_adjust_strip h3⟩
      | exact ⟨h1,
          sorted_mapAdjust (stripEntry_fst src)
            (sorted_mapAdjust (stripEntry_fst tgt) h2),
          adj_sorted_adjust_strip (adj_sorted_adjust_strip h3)⟩

theorem keysEq_remove_edge {src tgt : I} (hk : g.KeysEq) :
    ((g.remove_edge src tgt).2).KeysEq := by
  unfold KeysEq vertexKeys edgeKeys at hk ⊢
  simp only [remove_edge]
  split_ifs <;>
    simp [map_key_mapAdjust (stripEntry_fst tgt), map_key_mapAdjust (stripEntry_fst src), hk]

theorem add_edge_vertices {src : I} {e0 : Edge I W} :
    ((g.add_edge src e0).2).vertices = g.vertices := by
  simp only [add_edge]
  split_ifs <;> rfl

theorem remove_edge_vertices {src tgt : I} :
    ((g.remove_edge src tgt).2).vertices = g.vertices := by
  simp only [remove_edge]
  split_ifs <;> rfl

theorem edgeWeight_eq_none_of_not_contains (hk : g.KeysEq)
    (h : g.containsVertex u = false) : g.edgeWeight u v = none := by
  have h1 : mapLookup Prod.fst u g.edges = none := by
    rw [mapLookup_eq_none]
    intro p hp hpu
    have h2 : u ∈ g.edgeKeys := List.mem_map.mpr ⟨p, hp, hpu⟩
    rw [KeysEq] at hk
    rw [← hk] at h2
    rw [containsVertex_iff.mpr h2] at h
    exact Bool.true_eq_false.mp h
  simp [edgeWeight, lookupW, h1]

theorem get_edge_of_edgeWeight_some {w0 : Option W} (h : g.edgeWeight u v = some w0) :
    g.get_edge u v = .ok ⟨v, w0⟩ := by
  unfold edgeWeight lookupW at h
  rcases h1 : mapLookup Prod.fst u g.edges with _ | p
  · rw [h1] at h
    simp at h
  · rw [h1] at h
    simp only [Option.some_bind] at h
    rcases h2 : mapLookup (fun e' : Edge I W => e'.to_) v p.2 with _ | e
    · rw [h2] at h
      simp at h
    · rw [h2] at h
      simp only [Option.map_some', Option.some_inj] at h
      have h3 : e.to_ = v := (mapLookup_mem h2).2
      have h4 : e = ⟨v, w0⟩ := by
        cases e
        simp_all
      simp [get_edge, get_edge_list, h1, h2, h4]

theorem mapLookup_isSome_mapAdjust {A : Type} {key : A → I} {f : A → A} {k k' : I}
    {l : List A} (hf : ∀ b, key (f b) = key b) (h1 : SortedByKey key l) :
    (mapLookup key k' (mapAdjust key k f l)).isSome = (mapLookup key k' l).isSome := by
  rw [mapLookup_mapAdjust hf h1]
  split_ifs <;> simp

theorem lookupW_adjust_ins2 {es : List (I × List (Edge I W))} (src tgt : I) (w0 : Option W)
    (h1 : SortedByKey Prod.fst es)
    (h2 : ∀ p ∈ es, SortedByKey (fun e' : Edge I W => e'.to_) p.2)
    (hksrc : (mapLookup Prod.fst src es).isSome = true)
    (hktgt : (mapLookup Prod.fst tgt es).isSome = true)
    (habs1 : lookupW es src tgt = none) (habs2 : lookupW es tgt src = none) :
    ∀ u v,
      lookupW (mapAdjust Prod.fst src (insEntry ⟨tgt, w0⟩)
        (mapAdjust Prod.fst tgt (insEntry ⟨src, w0⟩) es)) u v =
      if (u = src ∧ v = tgt) ∨ (u = tgt ∧ v = src) then some w0
      else lookupW es u v := by
  intro u v
  have hs1 : SortedByKey Prod.fst (mapAdjust Prod.fst tgt (insEntry ⟨src, w0⟩) es) :=
    sorted_mapAdjust (insEntry_fst _) h1
  have ha1 : ∀ p ∈ mapAdjust Prod.fst tgt (insEntry ⟨src, w0⟩) es,
      SortedByKey (fun e' : Edge I W => e'.to_) p.2 :=
    adj_sorted_adjust_ins h2
  have c1 : ∀ u' v', lookupW (mapAdjust Prod.fst tgt (insEntry ⟨src, w0⟩) es) u' v' =
      if u' = tgt ∧ v' = src then some w0 else lookupW es u' v' := by
    intro u' v'
    rw [lookupW_adjust_ins h1 h2 u' v']
    dsimp only
    by_cases hc : u' = tgt ∧ v' = src
    · simp [hc, hktgt, habs2]
    · rw [if_neg (fun hcon => hc ⟨hcon.1, hcon.2.1⟩), if_neg hc]
  rw [lookupW_adjust_ins hs1 ha1 u v]
  dsimp only
  have hk1 : (mapLookup Prod.fst src (mapAdjust Prod.fst tgt (insEntry ⟨src, w0⟩) es)).isSome
      = true := by
    rw [mapLookup_isSome_mapAdjust (insEntry_fst _) h1]
    exact hksrc
  by_cases hst : src = tgt
  · subst hst
    have hfull : lookupW (mapAdjust Prod.fst src (insEntry ⟨src, w0⟩) es) src src = some w0 := by
      rw [c1 src src]
      simp
    by_cases hc : u = src ∧ v = src
    · rw [if_neg, c1, if_pos hc]
      · simp [hc]
      · intro hcon
        rw [hfull] at hcon
        simp at hcon
    · rw [if_neg, c1, if_neg hc, if_neg]
      · simp [hc]
      · intro hcon
        rw [hfull] at hcon
        simp at hcon
  · have habs1' : lookupW (mapAdjust Prod.fst tgt (insEntry ⟨src, w0⟩) es) src tgt = none := by
      rw [c1 src tgt]
      rw [if_neg]
      · exact habs1
      · intro hcon
        exact hst hcon.1
    by_cases hc1 : u = src ∧ v = tgt
    · rw [if_pos ⟨hc1.1, hc1.2, hk1, habs1'⟩, if_pos (Or.inl hc1)]
    · rw [if_neg, c1]
      · by_cases hc2 : u = tgt ∧ v = src
        · rw [if_pos hc2, if_pos (Or.inr hc2)]
        · rw [if_neg hc2, if_neg]
          intro hcon
          rcases hcon with hcon | hcon
          · exact hc1 hcon
          · exact hc2 hcon
      · intro hcon
        exact hc1 ⟨hcon.1, hcon.2.1⟩

theorem edgesLookup_isSome_of_contains (hk : g.KeysEq) (hc : g.containsVertex u = true) :
    (mapLookup Prod.fst u g.edges).isSome = true := by
  obtain ⟨l, hl⟩ := adjGet_eq_some_of_contains hk hc
  obtain ⟨p, hp1, _⟩ := Option.map_eq_some'.mp hl
  simp [hp1]

theorem add_edge_ok_undirected_inv {src : I} {e0 : Edge I W}
    (hk : g.KeysEq) (hd : g.is_directed = false)
    (hok : (g.add_edge src e0).1 = .ok ()) :
    (g.add_edge src e0).2 =
      { g with
        edges := mapAdjust Prod.fst src (insEntry e0)
          (mapAdjust Prod.fst e0.to_ (insEntry ⟨src, e0.weight⟩) g.edges) } ∧
    g.containsVertex src = true ∧ g.containsVertex e0.to_ = true ∧
    g.edgeWeight src e0.to_ = none ∧ g.edgeWeight e0.to_ src = none := by
  simp only [add_edge, hd, Bool.false_eq_true, if_false] at hok ⊢
  split_ifs at hok ⊢ with h1 h2 h3 h4
  have hc : g.containsVertex src = true ∧ g.containsVertex e0.to_ = true := h3
  have h5 : ¬ (mapLookup (fun e' : Edge I W => e'.to_) e0.to_ (g.adjD src)).isSome = true ∧
      ¬ (mapLookup (fun e' : Edge I W => e'.to_) src (g.adjD e0.to_)).isSome = true := by
    constructor
    · intro hcon
      exact h4 (Or.inl hcon)
    · intro hcon
      exact h4 (Or.inr hcon)
  have habs1 : g.edgeWeight src e0.to_ = none := by
    have := (adjD_lookup_isSome_iff hk hc.1).not.mp h5.1
    exact not_ne_iff.mp this
  have habs2 : g.edgeWeight e0.to_ src = none := by
    have := (adjD_lookup_isSome_iff hk hc.2).not.mp h5.2
    exact not_ne_iff.mp this
  exact ⟨rfl, hc.1, hc.2, habs1, habs2⟩

theorem remove_edge_ok_undirected_shape {src tgt : I} (hd : g.is_directed = false)
    (hok : (g.remove_edge src tgt).1 = .ok ()) :
    (g.remove_edge src tgt).2 =
      { g with
        edges := mapAdjust Prod.fst tgt (stripEntry src)
          (mapAdjust Prod.fst src (stripEntry tgt) g.edges) } := by
  simp only [remove_edge, hd, Bool.false_eq_true, if_false] at hok ⊢
  split_ifs at hok ⊢
  rfl

theorem get_edge_cases (g : Graph I W) (u v : I) :
    g.get_edge u v =
      match g.adjGet u with
      | none => .error .VertexNotFound
      | some l =>
        match mapLookup (fun e : Edge I W => e.to_) v l with
        | some e => .ok e
        | none => .error .EdgeNotFound := by
  rcases h1 : mapLookup Prod.fst u g.edges with _ | p
  · simp [get_edge, get_edge_list, adjGet, h1]
  · rcases h2 : mapLookup (fun e : Edge I W => e.to_) v p.2 with _ | e <;>
      simp [get_edge, get_edge_list, adjGet, h1, h2]

end Graph

/-- One public mutation call of the Graph ADT (the four mutating operations of
graph.rs). -/
inductive GOp (I W : Type) where
  | addV (v : Vertex I)
  | remV (i : I)
  | addE (src : I) (e : Edge I W)
  | remE (src tgt : I)

/-- Dispatch of one public mutation call. -/
def runOp {I W : Type} [LinearOrder I] [DecidableEq I] (op : GOp I W) (g : Graph I W) :
    Except GraphOperationError Unit × Graph I W :=
  match op with
  | .addV v => g.add_vertex v
  | .remV i => g.remove_vertex i
  | .addE src e => g.add_edge src e
  | .remE src tgt => g.remove_edge src tgt

/-- A sequence of public mutation calls, each applied to the post-state of the
previous one (a failed call leaves the graph unchanged). -/
def applyOps {I W : Type} [LinearOrder I] [DecidableEq I]
    (ops : List (GOp I W)) (g : Graph I W) : Graph I W :=
  ops.foldl (fun g op => (runOp op g).2) g

section OpPreservation

variable {I W : Type} [LinearOrder I] [DecidableEq I] [DecidableEq W] {g : Graph I W}

theorem runOp_error_unchanged (op : GOp I W) (g : Graph I W) (err : GraphOperationError)
    (h : (runOp op g).1 = .error err) : (runOp op g).2 = g := by
  cases op <;>
    simp only [runOp, Graph.add_vertex, Graph.remove_vertex, Graph.add_edge,
      Graph.remove_edge] at h ⊢ <;>
    split_ifs at h ⊢ <;> simp_all

theorem gsorted_runOp (op : GOp I W) (hs : g.GSorted) : ((runOp op g).2).GSorted := by
  cases op with
  | addV v => exact Graph.gsorted_add_vertex hs
  | remV i => exact Graph.gsorted_remove_vertex hs
  | addE src e => exact Graph.gsorted_add_edge hs
  | remE src tgt => exact Graph.gsorted_remove_edge hs

theorem keysEq_runOp (op : GOp I W) (hk : g.KeysEq) : ((runOp op g).2).KeysEq := by
  cases op with
  | addV v => exact Graph.keysEq_add_vertex hk
  | remV i => exact Graph.keysEq_remove_vertex hk
  | addE src e => exact Graph.keysEq_add_edge hk
  | remE src tgt => exact Graph.keysEq_remove_edge hk

theorem runOp_flags (op : GOp I W) (g : Graph I W) :
    ((runOp op g).2).is_directed = g.is_directed ∧
    ((runOp op g).2).is_weighted = g.is_weighted ∧
    ((runOp op g).2).is_float_weights = g.is_float_weights := by
  cases op <;>
    simp only [runOp, Graph.add_vertex, Graph.remove_vertex, Graph.add_edge,
      Graph.remove_edge] <;>
    split_ifs <;> simp

theorem gsorted_new (d w f : Bool) : (Graph.new d w f : Graph I W).GSorted := by
  refine ⟨?_, ?_, ?_⟩ <;> simp [Graph.new, SortedByKey]

theorem keysEq_new (d w f : Bool) : (Graph.new d w f : Graph I W).KeysEq := rfl

theorem gsorted_applyOps (ops : List (GOp I W)) (hs : g.GSorted) :
    (applyOps ops g).GSorted := by
  induction ops generalizing g with
  | nil => exact hs
  | cons op ops ih => exact ih (gsorted_runOp op hs)

theorem keysEq_applyOps (ops : List (GOp I W)) (hk : g.KeysEq) :
    (applyOps ops g).KeysEq := by
  induction ops generalizing g with
  | nil => exact hk
  | cons op ops ih => exact ih (keysEq_runOp op hk)

theorem flags_applyOps (ops : List (GOp I W)) (g : Graph I W) :
    (applyOps ops g).is_directed = g.is_directed ∧
    (applyOps ops g).is_weighted = g.is_weighted ∧
    (applyOps ops g).is_float_weights = g.is_float_weights := by
  induction ops generalizing g with
  | nil => exact ⟨rfl, rfl, rfl⟩
  | cons op ops ih =>
    have h1 := runOp_flags op g
    have h2 := ih (runOp op g).2
    exact ⟨h2.1.trans h1.1, h2.2.1.trans h1.2.1, h2.2.2.trans h1.2.2⟩

end OpPreservation

/-! ### The undirected symmetry invariant -/

namespace Graph

variable {I W : Type} [LinearOrder I] [DecidableEq I] [DecidableEq W] {g : Graph I W}

/-- Invariant I1: an arc `u → v` is stored with weight field `w` exactly when
the mirrored arc `v → u` is stored with the same weight field. -/
def Sym (g : Graph I W) : Prop :=
  ∀ u v (w : Option W), g.edgeWeight u v = some w ↔ g.edgeWeight v u = some w

theorem sym_new (d w f : Bool) : (Graph.new d w f : Graph I W).Sym := by
  intro u v w'
  simp [edgeWeight, lookupW, Graph.new, mapLookup]

theorem sym_add_vertex {v0 : Vertex I} (hs : g.GSorted) (hk : g.KeysEq) (hsym : g.Sym) :
    ((g.add_vertex v0).2).Sym := by
  rcases Bool.eq_false_or_eq_true (g.containsVertex v0.id) with h | h
  · rw [add_vertex_fail h]
    exact hsym
  · intro u v w
    rw [edgeWeight_add_vertex_ok hs h u v, edgeWeight_add_vertex_ok hs h v u]
    by_cases hu : u = v0.id
    · by_cases hv : v = v0.id
      · simp [hu, hv]
      · rw [if_pos hu, if_neg hv]
        constructor
        · intro hcon
          exact absurd hcon (by simp)
        · intro hcon
          have h3 := (hsym v u w).mp hcon
          rw [hu, edgeWeight_eq_none_of_not_contains hk h] at h3
          exact absurd h3 (by simp)
    · by_cases hv : v = v0.id
      · rw [if_neg hu, if_pos hv]
        constructor
        · intro hcon
          have h3 := (hsym u v w).mp hcon
          rw [hv, edgeWeight_eq_none_of_not_contains hk h] at h3
          exact absurd h3 (by simp)
        · intro hcon
          exact absurd hcon (by simp)
      · rw [if_neg hu, if_neg hv]
        exact hsym u v w

theorem sym_remove_vertex {i : I} (hs : g.GSorted) (hk : g.KeysEq) (hsym : g.Sym) :
    ((g.remove_vertex i).2).Sym := by
  rcases Bool.eq_false_or_eq_true (g.containsVertex i) with h | h
  · intro u v w
    rw [edgeWeight_remove_vertex_ok hs hk h u v, edgeWeight_remove_vertex_ok hs hk h v u]
    by_cases hc : u = i ∨ v = i
    · rw [if_pos hc, if_pos (Or.symm hc)]
    · rw [if_neg hc, if_neg (fun hcon => hc (Or.symm hcon))]
      exact hsym u v w
  · rw [remove_vertex_fail h]
    exact hsym

theorem sym_add_edge {src : I} {e0 : Edge I W} (hs : g.GSorted) (hk : g.KeysEq)
    (hd : g.is_directed = false) (hsym : g.Sym) : ((g.add_edge src e0).2).Sym := by
  rcases hr : (g.add_edge src e0).1 with err | u0
  · have h2 : (runOp (GOp.addE src e0) g).2 = g :=
      runOp_error_unchanged (GOp.addE src e0) g err hr
    rw [show (g.add_edge src e0).2 = (runOp (GOp.addE src e0) g).2 from rfl, h2]
    exact hsym
  · obtain ⟨hshape, hc1, hc2, habs1, habs2⟩ := add_edge_ok_undirected_inv hk hd hr
    rw [hshape]
    intro u v w
    have hchar := lookupW_adjust_ins2 src e0.to_ e0.weight hs.2.1 hs.2.2
      (edgesLookup_isSome_of_contains hk hc1) (edgesLookup_isSome_of_contains hk hc2)
      habs1 habs2
    show lookupW (mapAdjust Prod.fst src (insEntry ⟨e0.to_, e0.weight⟩)
        (mapAdjust Prod.fst e0.to_ (insEntry ⟨src, e0.weight⟩) g.edges)) u v = some w ↔
      lookupW (mapAdjust Prod.fst src (insEntry ⟨e0.to_, e0.weight⟩)
        (mapAdjust Prod.fst e0.to_ (insEntry ⟨src, e0.weight⟩) g.edges)) v u = some w
    rw [hchar u v, hchar v u]
    by_cases hcond : (u = src ∧ v = e0.to_) ∨ (u = e0.to_ ∧ v = src)
    · rw [if_pos hcond, if_pos (Or.symm (hcond.imp And.symm And.symm))]
    · rw [if_neg hcond, if_neg (fun hcon => hcond (Or.symm (hcon.imp And.symm And.symm)))]
      exact hsym u v w

theorem sym_remove_edge {src tgt : I} (hs : g.GSorted) (hd : g.is_directed = false)
    (hsym : g.Sym) : ((g.remove_edge src tgt).2).Sym := by
  rcases hr : (g.remove_edge src tgt).1 with err | u0
  · have h2 : (runOp (GOp.remE src tgt) g).2 = g :=
      runOp_error_unchanged (GOp.remE src tgt) g err hr
    rw [show (g.remove_edge src tgt).2 = (runOp (GOp.remE src tgt) g).2 from rfl, h2]
    exact hsym
  · rw [remove_edge_ok_undirected_shape hd hr]
    intro u v w
    have hs1 : SortedByKey Prod.fst (mapAdjust Prod.fst src (stripEntry tgt) g.edges) :=
      sorted_mapAdjust (stripEntry_fst tgt) hs.2.1
    have ha1 : ∀ p ∈ mapAdjust Prod.fst src (stripEntry tgt) g.edges,
        SortedByKey (fun e' : Edge I W => e'.to_) p.2 :=
      adj_sorted_adjust_strip hs.2.2
    have hchar1 := lookupW_adjust_strip src tgt hs.2.1 hs.2.2
    have hchar2 := lookupW_adjust_strip tgt src hs1 ha1
    show lookupW (mapAdjust Prod.fst tgt (stripEntry src)
        (mapAdjust Prod.fst src (stripEntry tgt) g.edges)) u v = some w ↔
      lookupW (mapAdjust Prod.fst tgt (stripEntry src)
        (mapAdjust Prod.fst src (stripEntry tgt) g.edges)) v u = some w
    rw [hchar2 u v, hchar2 v u, hchar1 u v, hchar1 v u]
    by_cases hA : u = tgt ∧ v = src
    · rw [if_pos hA]
      by_cases hB' : v = tgt ∧ u = src
      · rw [if_pos hB']
      · rw [if_neg hB', if_pos ⟨hA.2, hA.1⟩]
    · rw [if_neg hA]
      by_cases hB : u = src ∧ v = tgt
      · rw [if_pos hB]
        by_cases hB' : v = tgt ∧ u = src
        · rw [if_pos hB']
        · exact absurd ⟨hB.2, hB.1⟩ hB'
      · rw [if_neg hB, if_neg (fun hcon : v = tgt ∧ u = src => hB ⟨hcon.2, hcon.1⟩),
          if_neg (fun hcon : v = src ∧ u = tgt => hA ⟨hcon.2, hcon.1⟩)]
        exact hsym u v w

end Graph

section SymPreservation

variable {I W : Type} [LinearOrder I] [DecidableEq I] [DecidableEq W] {g : Graph I W}

theorem sym_runOp (op : GOp I W) (hs : g.GSorted) (hk : g.KeysEq)
    (hd : g.is_directed = false) (hsym : g.Sym) : ((runOp op g).2).Sym := by
  cases op with
  | addV v => exact Graph.sym_add_vertex hs hk hsym
  | remV i => exact Graph.sym_remove_vertex hs hk hsym
  | addE src e => exact Graph.sym_add_edge hs hk hd hsym
  | remE src tgt => exact Graph.sym_remove_edge hs hd hsym

theorem sym_applyOps (ops : List (GOp I W)) (hs : g.GSorted) (hk : g.KeysEq)
    (hd : g.is_directed = false) (hsym : g.Sym) : (applyOps ops g).Sym := by
  induction ops generalizing g with
  | nil => exact hsym
  | cons op ops ih =>
    exact ih (gsorted_runOp op hs) (keysEq_runOp op hk)
      (((runOp_flags op g).1).trans hd) (sym_runOp op hs hk hd hsym)

end SymPreservation

/-- C5: for every graph and every mutation operation (add_vertex,
remove_vertex, add_edge, remove_edge), if the call returns an error then the
graph (vertex map, adjacency map and flags) is exactly the one passed in. -/
theorem C5_failed_mutation_leaves_graph_unchanged {I W : Type} [LinearOrder I]
    [DecidableEq I] [DecidableEq W] (op : GOp I W) (g : Graph I W) (err : GraphOperationError)
    (h : (runOp op g).1 = .error err) : (runOp op g).2 = g :=
  runOp_error_unchanged op g err h

/-- Witness for C5 at a concrete input: removing vertex 0 from the empty graph
fails with `VertexNotFound` and leaves the graph unchanged. -/
theorem C5_failed_mutation_leaves_graph_unchanged_witness :
    (runOp (GOp.remV 0) (Graph.new false false false : Graph Nat Int)).2 =
      Graph.new false false false :=
  C5_failed_mutation_leaves_graph_unchanged (GOp.remV 0)
    (Graph.new false false false) GraphOperationError.VertexNotFound rfl

/-- C9: for every graph reachable from `Graph::new` by the public mutation
operations, the key list of the adjacency map equals the key list of the
vertex map; equivalently, a vertex exists exactly when its adjacency entry
does. -/
theorem C9_adjacency_keys_equal_vertex_keys {I W : Type} [LinearOrder I]
    [DecidableEq I] [DecidableEq W] (d w f : Bool) (ops : List (GOp I W)) :
    (applyOps ops (Graph.new d w f)).KeysEq ∧
    ∀ i, (applyOps ops (Graph.new d w f)).containsVertex i = true ↔
      ((applyOps ops (Graph.new d w f)).adjGet i).isSome = true := by
  have hk : (applyOps ops (Graph.new d w f : Graph I W)).KeysEq :=
    keysEq_applyOps ops (keysEq_new d w f)
  refine ⟨hk, fun i => ?_⟩
  rw [Graph.containsVertex_iff, Graph.adjGet_isSome_iff, Graph.KeysEq] at *
  rw [hk]

/-- C4: starting from any empty undirected graph, every sequence of public
mutation calls preserves the symmetry invariant I1: an arc `(u → v, w)` is
stored exactly when the mirrored arc `(v → u, w)` with the same weight is
stored. -/
theorem C4_undirected_mutations_preserve_symmetry {I W : Type} [LinearOrder I]
    [DecidableEq I] [DecidableEq W] (w f : Bool) (ops : List (GOp I W)) :
    (applyOps ops (Graph.new false w f)).Sym :=
  sym_applyOps ops (gsorted_new false w f) (keysEq_new false w f) rfl
    (Graph.sym_new false w f)

namespace Graph

variable {I W : Type} [LinearOrder I] [DecidableEq I] [DecidableEq W] {g : Graph I W} {u v : I}

theorem get_edge_err_vertex (h : g.adjGet u = none) :
    g.get_edge u v = .error .VertexNotFound := by
  rw [get_edge_cases, h]

theorem get_edge_err_edge {l : List (Edge I W)} (h : g.adjGet u = some l)
    (h2 : mapLookup (fun e' : Edge I W => e'.to_) v l = none) :
    g.get_edge u v = .error .EdgeNotFound := by
  rw [get_edge_cases, h]
  dsimp only
  rw [h2]

end Graph

/-- C2 (amended): for every well-formed graph containing vertices `v` and `x`
with `x ≠ v`, `remove_vertex v` succeeds, afterwards no adjacency set contains
an edge targeting `v`, `get_edge v x` fails with `VertexNotFound`, and
`get_edge x v` fails with `EdgeNotFound` (because `x` still exists but its
edge to `v` is gone). -/
theorem C2_remove_vertex_cascade {I W : Type} [LinearOrder I] [DecidableEq I]
    [DecidableEq W] (g : Graph I W) (v x : I)
    (hs : g.GSorted) (hk : g.KeysEq)
    (hv : g.containsVertex v = true) (hx : g.containsVertex x = true) (hxv : x ≠ v) :
    (g.remove_vertex v).1 = .ok () ∧
    (∀ p ∈ ((g.remove_vertex v).2).edges, ∀ e ∈ p.2, e.to_ ≠ v) ∧
    ((g.remove_vertex v).2).get_edge v x = .error .VertexNotFound ∧
    ((g.remove_vertex v).2).get_edge x v = .error .EdgeNotFound := by
  have hok : (g.remove_vertex v).1 = .ok () := by
    rw [Graph.remove_vertex_ok hv]
  have hs' : ((g.remove_vertex v).2).GSorted := Graph.gsorted_remove_vertex hs
  have hchar := Graph.edgeWeight_remove_vertex_ok hs hk hv
  refine ⟨hok, ?_, ?_, ?_⟩
  · intro p hp e he hev
    have h1 : ((g.remove_vertex v).2).edgeWeight p.1 e.to_ = some e.weight :=
      Graph.edgeWeight_of_mem hs' hp he
    rw [hchar p.1 e.to_, if_pos (Or.inr hev)] at h1
    exact Option.noConfusion h1
  · apply Graph.get_edge_err_vertex
    rw [Graph.remove_vertex_ok hv]
    show (mapLookup Prod.fst v
      (mapRemove Prod.fst v (Graph.stripTargets v g.vertices g.edges))).map Prod.snd = none
    rw [mapLookup_mapRemove (Graph.stripTargets_sorted hs.2.1), if_pos rfl]
    rfl
  · -- x's entry survives, stripped of its edge to v
    have hxk : (mapLookup Prod.fst x g.edges).isSome = true :=
      Graph.edgesLookup_isSome_of_contains hk hx
    rcases hp : mapLookup Prod.fst x g.edges with _ | p
    · rw [hp] at hxk
      exact absurd hxk (by simp)
    · have hmem : x ∈ g.vertices.map (fun v : Vertex I => v.id) :=
        Graph.containsVertex_iff.mp hx
      have hadj : ((g.remove_vertex v).2).adjGet x =
          some (mapRemove (fun e : Edge I W => e.to_) v p.2) := by
        rw [Graph.remove_vertex_ok hv]
        show (mapLookup Prod.fst x
          (mapRemove Prod.fst v (Graph.stripTargets v g.vertices g.edges))).map Prod.snd =
          some (mapRemove (fun e : Edge I W => e.to_) v p.2)
        rw [mapLookup_mapRemove (Graph.stripTargets_sorted hs.2.1), if_neg hxv,
          Graph.stripTargets_lookup hs.2.1 hs.1, if_pos hmem, hp]
        rfl
      have hlk : mapLookup (fun e' : Edge I W => e'.to_) v
          (mapRemove (fun e : Edge I W => e.to_) v p.2) = none := by
        rw [mapLookup_mapRemove (hs.2.2 p (mapLookup_mem hp).1)]
        simp
      exact Graph.get_edge_err_edge hadj hlk

/-- A concrete two-vertex directed graph with the single arc `1 → 0`
(reachable by `add_vertex 0; add_vertex 1; add_edge 1 (Edge 0)`). -/
def c2Graph : Graph Nat Int :=
  ⟨[⟨0, none⟩, ⟨1, none⟩], [(0, []), (1, [⟨0, none⟩])], true, false, false⟩

/-- C2 counterexample: after successfully removing vertex `0`, `get_edge 1 0`
fails with `EdgeNotFound`, not `VertexNotFound` as the claim states (vertex
`1` still exists, so `get_edge_list(1)` succeeds and only the edge lookup
fails). -/
theorem C2_counterexample_get_edge_x_v :
    (c2Graph.remove_vertex 0).1 = .ok () ∧
    ((c2Graph.remove_vertex 0).2).get_edge 1 0 = .error .EdgeNotFound ∧
    GraphOperationError.EdgeNotFound ≠ GraphOperationError.VertexNotFound :=
  ⟨rfl, rfl, by decide⟩

/-- Witness for C2 (amended) at the concrete graph `c2Graph` with `v = 0`,
`x = 1`. -/
theorem C2_remove_vertex_cascade_witness :
    (c2Graph.remove_vertex 0).1 = .ok () ∧
    (∀ p ∈ ((c2Graph.remove_vertex 0).2).edges, ∀ e ∈ p.2, e.to_ ≠ 0) ∧
    ((c2Graph.remove_vertex 0).2).get_edge 0 1 = .error .VertexNotFound ∧
    ((c2Graph.remove_vertex 0).2).get_edge 1 0 = .error .EdgeNotFound :=
  C2_remove_vertex_cascade c2Graph 0 1 (by decide) (by decide) (by decide)
    (by decide) (by decide)

/-- C6: on an undirected weighted graph containing vertices `a` and `b`,
`add_edge a (Edge b (some w))` succeeds exactly when neither arc `a → b` nor
arc `b → a` was previously stored (failing with `EdgeExists` otherwise), and
after a successful call both `get_edge a b` and `get_edge b a` return an edge
whose weight is `w`. -/
theorem C6_undirected_weighted_add_edge {I W : Type} [LinearOrder I] [DecidableEq I]
    [DecidableEq W] (g : Graph I W) (a b : I) (w : W)
    (hs : g.GSorted) (hk : g.KeysEq) (hd : g.is_directed = false)
    (hw : g.is_weighted = true)
    (ha : g.containsVertex a = true) (hb : g.containsVertex b = true) :
    ((g.add_edge a ⟨b, some w⟩).1 = .ok () ↔
      g.edgeWeight a b = none ∧ g.edgeWeight b a = none) ∧
    ((g.add_edge a ⟨b, some w⟩).1 ≠ .ok () →
      (g.add_edge a ⟨b, some w⟩).1 = .error .EdgeExists) ∧
    ((g.add_edge a ⟨b, some w⟩).1 = .ok () →
      ((g.add_edge a ⟨b, some w⟩).2).get_edge a b = .ok ⟨b, some w⟩ ∧
      ((g.add_edge a ⟨b, some w⟩).2).get_edge b a = .ok ⟨a, some w⟩) := by
  have hres : (g.add_edge a ⟨b, some w⟩).1 =
      if (mapLookup (fun e' : Edge I W => e'.to_) b (g.adjD a)).isSome ∨
          (mapLookup (fun e' : Edge I W => e'.to_) a (g.adjD b)).isSome
      then .error .EdgeExists else .ok () := by
    simp only [Graph.add_edge, hd, hw, ha, hb, Bool.false_eq_true, if_false]
    split_ifs <;> simp_all
  have hcond : ((mapLookup (fun e' : Edge I W => e'.to_) b (g.adjD a)).isSome ∨
      (mapLookup (fun e' : Edge I W => e'.to_) a (g.adjD b)).isSome) ↔
      ¬ (g.edgeWeight a b = none ∧ g.edgeWeight b a = none) := by
    rw [show ((mapLookup (fun e' : Edge I W => e'.to_) b (g.adjD a)).isSome = true) ↔
      g.edgeWeight a b ≠ none from Graph.adjD_lookup_isSome_iff hk ha]
    rw [show ((mapLookup (fun e' : Edge I W => e'.to_) a (g.adjD b)).isSome = true) ↔
      g.edgeWeight b a ≠ none from Graph.adjD_lookup_isSome_iff hk hb]
    tauto
  refine ⟨?_, ?_, ?_⟩
  · rw [hres]
    by_cases hc : (mapLookup (fun e' : Edge I W => e'.to_) b (g.adjD a)).isSome ∨
        (mapLookup (fun e' : Edge I W => e'.to_) a (g.adjD b)).isSome
    · rw [if_pos hc]
      simp only [show (Except.error GraphOperationError.EdgeExists :
        Except GraphOperationError Unit) ≠ .ok () from fun h => Except.noConfusion h,
        false_iff]
      exact fun hcon => (hcond.mp hc) hcon
    · rw [if_neg hc]
      simp only [true_iff]
      have := hcond.not.mp hc
      tauto
  · rw [hres]
    by_cases hc : (mapLookup (fun e' : Edge I W => e'.to_) b (g.adjD a)).isSome ∨
        (mapLookup (fun e' : Edge I W => e'.to_) a (g.adjD b)).isSome
    · rw [if_pos hc]
      intro _
      rfl
    · rw [if_neg hc]
      intro hcon
      exact absurd rfl hcon
  · intro hok
    obtain ⟨hshape, hc1, hc2, habs1, habs2⟩ := Graph.add_edge_ok_undirected_inv hk hd hok
    have hchar := Graph.lookupW_adjust_ins2 a b (some w) hs.2.1 hs.2.2
      (Graph.edgesLookup_isSome_of_contains hk ha)
      (Graph.edgesLookup_isSome_of_contains hk hb) habs1 habs2
    have hW1 : ((g.add_edge a ⟨b, some w⟩).2).edgeWeight a b = some (some w) := by
      rw [hshape]
      show Graph.lookupW (mapAdjust Prod.fst a (Graph.insEntry ⟨b, some w⟩)
        (mapAdjust Prod.fst b (Graph.insEntry ⟨a, some w⟩) g.edges)) a b = some (some w)
      rw [hchar a b]
      simp
    have hW2 : ((g.add_edge a ⟨b, some w⟩).2).edgeWeight b a = some (some w) := by
      rw [hshape]
      show Graph.lookupW (mapAdjust Prod.fst a (Graph.insEntry ⟨b, some w⟩)
        (mapAdjust Prod.fst b (Graph.insEntry ⟨a, some w⟩) g.edges)) b a = some (some w)
      rw [hchar b a]
      simp
    exact ⟨Graph.get_edge_of_edgeWeight_some hW1, Graph.get_edge_of_edgeWeight_some hW2⟩

/-- A concrete undirected weighted two-vertex graph with no edges. -/
def c6Graph : Graph Nat Int :=
  ⟨[⟨0, none⟩, ⟨1, none⟩], [(0, []), (1, [])], false, true, false⟩

/-- Witness for C6 at the concrete graph `c6Graph` with `a = 0`, `b = 1`,
`w = 5`. -/
theorem C6_undirected_weighted_add_edge_witness :
    ((c6Graph.add_edge 0 ⟨1, some 5⟩).1 = .ok () ↔
      c6Graph.edgeWeight 0 1 = none ∧ c6Graph.edgeWeight 1 0 = none) ∧
    ((c6Graph.add_edge 0 ⟨1, some 5⟩).1 ≠ .ok () →
      (c6Graph.add_edge 0 ⟨1, some 5⟩).1 = .error .EdgeExists) ∧
    ((c6Graph.add_edge 0 ⟨1, some 5⟩).1 = .ok () →
      ((c6Graph.add_edge 0 ⟨1, some 5⟩).2).get_edge 0 1 = .ok ⟨1, some 5⟩ ∧
      ((c6Graph.add_edge 0 ⟨1, some 5⟩).2).get_edge 1 0 = .ok ⟨0, some 5⟩) :=
  C6_undirected_weighted_add_edge c6Graph 0 1 5 (by decide) (by decide) (by decide)
    (by decide) (by decide) (by decide)

namespace Graph

variable {I W : Type} [LinearOrder I] [DecidableEq I] [DecidableEq W] {g : Graph I W}

/-- Invariant I3 (target side): the target of every stored arc is a vertex. -/
def TargetsExist (g : Graph I W) : Prop :=
  ∀ p ∈ g.edges, ∀ e ∈ p.2, g.containsVertex e.to_ = true

instance (g : Graph I W) : Decidable g.TargetsExist :=
  inferInstanceAs (Decidable (∀ p ∈ g.edges, ∀ e ∈ p.2, g.containsVertex e.to_ = true))

theorem containsVertex_eq_of_vertices {g2 : Graph I W} {u : I}
    (h : g.vertices = g2.vertices) : g.containsVertex u = g2.containsVertex u := by
  simp [containsVertex, h]

theorem edgeWeight_add_edge_directed {src : I} {e0 : Edge I W}
    (hs : g.GSorted) (hk : g.KeysEq) (hd : g.is_directed = true)
    (hwt : e0.weight.isSome = g.is_weighted)
    (hc1 : g.containsVertex src = true) (hc2 : g.containsVertex e0.to_ = true) :
    ∀ u v, ((g.add_edge src e0).2).edgeWeight u v =
      if u = src ∧ v = e0.to_ ∧ g.edgeWeight src e0.to_ = none then some e0.weight
      else g.edgeWeight u v := by
  intro u v
  have hx1 : ¬ (e0.weight.isSome = true ∧ ¬ g.is_weighted = true) := by
    rw [hwt]
    tauto
  have hw2 : e0.weight.isNone = !g.is_weighted := by
    rw [← hwt]
    cases e0.weight <;> rfl
  have hx2 : ¬ (e0.weight.isNone = true ∧ g.is_weighted = true) := by
    rw [hw2]
    intro hcon
    rw [hcon.2] at hcon
    exact Bool.noConfusion hcon.1
  have hx3 : ¬ ¬ (g.containsVertex src = true ∧ g.containsVertex e0.to_ = true) :=
    not_not_intro ⟨hc1, hc2⟩
  show ((if e0.weight.isSome = true ∧ ¬ g.is_weighted = true then _ else _ :
    Except GraphOperationError Unit × Graph I W)).2.edgeWeight u v = _
  rw [if_neg hx1, if_neg hx2, if_neg hx3, if_pos hd]
  by_cases hex : (mapLookup (fun e' : Edge I W => e'.to_) e0.to_ (g.adjD src)).isSome = true
  · rw [if_pos hex]
    have hne := (adjD_lookup_isSome_iff hk hc1).mp hex
    rw [if_neg (fun hcon => hne hcon.2.2)]
  · rw [if_neg hex]
    have habs : g.edgeWeight src e0.to_ = none :=
      not_ne_iff.mp ((adjD_lookup_isSome_iff hk hc1).not.mp hex)
    show lookupW (mapAdjust Prod.fst src (insEntry e0) g.edges) u v = _
    rw [lookupW_adjust_ins hs.2.1 hs.2.2 u v]
    have hks : (mapLookup Prod.fst src g.edges).isSome = true :=
      edgesLookup_isSome_of_contains hk hc1
    by_cases hc : u = src ∧ v = e0.to_
    · rw [if_pos ⟨hc.1, hc.2, hks, habs⟩, if_pos ⟨hc.1, hc.2, habs⟩]
    · rw [if_neg (fun hcon => hc ⟨hcon.1, hcon.2.1⟩),
        if_neg (fun hcon => hc ⟨hcon.1, hcon.2.1⟩)]
      rfl

end Graph

section FlowConstruction

variable {I : Type} [LinearOrder I] [DecidableEq I] {g : Graph I Int}

theorem mem_arcsOf (hs : g.GSorted) (hk : g.KeysEq) {u v : I} :
    (u, v) ∈ arcsOf g ↔ g.edgeWeight u v ≠ none := by
  unfold arcsOf
  constructor
  · intro h
    obtain ⟨vert, hvert, hmem⟩ := List.mem_flatMap.mp h
    obtain ⟨e, he, heq⟩ := List.mem_map.mp hmem
    obtain ⟨h1, h2⟩ := Prod.mk.injEq _ _ _ _ ▸ heq
    rcases hadj : g.adjGet vert.id with _ | l
    · rw [Graph.adjD, hadj] at he
      simp at he
    · rw [Graph.adjD, hadj] at he
      simp only [Option.getD_some] at he
      obtain ⟨p, hp1, hp2⟩ := Option.map_eq_some'.mp hadj
      subst hp2
      have hlk : mapLookup (fun e' : Edge I Int => e'.to_) e.to_ p.2 = some e :=
        mapLookup_of_mem (hs.2.2 p (mapLookup_mem hp1).1) he
      rw [← h1, ← h2]
      show Graph.lookupW g.edges vert.id e.to_ ≠ none
      unfold Graph.lookupW
      rw [show vert.id = p.1 from ((mapLookup_mem hp1).2).symm, mapLookup_of_mem hs.2.1
        (mapLookup_mem hp1).1, Option.some_bind, hlk]
      simp
  · intro h
    obtain ⟨p, hp, hpu, e, he, hev⟩ := Graph.exists_of_edgeWeight_ne_none h
    have hu : u ∈ g.vertexKeys := by
      rw [Graph.KeysEq] at hk
      rw [hk]
      exact List.mem_map.mpr ⟨p, hp, hpu⟩
    obtain ⟨vert, hvert, hvid⟩ := List.mem_map.mp hu
    refine List.mem_flatMap.mpr ⟨vert, hvert, ?_⟩
    refine List.mem_map.mpr ⟨e, ?_, ?_⟩
    · have hlp : mapLookup Prod.fst u g.edges = some p := by
        rw [← hpu]
        exact mapLookup_of_mem hs.2.1 hp
      rw [Graph.adjD, Graph.adjGet, hvid, hlp]
      exact he
    · rw [hvid, hev]

theorem mapInsertReplace_append {A : Type} {key : A → I} {a : A} {l : List A}
    (h : ∀ b ∈ l, key b < key a) : mapInsertReplace key a l = l ++ [a] := by
  induction l with
  | nil => rfl
  | cons b t ih =>
    have hb := h b (List.mem_cons_self _ _)
    simp only [mapInsertReplace]
    rw [if_neg (asymm hb), if_neg (ne_of_gt hb), ih (fun c hc => h c (List.mem_cons_of_mem _ hc))]
    rfl

theorem add_vertex_fold (vs us : List (Vertex I)) (d w fl : Bool)
    (hsorted : SortedByKey (fun v : Vertex I => v.id) (us ++ vs)) :
    vs.foldl (fun gf v => (Graph.add_vertex gf v).2)
      (⟨us, us.map (fun v => (v.id, [])), d, w, fl⟩ : Graph I Int) =
      ⟨us ++ vs, (us ++ vs).map (fun v => (v.id, [])), d, w, fl⟩ := by
  induction vs generalizing us with
  | nil => simp
  | cons v vs ih =>
    have hlt : ∀ b ∈ us, b.id < v.id := by
      intro b hb
      have := (List.pairwise_append.mp hsorted).2.2 b hb v (List.mem_cons_self _ _)
      exact this
    have hnotc : (⟨us, us.map (fun v => (v.id, [])), d, w, fl⟩ :
        Graph I Int).containsVertex v.id = false := by
      rw [Graph.containsVertex]
      rw [show (mapLookup (fun v' : Vertex I => v'.id) v.id us) = none from
        mapLookup_eq_none.mpr (fun b hb => ne_of_lt (hlt b hb))]
      rfl
    show vs.foldl (fun gf v => (Graph.add_vertex gf v).2)
      ((Graph.add_vertex ⟨us, us.map (fun v => (v.id, [])), d, w, fl⟩ v).2) = _
    rw [Graph.add_vertex_ok hnotc]
    have hins1 : mapInsertReplace (fun v' : Vertex I => v'.id) v us = us ++ [v] :=
      mapInsertReplace_append hlt
    have hins2 : mapInsertReplace Prod.fst (v.id, ([] : List (Edge I Int)))
        (us.map (fun v => (v.id, []))) = us.map (fun v => (v.id, [])) ++ [(v.id, [])] := by
      refine mapInsertReplace_append ?_
      intro b hb
      obtain ⟨c, hc, hcb⟩ := List.mem_map.mp hb
      rw [← hcb]
      exact hlt c hc
    simp only [hins1, hins2]
    have heq : (⟨us ++ [v], us.map (fun v => (v.id, [])) ++ [(v.id, [])], d, w, fl⟩ :
        Graph I Int) = ⟨us ++ [v], (us ++ [v]).map (fun v => (v.id, [])), d, w, fl⟩ := by
      simp
    rw [heq]
    have hsorted2 : SortedByKey (fun v : Vertex I => v.id) ((us ++ [v]) ++ vs) := by
      rw [List.append_assoc]
      exact hsorted
    have := ih (us ++ [v]) hsorted2
    rw [this]
    simp

theorem lookupW_all_empty {es : List (I × List (Edge I Int))}
    (h : ∀ p ∈ es, p.2 = []) (u v : I) : Graph.lookupW es u v = none := by
  unfold Graph.lookupW
  rcases h1 : mapLookup Prod.fst u es with _ | p
  · rfl
  · rw [Option.some_bind, h p (mapLookup_mem h1).1]
    rfl

end FlowConstruction

section FlowConstruction2

variable {I : Type} [LinearOrder I] [DecidableEq I] {g : Graph I Int}

/-- One fold step of the reverse-arc insertion loops of `algorithm_step`:
folding `add_edge gc to (Edge from ZERO)` over a list of pairs sets every slot
`(q, p)` for processed pairs `(p, q)` to weight `ZERO` where the base
characterization `B` has no arc, and leaves everything else unchanged. -/
theorem addZero_fold (arcs : List (I × I)) (done : List (I × I)) (g0 : Graph I Int)
    (B : I → I → Option (Option Int))
    (hcont : ∀ pq ∈ arcs, g0.containsVertex pq.1 = true ∧ g0.containsVertex pq.2 = true)
    (hs0 : g0.GSorted) (hk0 : g0.KeysEq) (hd0 : g0.is_directed = true)
    (hw0 : g0.is_weighted = true)
    (hchar : ∀ u v, g0.edgeWeight u v =
      if B u v ≠ none then B u v
      else if (v, u) ∈ done then some (some 0) else none) :
    (arcs.foldl (fun gc p => (Graph.add_edge gc p.2 ⟨p.1, some (0:Int)⟩).2) g0).vertices
      = g0.vertices ∧
    (arcs.foldl (fun gc p => (Graph.add_edge gc p.2 ⟨p.1, some (0:Int)⟩).2) g0).GSorted ∧
    (arcs.foldl (fun gc p => (Graph.add_edge gc p.2 ⟨p.1, some (0:Int)⟩).2) g0).KeysEq ∧
    (arcs.foldl (fun gc p => (Graph.add_edge gc p.2 ⟨p.1, some (0:Int)⟩).2) g0).is_directed
      = true ∧
    (arcs.foldl (fun gc p => (Graph.add_edge gc p.2 ⟨p.1, some (0:Int)⟩).2) g0).is_weighted
      = true ∧
    (arcs.foldl (fun gc p =>
      (Graph.add_edge gc p.2 ⟨p.1, some (0:Int)⟩).2) g0).is_float_weights
      = g0.is_float_weights ∧
    ∀ u v, (arcs.foldl (fun gc p => (Graph.add_edge gc p.2 ⟨p.1, some (0:Int)⟩).2) g0).edgeWeight
      u v =
      if B u v ≠ none then B u v
      else if (v, u) ∈ done ++ arcs then some (some 0) else none := by
  induction arcs generalizing done g0 with
  | nil =>
    refine ⟨rfl, hs0, hk0, hd0, hw0, rfl, ?_⟩
    intro u v
    rw [List.foldl_nil, List.append_nil]
    exact hchar u v
  | cons pq rest ih =>
    obtain ⟨hcp, hcq⟩ := hcont pq (List.mem_cons_self _ _)
    have hstep := Graph.edgeWeight_add_edge_directed hs0 hk0 hd0
      (show (Edge.mk pq.1 (some (0:Int))).weight.isSome = g0.is_weighted by
        rw [hw0]; rfl) hcq hcp
    have hflags := runOp_flags (GOp.addE pq.2 ⟨pq.1, some (0:Int)⟩) g0
    have hvert1 : ((g0.add_edge pq.2 ⟨pq.1, some (0:Int)⟩).2).vertices = g0.vertices :=
      Graph.add_edge_vertices
    have hchar1 : ∀ u v, ((g0.add_edge pq.2 ⟨pq.1, some (0:Int)⟩).2).edgeWeight u v =
        if B u v ≠ none then B u v
        else if (v, u) ∈ done ++ [pq] then some (some 0) else none := by
      intro u v
      rw [hstep u v]
      by_cases hP : u = pq.2 ∧ v = pq.1
      · obtain ⟨hu, hv⟩ := hP
        subst hu
        subst hv
        by_cases hB : B pq.2 pq.1 = none
        · by_cases hdone : (pq.1, pq.2) ∈ done
          · simp [hchar, hB, hdone]
          · simp [hchar, hB, hdone]
        · simp [hchar, hB]
      · rw [if_neg (fun hcon : u = pq.2 ∧ v = pq.1 ∧ _ => hP ⟨hcon.1, hcon.2.1⟩)]
        rw [hchar u v]
        have hne : (v, u) ≠ pq := by
          intro hcon
          exact hP ⟨congrArg Prod.snd hcon, congrArg Prod.fst hcon⟩
        have hmemiff : (v, u) ∈ done ++ [pq] ↔ (v, u) ∈ done := by
          simp [List.mem_append, hne]
        by_cases hBne : B u v ≠ none
        · rw [if_pos hBne, if_pos hBne]
        · rw [if_neg hBne, if_neg hBne]
          by_cases hd2 : (v, u) ∈ done
          · rw [if_pos hd2, if_pos (hmemiff.mpr hd2)]
          · rw [if_neg hd2, if_neg (fun hcon => hd2 (hmemiff.mp hcon))]
    have hcont1 : ∀ pq' ∈ rest,
        ((g0.add_edge pq.2 ⟨pq.1, some (0:Int)⟩).2).containsVertex pq'.1 = true ∧
        ((g0.add_edge pq.2 ⟨pq.1, some (0:Int)⟩).2).containsVertex pq'.2 = true := by
      intro pq' hpq'
      obtain ⟨h1, h2⟩ := hcont pq' (List.mem_cons_of_mem _ hpq')
      rw [Graph.containsVertex_eq_of_vertices hvert1, Graph.containsVertex_eq_of_vertices hvert1]
      exact ⟨h1, h2⟩
    obtain ⟨r1, r2, r3, r4, r5, r6, r7⟩ := ih (done ++ [pq])
      ((g0.add_edge pq.2 ⟨pq.1, some (0:Int)⟩).2) hcont1
      (Graph.gsorted_add_edge hs0) (Graph.keysEq_add_edge hk0)
      (hflags.1.trans hd0) (hflags.2.1.trans hw0) hchar1
    refine ⟨r1.trans hvert1, r2, r3, r4, r5, r6.trans hflags.2.2, ?_⟩
    intro u v
    rw [List.foldl_cons, r7 u v, List.append_assoc]
    rfl

end FlowConstruction2

section FlowConstruction3

variable {I : Type} [LinearOrder I] [DecidableEq I] {g : Graph I Int}

theorem contains_of_edgeWeight_ne_none {u v : I} (hk : g.KeysEq)
    (h : g.edgeWeight u v ≠ none) : g.containsVertex u = true := by
  obtain ⟨p, hp, hpu, _⟩ := Graph.exists_of_edgeWeight_ne_none h
  rw [Graph.containsVertex_iff, Graph.KeysEq] at *
  rw [hk]
  exact List.mem_map.mpr ⟨p, hp, hpu⟩

theorem contains_target_of_edgeWeight_ne_none {u v : I} (hI3 : g.TargetsExist)
    (h : g.edgeWeight u v ≠ none) : g.containsVertex v = true := by
  obtain ⟨p, hp, _, e, he, hev⟩ := Graph.exists_of_edgeWeight_ne_none h
  rw [← hev]
  exact hI3 p hp e he

theorem buildGc_char (hs : g.GSorted) (hk : g.KeysEq) (hI3 : g.TargetsExist)
    (hd : g.is_directed = true) (hw : g.is_weighted = true) :
    (buildGc g).vertices = g.vertices ∧ (buildGc g).GSorted ∧ (buildGc g).KeysEq ∧
    (buildGc g).is_directed = true ∧ (buildGc g).is_weighted = true ∧
    (buildGc g).is_float_weights = g.is_float_weights ∧
    ∀ u v, (buildGc g).edgeWeight u v =
      if g.edgeWeight u v ≠ none then g.edgeWeight u v
      else if g.edgeWeight v u ≠ none then some (some 0) else none := by
  have hcont : ∀ pq ∈ arcsOf g,
      g.containsVertex pq.1 = true ∧ g.containsVertex pq.2 = true := by
    intro pq hpq
    have harc : g.edgeWeight pq.1 pq.2 ≠ none := (mem_arcsOf hs hk).mp hpq
    exact ⟨contains_of_edgeWeight_ne_none hk harc,
      contains_target_of_edgeWeight_ne_none hI3 harc⟩
  have hchar : ∀ u v, g.edgeWeight u v =
      if g.edgeWeight u v ≠ none then g.edgeWeight u v
      else if (v, u) ∈ ([] : List (I × I)) then some (some 0) else none := by
    intro u v
    by_cases h : g.edgeWeight u v = none
    · simp [h]
    · simp [h]
  obtain ⟨r1, r2, r3, r4, r5, r6, r7⟩ :=
    addZero_fold (arcsOf g) [] g g.edgeWeight hcont hs hk hd hw hchar
  refine ⟨r1, r2, r3, r4, r5, r6, ?_⟩
  intro u v
  rw [show buildGc g = (arcsOf g).foldl
    (fun gc p => (Graph.add_edge gc p.2 ⟨p.1, some 0⟩).2) g from rfl, r7 u v]
  by_cases h1 : g.edgeWeight u v ≠ none
  · rw [if_pos h1, if_pos h1]
  · rw [if_neg h1, if_neg h1]
    rw [List.nil_append]
    by_cases h2 : g.edgeWeight v u ≠ none
    · rw [if_pos ((mem_arcsOf hs hk).mpr h2), if_pos h2]
    · rw [if_neg (fun hcon => h2 ((mem_arcsOf hs hk).mp hcon)), if_neg h2]

theorem mem_map_swap {arcs : List (I × I)} {u v : I} :
    (v, u) ∈ arcs.map Prod.swap ↔ (u, v) ∈ arcs := by
  constructor
  · intro h
    obtain ⟨ab, hab, heq⟩ := List.mem_map.mp h
    have h1 : ab.2 = v := congrArg Prod.fst heq
    have h2 : ab.1 = u := congrArg Prod.snd heq
    have : ab = (u, v) := by
      rw [← h1, ← h2]
    rw [← this]
    exact hab
  · intro h
    exact List.mem_map.mpr ⟨(u, v), h, rfl⟩

theorem foldl_swap (arcs : List (I × I)) (g0 : Graph I Int) :
    arcs.foldl (fun gf p => (Graph.add_edge gf p.1 ⟨p.2, some (0:Int)⟩).2) g0 =
    (arcs.map Prod.swap).foldl
      (fun gf p => (Graph.add_edge gf p.2 ⟨p.1, some (0:Int)⟩).2) g0 := by
  induction arcs generalizing g0 with
  | nil => rfl
  | cons pq rest ih =>
    rw [List.map_cons, List.foldl_cons, List.foldl_cons]
    exact ih _

end FlowConstruction3

section FlowConstruction4

variable {I : Type} [LinearOrder I] [DecidableEq I] {g : Graph I Int}

theorem buildGf_char (hs : g.GSorted) (hk : g.KeysEq) (hI3 : g.TargetsExist)
    (hd : g.is_directed = true) (hw : g.is_weighted = true) :
    (buildGf g).vertices = g.vertices ∧ (buildGf g).GSorted ∧ (buildGf g).KeysEq ∧
    (buildGf g).is_directed = true ∧ (buildGf g).is_weighted = true ∧
    (buildGf g).is_float_weights = g.is_float_weights ∧
    ∀ u v, (buildGf g).edgeWeight u v =
      if g.edgeWeight u v ≠ none ∨ g.edgeWeight v u ≠ none then some (some 0)
      else none := by
  have harcs : ∀ pq ∈ arcsOf g,
      g.containsVertex pq.1 = true ∧ g.containsVertex pq.2 = true := by
    intro pq hpq
    have harc : g.edgeWeight pq.1 pq.2 ≠ none := (mem_arcsOf hs hk).mp hpq
    exact ⟨contains_of_edgeWeight_ne_none hk harc,
      contains_target_of_edgeWeight_ne_none hI3 harc⟩
  -- the vertex fold produces the same vertex list with all-empty adjacency
  have hgf1 : g.vertices.foldl (fun gf v => (Graph.add_vertex gf v).2)
      (Graph.new true true g.is_float_weights : Graph I Int) =
      ⟨g.vertices, g.vertices.map (fun v => (v.id, [])), true, true,
        g.is_float_weights⟩ := by
    have h := add_vertex_fold (I := I) g.vertices [] true true g.is_float_weights hs.1
    exact h
  have hgf1sorted : (⟨g.vertices, g.vertices.map (fun v => (v.id, [])), true, true,
      g.is_float_weights⟩ : Graph I Int).GSorted := by
    refine ⟨hs.1, ?_, ?_⟩
    · rw [SortedByKey, List.pairwise_map]
      exact hs.1
    · intro p hp
      obtain ⟨c, _, hcp⟩ := List.mem_map.mp hp
      rw [← hcp]
      simp [SortedByKey]
  have hgf1keys : (⟨g.vertices, g.vertices.map (fun v => (v.id, [])), true, true,
      g.is_float_weights⟩ : Graph I Int).KeysEq := by
    rw [Graph.KeysEq, Graph.vertexKeys, Graph.edgeKeys]
    simp
  have hgf1none : ∀ u v, (⟨g.vertices, g.vertices.map (fun v => (v.id, [])), true, true,
      g.is_float_weights⟩ : Graph I Int).edgeWeight u v = none := by
    intro u v
    apply lookupW_all_empty
    intro p hp
    obtain ⟨c, _, hcp⟩ := List.mem_map.mp hp
    rw [← hcp]
  -- forward-arc fold
  have hcont2 : ∀ pq ∈ (arcsOf g).map Prod.swap,
      (⟨g.vertices, g.vertices.map (fun v => (v.id, [])), true, true,
        g.is_float_weights⟩ : Graph I Int).containsVertex pq.1 = true ∧
      (⟨g.vertices, g.vertices.map (fun v => (v.id, [])), true, true,
        g.is_float_weights⟩ : Graph I Int).containsVertex pq.2 = true := by
    intro pq hpq
    obtain ⟨ab, hab, heq⟩ := List.mem_map.mp hpq
    obtain ⟨h1, h2⟩ := harcs ab hab
    have hv : (⟨g.vertices, g.vertices.map (fun v => (v.id, [])), true, true,
        g.is_float_weights⟩ : Graph I Int).vertices = g.vertices := rfl
    rw [Graph.containsVertex_eq_of_vertices hv, Graph.containsVertex_eq_of_vertices hv,
      ← heq]
    exact ⟨h2, h1⟩
  obtain ⟨f1, f2, f3, f4, f5, f6, f7⟩ :=
    addZero_fold ((arcsOf g).map Prod.swap) []
      (⟨g.vertices, g.vertices.map (fun v => (v.id, [])), true, true,
        g.is_float_weights⟩ : Graph I Int)
      (fun _ _ => none) hcont2 hgf1sorted hgf1keys rfl rfl
      (by
        intro u v
        rw [hgf1none u v]
        simp)
  -- name the intermediate graph gf2
  set gf2 := ((arcsOf g).map Prod.swap).foldl
    (fun gc p => (Graph.add_edge gc p.2 ⟨p.1, some (0:Int)⟩).2)
    (⟨g.vertices, g.vertices.map (fun v => (v.id, [])), true, true,
      g.is_float_weights⟩ : Graph I Int) with hgf2def
  have hgf2char : ∀ u v, gf2.edgeWeight u v =
      if (u, v) ∈ arcsOf g then some (some 0) else none := by
    intro u v
    rw [f7 u v]
    simp only [ne_eq, not_true_eq_false, if_false, List.nil_append]
    by_cases hm : (u, v) ∈ arcsOf g
    · rw [if_pos (mem_map_swap.mpr hm), if_pos hm]
    · rw [if_neg (fun hcon => hm (mem_map_swap.mp hcon)), if_neg hm]
  -- reverse-arc fold on top of gf2
  have hcont3 : ∀ pq ∈ arcsOf g,
      gf2.containsVertex pq.1 = true ∧ gf2.containsVertex pq.2 = true := by
    intro pq hpq
    obtain ⟨h1, h2⟩ := harcs pq hpq
    have hv : gf2.vertices = g.vertices := f1
    rw [Graph.containsVertex_eq_of_vertices hv, Graph.containsVertex_eq_of_vertices hv]
    exact ⟨h1, h2⟩
  obtain ⟨e1, e2, e3, e4, e5, e6, e7⟩ :=
    addZero_fold (arcsOf g) [] gf2
      (fun u v => if (u, v) ∈ arcsOf g then some (some 0) else none)
      hcont3 f2 f3 f4 f5
      (by
        intro u v
        rw [hgf2char u v]
        by_cases hm : (u, v) ∈ arcsOf g
        · simp [hm]
        · simp [hm])
  have hbuild : buildGf g = (arcsOf g).foldl
      (fun gc p => (Graph.add_edge gc p.2 ⟨p.1, some (0:Int)⟩).2) gf2 := by
    rw [show buildGf g = (arcsOf g).foldl
      (fun gf p => (Graph.add_edge gf p.2 ⟨p.1, some (0:Int)⟩).2)
      ((arcsOf g).foldl (fun gf p => (Graph.add_edge gf p.1 ⟨p.2, some (0:Int)⟩).2)
        (g.vertices.foldl (fun gf v => (Graph.add_vertex gf v).2)
          (Graph.new true true g.is_float_weights))) from rfl]
    rw [hgf1, foldl_swap]
  rw [hbuild]
  refine ⟨e1.trans f1, e2, e3, e4, e5, e6.trans (f6.trans rfl), ?_⟩
  intro u v
  rw [e7 u v, List.nil_append]
  by_cases h1 : g.edgeWeight u v ≠ none
  · rw [if_pos ((mem_arcsOf hs hk).mpr h1)]
    simp only [ne_eq, Option.some_ne_none, not_false_eq_true, if_true]
    rw [if_pos (Or.inl h1)]
  · by_cases h2 : g.edgeWeight v u ≠ none
    · have hm1 : (u, v) ∉ arcsOf g := fun hcon => h1 ((mem_arcsOf hs hk).mp hcon)
      rw [if_neg hm1]
      simp only [ne_eq, not_true_eq_false, if_false]
      rw [if_pos ((mem_arcsOf hs hk).mpr h2), if_pos (Or.inr h2)]
    · have hm1 : (u, v) ∉ arcsOf g := fun hcon => h1 ((mem_arcsOf hs hk).mp hcon)
      have hm2 : (v, u) ∉ arcsOf g := fun hcon => h2 ((mem_arcsOf hs hk).mp hcon)
      rw [if_neg hm1]
      simp only [ne_eq, not_true_eq_false, if_false]
      rw [if_neg hm2, if_neg (fun hcon => hcon.elim h1 h2)]

end FlowConstruction4

/-- C7: on a well-formed directed weighted graph, the `NotStarted → Step`
transition of `algorithm_step` produces data whose capacity graph `gc` is the
original graph with a `ZERO`-weight reverse arc inserted for every arc whose
reverse is absent, whose flow graph `gf` has exactly the original vertex set
and carries both `u → v` and `v → u` with weight `ZERO` for every arc
`u → v` of the original (and nothing else), and whose `curr_path` is `none`
with `last_flow = total_flow = ZERO`. -/
theorem C7_start_builds_capacity_and_flow_graphs {I : Type} [LinearOrder I]
    [DecidableEq I] (g : Graph I Int) (s t : I)
    (hs : g.GSorted) (hk : g.KeysEq) (hI3 : g.TargetsExist)
    (hd : g.is_directed = true) (hw : g.is_weighted = true) :
    ∃ d : AlgorithmStepData I,
      algorithm_step .NotStarted (some g) s t = .ok (.Step d) ∧
      d.s = s ∧ d.t = t ∧
      d.gc.vertices = g.vertices ∧
      (∀ u v, d.gc.edgeWeight u v =
        if g.edgeWeight u v ≠ none then g.edgeWeight u v
        else if g.edgeWeight v u ≠ none then some (some 0) else none) ∧
      d.gf.vertices = g.vertices ∧
      (∀ u v, d.gf.edgeWeight u v =
        if g.edgeWeight u v ≠ none ∨ g.edgeWeight v u ≠ none then some (some 0)
        else none) ∧
      d.curr_path = none ∧ d.last_flow = 0 ∧ d.total_flow = 0 := by
  obtain ⟨c1, _, _, _, _, _, c7⟩ := buildGc_char hs hk hI3 hd hw
  obtain ⟨f1, _, _, _, _, _, f7⟩ := buildGf_char hs hk hI3 hd hw
  refine ⟨⟨s, t, buildGc g, buildGf g, none, 0, 0⟩, ?_, rfl, rfl, c1, c7, f1, f7, rfl,
    rfl, rfl⟩
  simp [algorithm_step, hd, hw]

/-- A concrete directed weighted two-vertex graph with the single arc
`0 → 1` of weight 3. -/
def c7Graph : Graph Nat Int :=
  ⟨[⟨0, none⟩, ⟨1, none⟩], [(0, [⟨1, some 3⟩]), (1, [])], true, true, false⟩

/-- Witness for C7 at the concrete graph `c7Graph`. -/
theorem C7_start_builds_capacity_and_flow_graphs_witness :
    ∃ d : AlgorithmStepData Nat,
      algorithm_step .NotStarted (some c7Graph) 0 1 = .ok (.Step d) ∧
      d.s = 0 ∧ d.t = 1 ∧
      d.gc.vertices = c7Graph.vertices ∧
      (∀ u v, d.gc.edgeWeight u v =
        if c7Graph.edgeWeight u v ≠ none then c7Graph.edgeWeight u v
        else if c7Graph.edgeWeight v u ≠ none then some (some 0) else none) ∧
      d.gf.vertices = c7Graph.vertices ∧
      (∀ u v, d.gf.edgeWeight u v =
        if c7Graph.edgeWeight u v ≠ none ∨ c7Graph.edgeWeight v u ≠ none
        then some (some 0) else none) ∧
      d.curr_path = none ∧ d.last_flow = 0 ∧ d.total_flow = 0 :=
  C7_start_builds_capacity_and_flow_graphs c7Graph 0 1 (by decide) (by decide)
    (by decide) (by decide) (by decide)

section NoPathCase

variable {I : Type} [LinearOrder I] [DecidableEq I]

theorem edgeWeight_ne_none_of_mem_adjD {g : Graph I Int} {u : I} {e : Edge I Int}
    (hs : g.GSorted) (he : e ∈ g.adjD u) : g.edgeWeight u e.to_ ≠ none := by
  rcases h1 : g.adjGet u with _ | l
  · rw [Graph.adjD, h1] at he
    simp at he
  · rw [Graph.adjD, h1, Option.getD_some] at he
    obtain ⟨p, hp1, hp2⟩ := Option.map_eq_some'.mp h1
    subst hp2
    have := Graph.edgeWeight_of_mem hs (mapLookup_mem hp1).1 he
    rw [show p.1 = u from (mapLookup_mem hp1).2] at this
    rw [this]
    simp

theorem dfs_unreachable (gc : Graph I Int) (R : I → Prop) (s t : I)
    (hR : ∀ u, R u → ∀ e ∈ gc.adjD u, R e.to_) (ht : ¬ R t) :
    ∀ fuel i gf used cp flow, R i →
      ∃ used', dfs fuel gc gf used cp s t i flow = ⟨gf, used', cp, 0⟩ := by
  intro fuel
  induction fuel with
  | zero =>
    intro i gf used cp flow _
    exact ⟨used, rfl⟩
  | succ fuel ih =>
    have loop : ∀ es, (∀ e ∈ es, R e.to_) → ∀ gf used cp i flow,
        ∃ used', dfsLoop (fun gf' used' cp' v fl => dfs fuel gc gf' used' cp' s t v fl)
          gf used cp i flow es = ⟨gf, used', cp, 0⟩ := by
      intro es
      induction es with
      | nil =>
        intro _ gf used cp i flow
        exact ⟨used, rfl⟩
      | cons e rest ihe =>
        intro hes gf used cp i flow
        obtain ⟨u1, hu1⟩ := ih e.to_ gf used cp
          (min flow (i32sub (e.weight.getD 0) (flowAt gf i e.to_)))
          (hes e (List.mem_cons_self _ _))
        obtain ⟨u2, hu2⟩ := ihe (fun e' he' => hes e' (List.mem_cons_of_mem _ he'))
          gf u1 cp i flow
        refine ⟨u2, ?_⟩
        simp only [dfsLoop]
        rw [hu1]
        exact hu2
    intro i gf used cp flow hi
    have hit : ¬ i = t := fun hcon => ht (hcon ▸ hi)
    by_cases hzero : flow = 0 ∨ i ∈ used
    · exact ⟨used, by simp [dfs, hit, hzero]⟩
    · obtain ⟨u', hu'⟩ := loop (gc.adjD i) (hR i hi) gf (insertKey i used) cp i flow
      refine ⟨u', ?_⟩
      simp only [dfs]
      rw [if_neg hit, if_neg hzero]
      exact hu'

end NoPathCase

/-- C8: when the source `s` and sink `t` lie in disconnected components (there
is a set `R` of vertices containing `s` but not `t` that is closed under arcs
of the graph in both directions), the state machine goes `NotStarted → Step`
on the first call and `Step → Finished` on the first step attempt, with
`total_flow = ZERO`, `last_flow = ZERO` and `curr_path` cleared to `none`. -/
theorem C8_disconnected_source_sink_finishes_with_zero_flow {I : Type}
    [LinearOrder I] [DecidableEq I] (g : Graph I Int) (s t : I) (R : I → Prop)
    (hs : g.GSorted) (hk : g.KeysEq) (hI3 : g.TargetsExist)
    (hd : g.is_directed = true) (hw : g.is_weighted = true)
    (hcs : g.containsVertex s = true) (hct : g.containsVertex t = true)
    (hRs : R s) (hRt : ¬ R t)
    (hclosed : ∀ u v, R u → (g.edgeWeight u v ≠ none ∨ g.edgeWeight v u ≠ none) → R v) :
    ∃ d : AlgorithmStepData I,
      runAlg g s t 2 = .ok (.Finished d) ∧
      d.total_flow = 0 ∧ d.last_flow = 0 ∧ d.curr_path = none := by
  obtain ⟨c1, c2, c3, c4, c5, c6, c7⟩ := buildGc_char hs hk hI3 hd hw
  have hstep1 : runAlg g s t 1 =
      .ok (.Step ⟨s, t, buildGc g, buildGf g, none, 0, 0⟩) := by
    simp [runAlg, algorithm_step, hd, hw]
  have hR : ∀ u, R u → ∀ e ∈ (buildGc g).adjD u, R e.to_ := by
    intro u hu e he
    have hne : (buildGc g).edgeWeight u e.to_ ≠ none :=
      edgeWeight_ne_none_of_mem_adjD c2 he
    rw [c7 u e.to_] at hne
    by_cases h1 : g.edgeWeight u e.to_ ≠ none
    · exact hclosed u e.to_ hu (Or.inl h1)
    · rw [if_neg h1] at hne
      by_cases h2 : g.edgeWeight e.to_ u ≠ none
      · exact hclosed u e.to_ hu (Or.inr h2)
      · rw [if_neg h2] at hne
        exact absurd rfl hne
  obtain ⟨u', hdfs⟩ := dfs_unreachable (buildGc g) R s t hR hRt
    ((buildGc g).vertices.length + 1) s (buildGf g) [] [] i32max hRs
  refine ⟨⟨s, t, buildGc g, buildGf g, none, 0, i32add 0 0⟩, ?_, ?_, rfl, rfl⟩
  · show (match runAlg g s t 1 with
      | .ok st => algorithm_step st (some g) s t
      | .error e => .error e) = _
    rw [hstep1]
    show algorithm_step (.Step ⟨s, t, buildGc g, buildGf g, none, 0, 0⟩) (some g) s t = _
    simp only [algorithm_step]
    rw [hdfs]
    rfl
  · show i32add 0 0 = 0
    decide

/-- A concrete directed weighted graph with two isolated vertices `0` and
`1`. -/
def c8Graph : Graph Nat Int :=
  ⟨[⟨0, none⟩, ⟨1, none⟩], [(0, []), (1, [])], true, true, false⟩

/-- Witness for C8 at the concrete graph `c8Graph` with `s = 0`, `t = 1`,
taking `R` to be the component `{0}`. -/
theorem C8_disconnected_source_sink_finishes_with_zero_flow_witness :
    ∃ d : AlgorithmStepData Nat,
      runAlg c8Graph 0 1 2 = .ok (.Finished d) ∧
      d.total_flow = 0 ∧ d.last_flow = 0 ∧ d.curr_path = none := by
  have hnone : ∀ u v : Nat, c8Graph.edgeWeight u v = none := fun u v =>
    lookupW_all_empty (by decide) u v
  exact C8_disconnected_source_sink_finishes_with_zero_flow c8Graph 0 1 (fun u => u = 0)
    (by decide) (by decide) (by decide) (by decide) (by decide) (by decide) (by decide)
    rfl (by decide)
    (fun u v _ h => (h.elim (fun hh => (hh (hnone u v)).elim)
      (fun hh => (hh (hnone v u)).elim)))

theorem dfs_at_sink {I : Type} [LinearOrder I] [DecidableEq I] (fuel : Nat)
    (gc gf : Graph I Int) (used : List I) (cp : List ((I × I) × Int)) (s t : I)
    (flow : Int) : dfs (fuel + 1) gc gf used cp s t t flow = ⟨gf, used, cp, flow⟩ := by
  simp [dfs]

/-- C10: when the algorithm is started with source and sink both equal to an
existing vertex `s`, every call made in the `Step` state returns `Step` again
with `last_flow` equal to the `INF` sentinel (`i32::MAX` in the integer
specialization); the `Finished` state is never reached. -/
theorem C10_source_equals_sink_never_finishes {I : Type} [LinearOrder I]
    [DecidableEq I] (g : Graph I Int) (s : I)
    (hd : g.is_directed = true) (hw : g.is_weighted = true)
    (hf : g.is_float_weights = false) (hcs : g.containsVertex s = true) :
    ∀ n, 1 ≤ n → ∃ d : AlgorithmStepData I,
      runAlg g s s n = .ok (.Step d) ∧ d.s = s ∧ d.t = s ∧
      (2 ≤ n → d.last_flow = i32max) := by
  intro n hn
  induction n with
  | zero => omega
  | succ n ihn =>
    by_cases hn1 : n = 0
    · subst hn1
      refine ⟨⟨s, s, buildGc g, buildGf g, none, 0, 0⟩, ?_, rfl, rfl, fun hcon => by omega⟩
      simp [runAlg, algorithm_step, hd, hw]
    · have hn' : 1 ≤ n := Nat.one_le_iff_ne_zero.mpr hn1
      obtain ⟨d, hrun, hds, hdt, _⟩ := ihn hn'
      refine ⟨⟨d.s, d.t, d.gc, d.gf, some [], i32max,
        i32add d.total_flow i32max⟩, ?_, hds, hdt, fun _ => rfl⟩
      show (match runAlg g s s n with
        | .ok st => algorithm_step st (some g) s s
        | .error e => .error e) = _
      rw [hrun]
      show algorithm_step (.Step d) (some g) s s = _
      simp only [algorithm_step]
      rw [show dfs (d.gc.vertices.length + 1) d.gc d.gf [] [] d.s d.t d.s i32max =
          ⟨d.gf, [], [], i32max⟩ from by
        rw [show d.s = d.t from hds.trans hdt.symm]
        exact dfs_at_sink d.gc.vertices.length d.gc d.gf [] [] d.t d.t i32max]
      have hne : ¬ (⟨d.gf, [], [], i32max⟩ : DfsRes I).flow = 0 := by
        show ¬ (i32max = 0)
        decide
      rw [if_neg hne]

/-- A concrete directed weighted one-vertex graph. -/
def c10Graph : Graph Nat Int := ⟨[⟨0, none⟩], [(0, [])], true, true, false⟩

/-- Witness for C10 at the concrete graph `c10Graph` with `s = t = 0` and
`n = 2`. -/
theorem C10_source_equals_sink_never_finishes_witness :
    ∃ d : AlgorithmStepData Nat,
      runAlg c10Graph 0 0 2 = .ok (.Step d) ∧ d.s = 0 ∧ d.t = 0 ∧
      (2 ≤ 2 → d.last_flow = i32max) :=
  C10_source_equals_sink_never_finishes c10Graph 0 (by decide) (by decide) (by decide)
    (by decide) 2 (by omega)

/-- The example network of the max-flow scenario: vertices `s = 0`, `a = 1`,
`b = 2`, `t = 3`; arcs `s→a(3)`, `s→b(2)`, `a→b(1)`, `a→t(2)`, `b→t(3)`
(exactly the graph built by the corresponding `add_vertex`/`add_edge`
calls). -/
def maxflowGraph : Graph Nat Int :=
  ⟨[⟨0, none⟩, ⟨1, none⟩, ⟨2, none⟩, ⟨3, none⟩],
   [(0, [⟨1, some 3⟩, ⟨2, some 2⟩]),
    (1, [⟨2, some 1⟩, ⟨3, some 2⟩]),
    (2, [⟨3, some 3⟩]),
    (3, [])], true, true, false⟩

/-- The `total_flow` carried by a `Finished` result, if the result is one. -/
def finishedTotal {I : Type} (r : Except GraphError (AlgorithmState I)) : Option Int :=
  match r with
  | .ok (.Finished d) => some d.total_flow
  | _ => none

/-- The `last_flow` values of every intermediate `Step` state among the first
`n` calls of `algorithm_step` starting from `NotStarted`. -/
def stepLastFlows (g : Graph Nat Int) (s t n : Nat) : List Int :=
  (List.range n).filterMap fun k =>
    match runAlg g s t (k + 1) with
    | .ok (.Step d) => some d.last_flow
    | _ => none

/-- C1 counterexample: on the scenario network the run reaches `Finished`
after five calls with `total_flow = 5`, not `4` as the claim states (the true
maximum flow of this network is 5: the cut `{s}` has capacity `3 + 2 = 5` and
the run achieves it). -/
theorem C1_counterexample_total_flow_is_five_not_four :
    finishedTotal (runAlg maxflowGraph 0 3 5) = some 5 ∧
    finishedTotal (runAlg maxflowGraph 0 3 5) ≠ some 4 :=
  ⟨rfl, fun hcon => by
    rw [show finishedTotal (runAlg maxflowGraph 0 3 5) = some 5 from rfl] at hcon
    exact absurd (Option.some_inj.mp hcon) (by decide)⟩

/-- C1 (amended): repeatedly calling `algorithm_step` from `NotStarted` on the
scenario network reaches `Finished` on the fifth call with `total_flow = 5`
(the graph's true maximum flow), the intermediate `Step` states carry
`last_flow` values `0, 1, 2, 2`, and their sum equals the final
`total_flow`. -/
theorem C1_maxflow_scenario_run :
    finishedTotal (runAlg maxflowGraph 0 3 5) = some 5 ∧
    stepLastFlows maxflowGraph 0 3 5 = [0, 1, 2, 2] ∧
    (stepLastFlows maxflowGraph 0 3 5).sum = 5 :=
  ⟨rfl, rfl, rfl⟩

/- ### Text serialization (graph.rs `to_file` / `from_file`)

The remainder of the file embeds the text (de)serialization of the graph,
specialized to `I = Nat` and to the integer variant of the weight union
(`W = Int`, `is_float_weights = false`).  A file is modelled at line
granularity as a `List (List Char)`: `writeln!` produces one list element,
`reader.lines()` consumes one list element (newline handling is invisible at
this granularity).  `split_ascii_whitespace` is embedded by `splitWS`,
`usize`/`i32` decimal formatting by `natChars`/`intChars` and their parsing
(`str::parse`) by `parseNat`/`parseInt` over mathematical `Nat`/`Int`. -/

/-- Rust `char::is_ascii_whitespace`: space, tab, newline, form feed,
carriage return. -/
def isWs (c : Char) : Bool :=
  c = ' ' || c = '\t' || c = '\n' || c = '\x0C' || c = '\r'

/-- Cuts a character list at every whitespace character, keeping the (possibly
empty) fragments between cuts. -/
def splitAll : List Char → List (List Char)
  | [] => [[]]
  | c :: cs =>
    match splitAll cs with
    | [] => [[c]]
    | t :: ts => if isWs c then [] :: t :: ts else (c :: t) :: ts

/-- Rust `str::split_ascii_whitespace` collected into a vector: the nonempty
fragments between whitespace runs. -/
def splitWS (s : List Char) : List (List Char) :=
  (splitAll s).filter (fun t => !t.isEmpty)

/-- The `{} {} ...` format strings of graph.rs: the given fragments joined by
single spaces. -/
def joinTokens : List (List Char) → List Char
  | [] => []
  | [t] => t
  | t :: ts => t ++ ' ' :: joinTokens ts

/-- Decimal value of an ASCII digit character, `none` on any other
character. -/
def digVal (c : Char) : Option Nat :=
  if 48 ≤ c.toNat ∧ c.toNat ≤ 57 then some (c.toNat - 48) else none

/-- Accumulator loop of decimal parsing: fails on the first non-digit. -/
def parseDigitsAux : List Char → Nat → Option Nat
  | [], acc => some acc
  | c :: cs, acc =>
    match digVal c with
    | some d => parseDigitsAux cs (acc * 10 + d)
    | none => none

/-- A nonempty all-digit character list parsed as a decimal number. -/
def parseDigits : List Char → Option Nat
  | [] => none
  | cs => parseDigitsAux cs 0

/-- Rust `str::parse::<usize>` over mathematical `Nat`: an optional leading
`+` followed by at least one decimal digit. -/
def parseNat (cs : List Char) : Option Nat :=
  match cs with
  | [] => none
  | c :: rest => if c = '+' then parseDigits rest else parseDigits (c :: rest)

/-- Rust `str::parse::<i32>` over mathematical `Int`: an optional sign
followed by at least one decimal digit. -/
def parseInt (cs : List Char) : Option Int :=
  match cs with
  | [] => none
  | c :: rest =>
    if c = '-' then (parseDigits rest).map (fun n => -(n : Int))
    else if c = '+' then (parseDigits rest).map (fun n => (n : Int))
    else (parseDigits (c :: rest)).map (fun n => (n : Int))

/-- Most-significant-first decimal digits of a positive number; the first
argument is fuel (structural recursion; `fuel ≥ n` suffices). -/
def natCharsAux : Nat → Nat → List Char
  | 0, _ => []
  | fuel + 1, n => if n = 0 then [] else natCharsAux fuel (n / 10) ++ [Nat.digitChar (n % 10)]

/-- Decimal rendering of a `Nat` (Rust `Display` for `usize`). -/
def natChars (n : Nat) : List Char :=
  if n = 0 then ['0'] else natCharsAux n n

/-- Decimal rendering of an `Int` (Rust `Display` for `i32`). -/
def intChars (x : Int) : List Char :=
  if x < 0 then '-' :: natChars x.natAbs else natChars x.natAbs

/-- The vertex's label is printable-and-reparsable: absent, or a nonempty
whitespace-free string. -/
def labelOk (v : Vertex Nat) : Bool :=
  match v.label with
  | none => true
  | some l => !l.data.isEmpty && l.data.all (fun c => !isWs c)

namespace GraphText

/-- Modelled from the spec: the `new_graph` helper of the text loader (absent
from src/) creates the graph from the tokens of the header line.  Per §6 the
header is exactly `<directed|undirected> <weighted|unweighted> <int|float>`;
per §6/§7 a wrong token count is `IncorrectArgumentCount` and a malformed
token at position `i` is `IncorrectArgument i`, checked before the Graph ADT
is consulted. -/
def new_graph (args : List (List Char)) : Except GraphError (Graph Nat Int) :=
  match args with
  | [t0, t1, t2] =>
    match (if t0 = "directed".data then some true
           else if t0 = "undirected".data then some false else none) with
    | none => .error (.interfaceError (.IncorrectArgument 0))
    | some d =>
      match (if t1 = "weighted".data then some true
             else if t1 = "unweighted".data then some false else none) with
      | none => .error (.interfaceError (.IncorrectArgument 1))
      | some w =>
        match (if t2 = "int".data then some false
               else if t2 = "float".data then some true else none) with
        | none => .error (.interfaceError (.IncorrectArgument 2))
        | some f => .ok (Graph.new d w f)
  | _ => .error (.interfaceError .IncorrectArgumentCount)

/-- Modelled from the spec: the `add_vertex` helper of the text loader (absent
from src/) parses a vertex line `<id> [label]` (§6) and performs the
`add_vertex(id[, label])` mutation of the command surface: count and format
checks first (`IncorrectArgumentCount` / `IncorrectArgument 0`), then the
Graph ADT call, whose operation error is surfaced unchanged. -/
def add_vertex (args : List (List Char)) (g : Option (Graph Nat Int)) :
    Except GraphError (Graph Nat Int) :=
  if args.length = 0 ∨ 2 < args.length then .error (.interfaceError .IncorrectArgumentCount)
  else
    match parseNat (args.headD []) with
    | none => .error (.interfaceError (.IncorrectArgument 0))
    | some i =>
      match g with
      | none => .error (.interfaceError .GraphNotExist)
      | some g0 =>
        match g0.add_vertex ⟨i, ((args.drop 1).head?).map (fun t => String.mk t)⟩ with
        | (.ok _, g1) => .ok g1
        | (.error e, _) => .error (.operationError e)

/-- Modelled from the spec: the `add_edge` helper of the text loader (absent
from src/) parses an edge line `<from> <to> [weight]` (§6) and performs the
`add_edge(from, to[, weight])` mutation of the command surface: count and
format checks first (`IncorrectArgumentCount` / `IncorrectArgument i`), then
the Graph ADT call, whose operation error is surfaced unchanged.  Weights are
the integer variant, parsed as `i32`. -/
def add_edge (args : List (List Char)) (g : Option (Graph Nat Int)) :
    Except GraphError (Graph Nat Int) :=
  if args.length < 2 ∨ 3 < args.length then .error (.interfaceError .IncorrectArgumentCount)
  else
    match parseNat (args.headD []) with
    | none => .error (.interfaceError (.IncorrectArgument 0))
    | some i =>
      match parseNat ((args.drop 1).headD []) with
      | none => .error (.interfaceError (.IncorrectArgument 1))
      | some j =>
        match (match (args.drop 2).head? with
               | none => Except.ok none
               | some t2 =>
                 match parseInt t2 with
                 | none => Except.error (GraphError.interfaceError (.IncorrectArgument 2))
                 | some w => Except.ok (some w)) with
        | .error e => .error e
        | .ok wopt =>
          match g with
          | none => .error (.interfaceError .GraphNotExist)
          | some g0 =>
            match g0.add_edge i ⟨j, wopt⟩ with
            | (.ok _, g1) => .ok g1
            | (.error e, _) => .error (.operationError e)

end GraphText

/-- The parsing state machine of graph.rs `from_file`. -/
inductive ReadingState where
  | NotCreated
  | ParsingVerticesStart
  | ParsingVertices
  | ParsingEdges
deriving DecidableEq, Repr

/-- The line loop of graph.rs `from_file`: one state transition per line.
Marker lines are compared against the raw line (`&line_str[..]`), all other
lines are tokenized by `splitWS` before being handed to the helpers. -/
def from_fileLoop : List (List Char) → ReadingState → Option (Graph Nat Int) →
    Except GraphError (Option (Graph Nat Int))
  | [], _, g => .ok g
  | line :: rest, st, g =>
    match st with
    | .NotCreated =>
      match GraphText.new_graph (splitWS line) with
      | .error e => .error e
      | .ok g2 => from_fileLoop rest .ParsingVerticesStart (some g2)
    | .ParsingVerticesStart =>
      if line = "vertices".data then from_fileLoop rest .ParsingVertices g
      else .error (.interfaceError .WrongParsingVerticesStart)
    | .ParsingVertices =>
      if line = "edges".data then from_fileLoop rest .ParsingEdges g
      else
        match GraphText.add_vertex (splitWS line) g with
        | .error e => .error e
        | .ok g2 => from_fileLoop rest .ParsingVertices (some g2)
    | .ParsingEdges =>
      match GraphText.add_edge (splitWS line) g with
      | .error e => .error e
      | .ok g2 => from_fileLoop rest .ParsingEdges (some g2)

/-- graph.rs `Graph::from_file`: runs the line state machine from
`NotCreated` with no graph; if no graph was created the file was empty. -/
def from_file (ls : List (List Char)) : Except GraphError (Graph Nat Int) :=
  match from_fileLoop ls .NotCreated none with
  | .error e => .error e
  | .ok none => .error (.interfaceError .EmptyFile)
  | .ok (some g) => .ok g

/-- The header line written by graph.rs `Graph::to_file`. -/
def headerLine (g : Graph Nat Int) : List Char :=
  joinTokens [(if g.is_directed then "directed" else "undirected").data,
    (if g.is_weighted then "weighted" else "unweighted").data,
    (if g.is_float_weights then "float" else "int").data]

/-- One vertex line of graph.rs `Graph::to_file`: `{} {}` with the label or
`{}` without. -/
def vertexLine (v : Vertex Nat) : List Char :=
  match v.label with
  | some l => joinTokens [natChars v.id, l.data]
  | none => natChars v.id

/-- One edge line of graph.rs `Graph::to_file`: `{} {} {}` with the weight or
`{} {}` without. -/
def edgeLine (from_ : Nat) (e : Edge Nat Int) : List Char :=
  match e.weight with
  | some w => joinTokens [natChars from_, natChars e.to_, intChars w]
  | none => joinTokens [natChars from_, natChars e.to_]

/-- graph.rs `Graph::to_file` as the list of lines it writes: header,
`vertices` marker, one line per vertex in map order, `edges` marker, one
line per stored arc in map order, skipping the arc when the graph is
undirected and `from > to`. -/
def to_file (g : Graph Nat Int) : List (List Char) :=
  headerLine g :: "vertices".data ::
    (g.vertices.map vertexLine ++ "edges".data ::
      g.edges.flatMap (fun p =>
        (p.2.filter (fun e => g.is_directed || decide (p.1 ≤ e.to_))).map (edgeLine p.1)))

/-- The arcs whose lines `to_file` writes, in writing order, with their
weights. -/
def writtenArcs (g : Graph Nat Int) : List ((Nat × Nat) × Option Int) :=
  g.edges.flatMap (fun p =>
    (p.2.filter (fun e => g.is_directed || decide (p.1 ≤ e.to_))).map
      (fun e => ((p.1, e.to_), e.weight)))

/-- The line of one written arc. -/
def arcLine (a : (Nat × Nat) × Option Int) : List Char :=
  match a.2 with
  | some w => joinTokens [natChars a.1.1, natChars a.1.2, intChars w]
  | none => joinTokens [natChars a.1.1, natChars a.1.2]

section TextLemmas

theorem splitAll_ne_nil (s : List Char) : splitAll s ≠ [] := by
  cases s with
  | nil => simp [splitAll]
  | cons c cs =>
    cases h : splitAll cs with
    | nil => simp [splitAll, h]
    | cons t ts =>
      simp only [splitAll, h]
      split_ifs <;> simp

theorem splitAll_append (a b : List Char) :
    splitAll (a ++ ' ' :: b) = splitAll a ++ splitAll b := by
  induction a with
  | nil =>
    simp only [List.nil_append]
    cases h : splitAll b with
    | nil => exact absurd h (splitAll_ne_nil b)
    | cons t ts => simp [splitAll, h, isWs]
  | cons c a ih =>
    cases h2 : splitAll a with
    | nil => exact absurd h2 (splitAll_ne_nil a)
    | cons t2 ts2 =>
      have h : splitAll (a ++ ' ' :: b) = t2 :: (ts2 ++ splitAll b) := by
        rw [ih, h2]
        rfl
      simp only [List.cons_append, splitAll, h, h2]
      by_cases hc : isWs c = true <;> simp [hc, h]

theorem splitWS_append (a b : List Char) :
    splitWS (a ++ ' ' :: b) = splitWS a ++ splitWS b := by
  unfold splitWS
  rw [splitAll_append, List.filter_append]

theorem splitAll_nows (t : List Char) (h : ∀ c ∈ t, isWs c = false) : splitAll t = [t] := by
  induction t with
  | nil => rfl
  | cons c cs ih =>
    have hcs := ih (fun c hc => h c (List.mem_cons_of_mem _ hc))
    simp [splitAll, hcs, h c (List.mem_cons_self _ _)]

theorem splitWS_single (t : List Char) (hne : t ≠ []) (h : ∀ c ∈ t, isWs c = false) :
    splitWS t = [t] := by
  unfold splitWS
  rw [splitAll_nows t h]
  simp [hne]

theorem splitWS_joinTokens (ts : List (List Char)) (hne : ts ≠ [])
    (h : ∀ t ∈ ts, t ≠ [] ∧ ∀ c ∈ t, isWs c = false) : splitWS (joinTokens ts) = ts := by
  induction ts with
  | nil => exact absurd rfl hne
  | cons t ts ih =>
    cases ts with
    | nil =>
      exact splitWS_single t (h t (List.mem_cons_self _ _)).1 (h t (List.mem_cons_self _ _)).2
    | cons t2 ts2 =>
      have hj : joinTokens (t :: t2 :: ts2) = t ++ ' ' :: joinTokens (t2 :: ts2) := rfl
      rw [hj, splitWS_append,
        splitWS_single t (h t (List.mem_cons_self _ _)).1 (h t (List.mem_cons_self _ _)).2,
        ih (by simp) (fun u hu => h u (List.mem_cons_of_mem _ hu))]
      rfl

theorem natCharsAux_zero (fuel : Nat) : natCharsAux fuel 0 = [] := by
  cases fuel <;> rfl

theorem natCharsAux_eq_digits : ∀ fuel n, n ≤ fuel →
    natCharsAux fuel n = (Nat.digits 10 n).reverse.map Nat.digitChar := by
  intro fuel
  induction fuel with
  | zero =>
    intro n hn
    have h0 : n = 0 := Nat.le_zero.mp hn
    subst h0
    simp [natCharsAux_zero]
  | succ f ih =>
    intro n hn
    by_cases h0 : n = 0
    · subst h0
      simp [natCharsAux_zero]
    · have hd : Nat.digits 10 n = n % 10 :: Nat.digits 10 (n / 10) :=
        Nat.digits_def' (by norm_num) (Nat.pos_of_ne_zero h0)
      have hdiv : n / 10 ≤ f := by
        have := Nat.div_lt_self (Nat.pos_of_ne_zero h0) (by norm_num : (1:ℕ) < 10)
        omega
      show (if n = 0 then [] else natCharsAux f (n / 10) ++ [Nat.digitChar (n % 10)]) = _
      rw [if_neg h0, ih (n / 10) hdiv, hd]
      simp

theorem natChars_eq_digits (n : Nat) (h0 : n ≠ 0) :
    natChars n = (Nat.digits 10 n).reverse.map Nat.digitChar := by
  unfold natChars
  rw [if_neg h0]
  exact natCharsAux_eq_digits n n le_rfl

theorem digit_char_facts {d : Nat} (h : d < 10) :
    digVal (Nat.digitChar d) = some d ∧ isWs (Nat.digitChar d) = false ∧
    Nat.digitChar d ≠ '+' ∧ Nat.digitChar d ≠ '-' ∧ Nat.digitChar d ≠ 'e' := by
  interval_cases d <;> exact ⟨by decide, by decide, by decide, by decide, by decide⟩

theorem natChars_all (n : Nat) : ∀ c ∈ natChars n, ∃ d, d < 10 ∧ c = Nat.digitChar d := by
  by_cases h0 : n = 0
  · subst h0
    intro c hc
    simp [natChars] at hc
    exact ⟨0, by norm_num, hc⟩
  · rw [natChars_eq_digits n h0]
    intro c hc
    obtain ⟨d, hd, hdc⟩ := List.mem_map.mp hc
    exact ⟨d, Nat.digits_lt_base (by norm_num) (List.mem_reverse.mp hd), hdc.symm⟩

theorem natChars_cons (n : Nat) :
    ∃ d rest, d < 10 ∧ natChars n = Nat.digitChar d :: rest := by
  by_cases h0 : n = 0
  · subst h0
    exact ⟨0, [], by norm_num, rfl⟩
  · rw [natChars_eq_digits n h0]
    cases hrev : (Nat.digits 10 n).reverse with
    | nil =>
      exact absurd (List.reverse_eq_nil_iff.mp hrev)
        (Nat.digits_ne_nil_iff_ne_zero.mpr h0)
    | cons d L =>
      refine ⟨d, L.map Nat.digitChar, ?_, rfl⟩
      exact Nat.digits_lt_base (by norm_num)
        (List.mem_reverse.mp (hrev ▸ List.mem_cons_self d L))

theorem natChars_ne_nil (n : Nat) : natChars n ≠ [] := by
  obtain ⟨d, rest, _, hcons⟩ := natChars_cons n
  rw [hcons]
  simp

theorem natChars_nows (n : Nat) : ∀ c ∈ natChars n, isWs c = false := by
  intro c hc
  obtain ⟨d, hd10, hcd⟩ := natChars_all n c hc
  rw [hcd]
  exact (digit_char_facts hd10).2.1

theorem intChars_ne_nil (x : Int) : intChars x ≠ [] := by
  unfold intChars
  split_ifs
  · simp
  · exact natChars_ne_nil _

theorem intChars_nows (x : Int) : ∀ c ∈ intChars x, isWs c = false := by
  unfold intChars
  split_ifs
  · intro c hc
    rcases List.mem_cons.mp hc with h | h
    · rw [h]
      decide
    · exact natChars_nows _ c h
  · exact natChars_nows _

theorem parseDigitsAux_digits (L : List Nat) (hL : ∀ d ∈ L, d < 10) :
    ∀ acc, parseDigitsAux (L.map Nat.digitChar) acc =
      some (L.foldl (fun a d => a * 10 + d) acc) := by
  induction L with
  | nil => intro acc; rfl
  | cons d L ih =>
    intro acc
    have hd := (digit_char_facts (hL d (List.mem_cons_self _ _))).1
    simp only [List.map_cons, parseDigitsAux, hd, List.foldl_cons]
    exact ih (fun x hx => hL x (List.mem_cons_of_mem _ hx)) (acc * 10 + d)

theorem foldl_digits (n : Nat) :
    (Nat.digits 10 n).reverse.foldl (fun a d => a * 10 + d) 0 = n := by
  induction n using Nat.strong_induction_on with
  | _ n ih =>
    by_cases h0 : n = 0
    · subst h0
      simp
    · rw [Nat.digits_def' (by norm_num : (1:ℕ) < 10) (Nat.pos_of_ne_zero h0),
        List.reverse_cons, List.foldl_append,
        ih (n / 10) (Nat.div_lt_self (Nat.pos_of_ne_zero h0) (by norm_num))]
      simp only [List.foldl_cons, List.foldl_nil]
      omega

theorem parseDigits_natChars (n : Nat) : parseDigits (natChars n) = some n := by
  by_cases h0 : n = 0
  · subst h0
    decide
  · have hL : ∀ d ∈ (Nat.digits 10 n).reverse, d < 10 := fun d hd =>
      Nat.digits_lt_base (by norm_num) (List.mem_reverse.mp hd)
    rw [natChars_eq_digits n h0]
    cases hrev : (Nat.digits 10 n).reverse with
    | nil =>
      exact absurd (List.reverse_eq_nil_iff.mp hrev)
        (Nat.digits_ne_nil_iff_ne_zero.mpr h0)
    | cons d L =>
      have hstep : parseDigits ((d :: L).map Nat.digitChar) =
          parseDigitsAux ((d :: L).map Nat.digitChar) 0 := rfl
      rw [hstep, parseDigitsAux_digits (d :: L) (fun x hx => hL x (hrev ▸ hx))]
      rw [← hrev, foldl_digits]

theorem parseNat_natChars (n : Nat) : parseNat (natChars n) = some n := by
  obtain ⟨d, rest, hd10, hcons⟩ := natChars_cons n
  rw [hcons]
  show (if Nat.digitChar d = '+' then parseDigits rest
    else parseDigits (Nat.digitChar d :: rest)) = some n
  rw [if_neg (digit_char_facts hd10).2.2.1, ← hcons, parseDigits_natChars]

theorem parseInt_intChars (x : Int) : parseInt (intChars x) = some x := by
  by_cases hneg : x < 0
  · have hx : intChars x = '-' :: natChars x.natAbs := by
      unfold intChars
      rw [if_pos hneg]
    rw [hx]
    show (if ('-' : Char) = '-' then (parseDigits (natChars x.natAbs)).map (fun n => -(n : Int))
      else if ('-' : Char) = '+' then (parseDigits (natChars x.natAbs)).map (fun n => (n : Int))
      else (parseDigits ('-' :: natChars x.natAbs)).map (fun n => (n : Int))) = some x
    rw [if_pos rfl, parseDigits_natChars]
    show some (-(x.natAbs : Int)) = some x
    congr 1
    omega
  · have hx : intChars x = natChars x.natAbs := by
      unfold intChars
      rw [if_neg hneg]
    obtain ⟨d, rest, hd10, hcons⟩ := natChars_cons x.natAbs
    rw [hx, hcons]
    show (if Nat.digitChar d = '-' then (parseDigits rest).map (fun n => -(n : Int))
      else if Nat.digitChar d = '+' then (parseDigits rest).map (fun n => (n : Int))
      else (parseDigits (Nat.digitChar d :: rest)).map (fun n => (n : Int))) = some x
    rw [if_neg (digit_char_facts hd10).2.2.2.1, if_neg (digit_char_facts hd10).2.2.1,
      ← hcons, parseDigits_natChars]
    show some ((x.natAbs : Int)) = some x
    congr 1
    omega

end TextLemmas

namespace Graph

section C3GraphHelpers

variable {I W : Type} [LinearOrder I] [DecidableEq I] [DecidableEq W] {g : Graph I W}

theorem add_edge_flags {src : I} {e0 : Edge I W} :
    ((g.add_edge src e0).2).is_directed = g.is_directed ∧
    ((g.add_edge src e0).2).is_weighted = g.is_weighted ∧
    ((g.add_edge src e0).2).is_float_weights = g.is_float_weights := by
  unfold add_edge
  split_ifs <;> exact ⟨rfl, rfl, rfl⟩

theorem add_edge_directed_ok {src : I} {e0 : Edge I W} (hk : g.KeysEq)
    (hd : g.is_directed = true) (hwt : e0.weight.isSome = g.is_weighted)
    (hc1 : g.containsVertex src = true) (hc2 : g.containsVertex e0.to_ = true)
    (habs : g.edgeWeight src e0.to_ = none) :
    (g.add_edge src e0).1 = .ok () := by
  have hx1 : ¬ (e0.weight.isSome = true ∧ ¬ g.is_weighted = true) := by
    rw [hwt]
    tauto
  have hw2 : e0.weight.isNone = !g.is_weighted := by
    rw [← hwt]
    cases e0.weight <;> rfl
  have hx2 : ¬ (e0.weight.isNone = true ∧ g.is_weighted = true) := by
    rw [hw2]
    intro hcon
    rw [hcon.2] at hcon
    exact Bool.noConfusion hcon.1
  have hx3 : ¬ ¬ (g.containsVertex src = true ∧ g.containsVertex e0.to_ = true) :=
    not_not_intro ⟨hc1, hc2⟩
  have hlk : ¬ (mapLookup (fun e' : Edge I W => e'.to_) e0.to_ (g.adjD src)).isSome = true := by
    rw [adjD_lookup_isSome_iff hk hc1]
    exact not_not_intro habs
  show ((if e0.weight.isSome = true ∧ ¬ g.is_weighted = true then _ else _ :
    Except GraphOperationError Unit × Graph I W)).1 = _
  rw [if_neg hx1, if_neg hx2, if_neg hx3, if_pos hd, if_neg hlk]

theorem add_edge_undirected_ok {src : I} {e0 : Edge I W} (hk : g.KeysEq)
    (hd : g.is_directed = false) (hwt : e0.weight.isSome = g.is_weighted)
    (hc1 : g.containsVertex src = true) (hc2 : g.containsVertex e0.to_ = true)
    (habs1 : g.edgeWeight src e0.to_ = none) (habs2 : g.edgeWeight e0.to_ src = none) :
    (g.add_edge src e0).1 = .ok () := by
  have hx1 : ¬ (e0.weight.isSome = true ∧ ¬ g.is_weighted = true) := by
    rw [hwt]
    tauto
  have hw2 : e0.weight.isNone = !g.is_weighted := by
    rw [← hwt]
    cases e0.weight <;> rfl
  have hx2 : ¬ (e0.weight.isNone = true ∧ g.is_weighted = true) := by
    rw [hw2]
    intro hcon
    rw [hcon.2] at hcon
    exact Bool.noConfusion hcon.1
  have hx3 : ¬ ¬ (g.containsVertex src = true ∧ g.containsVertex e0.to_ = true) :=
    not_not_intro ⟨hc1, hc2⟩
  have hdb : ¬ g.is_directed = true := by
    rw [hd]
    exact Bool.noConfusion
  have hlk : ¬ ((mapLookup (fun e' : Edge I W => e'.to_) e0.to_ (g.adjD src)).isSome = true ∨
      (mapLookup (fun e' : Edge I W => e'.to_) src (g.adjD e0.to_)).isSome = true) := by
    intro hcon
    rcases hcon with hcon | hcon
    · exact (adjD_lookup_isSome_iff hk hc1).mp hcon habs1
    · exact (adjD_lookup_isSome_iff hk hc2).mp hcon habs2
  show ((if e0.weight.isSome = true ∧ ¬ g.is_weighted = true then _ else _ :
    Except GraphOperationError Unit × Graph I W)).1 = _
  rw [if_neg hx1, if_neg hx2, if_neg hx3, if_neg hdb, if_neg hlk]

theorem edgeWeight_add_edge_undirected {src : I} {e0 : Edge I W}
    (hs : g.GSorted) (hk : g.KeysEq) (hd : g.is_directed = false)
    (hwt : e0.weight.isSome = g.is_weighted)
    (hc1 : g.containsVertex src = true) (hc2 : g.containsVertex e0.to_ = true)
    (habs1 : g.edgeWeight src e0.to_ = none) (habs2 : g.edgeWeight e0.to_ src = none) :
    ∀ u v, ((g.add_edge src e0).2).edgeWeight u v =
      if (u = src ∧ v = e0.to_) ∨ (u = e0.to_ ∧ v = src) then some e0.weight
      else g.edgeWeight u v := by
  have hok := add_edge_undirected_ok hk hd hwt hc1 hc2 habs1 habs2
  obtain ⟨hshape, -, -, -, -⟩ := add_edge_ok_undirected_inv hk hd hok
  intro u v
  rw [hshape]
  show lookupW (mapAdjust Prod.fst src (insEntry ⟨e0.to_, e0.weight⟩)
    (mapAdjust Prod.fst e0.to_ (insEntry ⟨src, e0.weight⟩) g.edges)) u v = _
  rw [lookupW_adjust_ins2 src e0.to_ e0.weight hs.2.1 hs.2.2
    (edgesLookup_isSome_of_contains hk hc1) (edgesLookup_isSome_of_contains hk hc2)
    habs1 habs2 u v]
  rfl

theorem edgeWeight_some_elim {u v : I} {w : Option W} (h : g.edgeWeight u v = some w) :
    ∃ p ∈ g.edges, p.1 = u ∧ ∃ e ∈ p.2, e.to_ = v ∧ e.weight = w := by
  rcases h1 : mapLookup Prod.fst u g.edges with _ | p
  · rw [edgeWeight, lookupW, h1] at h
    simp at h
  · rcases h2 : mapLookup (fun e : Edge I W => e.to_) v p.2 with _ | e
    · rw [edgeWeight, lookupW, h1, Option.some_bind, h2] at h
      simp at h
    · rw [edgeWeight, lookupW, h1, Option.some_bind, h2] at h
      obtain ⟨hp, hpu⟩ := mapLookup_mem h1
      obtain ⟨he, hev⟩ := mapLookup_mem h2
      exact ⟨p, hp, hpu, e, he, hev, Option.some.inj h⟩

theorem mirror_of_symD
    (hsd : ∀ p ∈ g.edges, ∀ e ∈ p.2, g.edgeWeight e.to_ p.1 = some e.weight)
    {u v : I} {w : Option W} (h : g.edgeWeight u v = some w) :
    g.edgeWeight v u = some w := by
  obtain ⟨p, hp, hpu, e, he, hev, hew⟩ := edgeWeight_some_elim h
  have hm := hsd p hp e he
  rw [hev, hpu, hew] at hm
  exact hm

theorem edges_ext {g1 g2 : Graph I W} (hs1 : g1.GSorted) (hs2 : g2.GSorted)
    (hkeys : g1.edgeKeys = g2.edgeKeys)
    (hw : ∀ u v, g1.edgeWeight u v = g2.edgeWeight u v) : g1.edges = g2.edges := by
  apply sorted_ext hs1.2.1 hs2.2.1
  intro k
  have hsome : (mapLookup Prod.fst k g1.edges).isSome =
      (mapLookup Prod.fst k g2.edges).isSome := by
    rcases hi1 : (mapLookup Prod.fst k g1.edges).isSome with _ | _ <;>
      rcases hi2 : (mapLookup Prod.fst k g2.edges).isSome with _ | _
    · rfl
    · exfalso
      obtain ⟨p2, hp2, hk2⟩ := mapLookup_isSome_iff.mp hi2
      have : (mapLookup Prod.fst k g1.edges).isSome = true := by
        rw [mapLookup_isSome_iff]
        have hmem : k ∈ g2.edgeKeys := List.mem_map.mpr ⟨p2, hp2, hk2⟩
        rw [← hkeys] at hmem
        obtain ⟨p1, hp1, hk1⟩ := List.mem_map.mp hmem
        exact ⟨p1, hp1, hk1⟩
      rw [hi1] at this
      exact Bool.noConfusion this
    · exfalso
      obtain ⟨p1, hp1, hk1⟩ := mapLookup_isSome_iff.mp hi1
      have : (mapLookup Prod.fst k g2.edges).isSome = true := by
        rw [mapLookup_isSome_iff]
        have hmem : k ∈ g1.edgeKeys := List.mem_map.mpr ⟨p1, hp1, hk1⟩
        rw [hkeys] at hmem
        obtain ⟨p2, hp2, hk2⟩ := List.mem_map.mp hmem
        exact ⟨p2, hp2, hk2⟩
      rw [hi2] at this
      exact Bool.noConfusion this
    · rfl
  rcases h1 : mapLookup Prod.fst k g1.edges with _ | p1
  · rcases h2 : mapLookup Prod.fst k g2.edges with _ | p2
    · rfl
    · rw [h1, h2] at hsome
      exact Bool.noConfusion hsome
  · rcases h2 : mapLookup Prod.fst k g2.edges with _ | p2
    · rw [h1, h2] at hsome
      exact Bool.noConfusion hsome
    · have hpe1 := mapLookup_mem h1
      have hpe2 := mapLookup_mem h2
      have hinner : p1.2 = p2.2 := by
        apply sorted_ext (hs1.2.2 p1 hpe1.1) (hs2.2.2 p2 hpe2.1)
        intro v
        have hw' := hw k v
        rw [edgeWeight, lookupW, edgeWeight, lookupW, h1, h2, Option.some_bind,
          Option.some_bind] at hw'
        rcases e1h : mapLookup (fun e : Edge I W => e.to_) v p1.2 with _ | e1 <;>
          rcases e2h : mapLookup (fun e : Edge I W => e.to_) v p2.2 with _ | e2
        · rfl
        · rw [e1h, e2h] at hw'
          simp at hw'
        · rw [e1h, e2h] at hw'
          simp at hw'
        · rw [e1h, e2h] at hw'
          simp only [Option.map_some'] at hw'
          have hwe : e1.weight = e2.weight := Option.some.inj hw'
          have h1v := (mapLookup_mem e1h).2
          have h2v := (mapLookup_mem e2h).2
          have : e1 = e2 := by
            cases e1 with
            | mk t1 w1 =>
              cases e2 with
              | mk t2 w2 =>
                simp only at h1v h2v hwe
                rw [h1v, h2v, hwe]
          rw [this]
      have hp12 : p1 = p2 := by
        have hfst : p1.1 = p2.1 := by
          rw [hpe1.2, hpe2.2]
        cases p1
        cases p2
        simp only at hfst hinner
        rw [hfst, hinner]
      rw [hp12]

end C3GraphHelpers

end Graph

section WrittenArcsLemmas

variable {g : Graph Nat Int}

theorem writtenArcs_mem (hs : g.GSorted) {a : (Nat × Nat) × Option Int}
    (ha : a ∈ writtenArcs g) :
    g.edgeWeight a.1.1 a.1.2 = some a.2 ∧ (g.is_directed = true ∨ a.1.1 ≤ a.1.2) := by
  unfold writtenArcs at ha
  obtain ⟨p, hp, hmem⟩ := List.mem_flatMap.mp ha
  obtain ⟨e, he, heq⟩ := List.mem_map.mp hmem
  obtain ⟨hef, hcond⟩ := List.mem_filter.mp he
  subst heq
  refine ⟨Graph.edgeWeight_of_mem hs hp hef, ?_⟩
  rcases Bool.or_eq_true_iff.mp hcond with h | h
  · exact Or.inl h
  · exact Or.inr (of_decide_eq_true h)

theorem writtenArcs_complete (hs : g.GSorted) {u v : Nat} {w : Option Int}
    (h : g.edgeWeight u v = some w) (hkeep : g.is_directed = true ∨ u ≤ v) :
    ((u, v), w) ∈ writtenArcs g := by
  obtain ⟨p, hp, hpu, e, he, hev, hew⟩ := Graph.edgeWeight_some_elim h
  unfold writtenArcs
  refine List.mem_flatMap.mpr ⟨p, hp, ?_⟩
  refine List.mem_map.mpr ⟨e, List.mem_filter.mpr ⟨he, ?_⟩, by rw [hpu, hev, hew]⟩
  rcases hkeep with hd | hle
  · simp [hd]
  · rw [hpu, hev]
    simp [hle]

theorem writtenArcs_keys_distinct (hs : g.GSorted) :
    List.Pairwise (fun a b : (Nat × Nat) × Option Int => a.1 ≠ b.1) (writtenArcs g) := by
  suffices H : ∀ es : List (Nat × List (Edge Nat Int)), SortedByKey Prod.fst es →
      (∀ p ∈ es, SortedByKey (fun e : Edge Nat Int => e.to_) p.2) →
      List.Pairwise (fun a b : (Nat × Nat) × Option Int => a.1 ≠ b.1)
        (es.flatMap (fun p =>
          (p.2.filter (fun e => g.is_directed || decide (p.1 ≤ e.to_))).map
            (fun e => ((p.1, e.to_), e.weight)))) by
    exact H g.edges hs.2.1 hs.2.2
  intro es
  induction es with
  | nil =>
    intro _ _
    simp
  | cons p es ih =>
    intro h1 h2
    rw [sortedByKey_cons] at h1
    rw [List.flatMap_cons, List.pairwise_append]
    refine ⟨?_, ih h1.2 (fun q hq => h2 q (List.mem_cons_of_mem _ hq)), ?_⟩
    · rw [List.pairwise_map]
      have hsor : List.Pairwise (fun a b : Edge Nat Int => a.to_ < b.to_)
          (p.2.filter (fun e => g.is_directed || decide (p.1 ≤ e.to_))) :=
        List.Pairwise.filter _ (h2 p (List.mem_cons_self _ _))
      refine hsor.imp ?_
      intro a b hlt heq
      exact absurd (congrArg Prod.snd heq) (ne_of_lt hlt)
    · intro a ha b hb
      obtain ⟨ea, hea, haeq⟩ := List.mem_map.mp ha
      obtain ⟨q, hq, hbq⟩ := List.mem_flatMap.mp hb
      obtain ⟨eb, heb, hbeq⟩ := List.mem_map.mp hbq
      intro heq
      have hfa : a.1.1 = p.1 := by
        rw [← haeq]
      have hfb : b.1.1 = q.1 := by
        rw [← hbeq]
      have hlt : p.1 < q.1 := h1.1 q hq
      rw [heq, hfb] at hfa
      rw [hfa] at hlt
      exact lt_irrefl _ hlt

end WrittenArcsLemmas

section LineLemmas

theorem GraphText.add_vertex_one (t0 : List Char) (g : Option (Graph Nat Int)) :
    GraphText.add_vertex [t0] g =
      match parseNat t0 with
      | none => .error (.interfaceError (.IncorrectArgument 0))
      | some i =>
        match g with
        | none => .error (.interfaceError .GraphNotExist)
        | some g0 =>
          match g0.add_vertex ⟨i, none⟩ with
          | (.ok _, g1) => .ok g1
          | (.error e, _) => .error (.operationError e) := rfl

theorem GraphText.add_vertex_two (t0 t1 : List Char) (g : Option (Graph Nat Int)) :
    GraphText.add_vertex [t0, t1] g =
      match parseNat t0 with
      | none => .error (.interfaceError (.IncorrectArgument 0))
      | some i =>
        match g with
        | none => .error (.interfaceError .GraphNotExist)
        | some g0 =>
          match g0.add_vertex ⟨i, some (String.mk t1)⟩ with
          | (.ok _, g1) => .ok g1
          | (.error e, _) => .error (.operationError e) := rfl

theorem GraphText.add_edge_two (t0 t1 : List Char) (g : Option (Graph Nat Int)) :
    GraphText.add_edge [t0, t1] g =
      match parseNat t0 with
      | none => .error (.interfaceError (.IncorrectArgument 0))
      | some i =>
        match parseNat t1 with
        | none => .error (.interfaceError (.IncorrectArgument 1))
        | some j =>
          match g with
          | none => .error (.interfaceError .GraphNotExist)
          | some g0 =>
            match g0.add_edge i ⟨j, none⟩ with
            | (.ok _, g1) => .ok g1
            | (.error e, _) => .error (.operationError e) := rfl

theorem GraphText.add_edge_three (t0 t1 t2 : List Char) (g : Option (Graph Nat Int)) :
    GraphText.add_edge [t0, t1, t2] g =
      match parseNat t0 with
      | none => .error (.interfaceError (.IncorrectArgument 0))
      | some i =>
        match parseNat t1 with
        | none => .error (.interfaceError (.IncorrectArgument 1))
        | some j =>
          match (match parseInt t2 with
                 | none => Except.error (GraphError.interfaceError (.IncorrectArgument 2))
                 | some w => Except.ok (some w)) with
          | .error e => .error e
          | .ok wopt =>
            match g with
            | none => .error (.interfaceError .GraphNotExist)
            | some g0 =>
              match g0.add_edge i ⟨j, wopt⟩ with
              | (.ok _, g1) => .ok g1
              | (.error e, _) => .error (.operationError e) := rfl

theorem header_parse (g : Graph Nat Int) (hf : g.is_float_weights = false) :
    GraphText.new_graph (splitWS (headerLine g)) =
      .ok (Graph.new g.is_directed g.is_weighted false) := by
  unfold headerLine
  rcases hd : g.is_directed <;> rcases hw : g.is_weighted <;> rw [hf] <;> rfl

theorem vertexLine_tokens_none (v : Vertex Nat) (hl : v.label = none) :
    splitWS (vertexLine v) = [natChars v.id] := by
  unfold vertexLine
  rw [hl]
  exact splitWS_single _ (natChars_ne_nil _) (natChars_nows _)

theorem vertexLine_tokens_some (v : Vertex Nat) (l : String) (hl : v.label = some l)
    (hne : l.data ≠ []) (hws : ∀ c ∈ l.data, isWs c = false) :
    splitWS (vertexLine v) = [natChars v.id, l.data] := by
  unfold vertexLine
  rw [hl]
  refine splitWS_joinTokens _ (by simp) ?_
  intro t ht
  simp only [List.mem_cons, List.not_mem_nil, or_false] at ht
  rcases ht with rfl | rfl
  · exact ⟨natChars_ne_nil _, natChars_nows _⟩
  · exact ⟨hne, hws⟩

theorem arcLine_tokens_none (u v : Nat) :
    splitWS (arcLine ((u, v), none)) = [natChars u, natChars v] := by
  show splitWS (joinTokens [natChars u, natChars v]) = _
  refine splitWS_joinTokens _ (by simp) ?_
  intro t ht
  simp only [List.mem_cons, List.not_mem_nil, or_false] at ht
  rcases ht with rfl | rfl <;> exact ⟨natChars_ne_nil _, natChars_nows _⟩

theorem arcLine_tokens_some (u v : Nat) (w0 : Int) :
    splitWS (arcLine ((u, v), some w0)) = [natChars u, natChars v, intChars w0] := by
  show splitWS (joinTokens [natChars u, natChars v, intChars w0]) = _
  refine splitWS_joinTokens _ (by simp) ?_
  intro t ht
  simp only [List.mem_cons, List.not_mem_nil, or_false] at ht
  rcases ht with rfl | rfl | rfl
  · exact ⟨natChars_ne_nil _, natChars_nows _⟩
  · exact ⟨natChars_ne_nil _, natChars_nows _⟩
  · exact ⟨intChars_ne_nil _, intChars_nows _⟩

theorem vertexLine_ne_edges (v : Vertex Nat) : vertexLine v ≠ "edges".data := by
  obtain ⟨d, rest, hd10, hcons⟩ := natChars_cons v.id
  have hne := (digit_char_facts hd10).2.2.2.2
  have hhead : (vertexLine v).head? = some (Nat.digitChar d) := by
    unfold vertexLine
    rcases v.label with _ | l
    · rw [hcons]
      rfl
    · show (joinTokens [natChars v.id, l.data]).head? = _
      rw [show joinTokens [natChars v.id, l.data] = natChars v.id ++ ' ' :: l.data from rfl,
        hcons]
      rfl
  intro h
  rw [h] at hhead
  have h2 : some 'e' = some (Nat.digitChar d) := hhead
  exact hne (Option.some.inj h2).symm

theorem add_vertex_line (v : Vertex Nat) (hok : labelOk v = true) (g0 : Graph Nat Int) :
    GraphText.add_vertex (splitWS (vertexLine v)) (some g0) =
      match g0.add_vertex v with
      | (.ok _, g1) => .ok g1
      | (.error e, _) => .error (.operationError e) := by
  rcases hl : v.label with _ | l
  · have hv : v = (⟨v.id, (none : Option String)⟩ : Vertex Nat) := by
      rw [← hl]
    rw [vertexLine_tokens_none v hl, GraphText.add_vertex_one, parseNat_natChars]
    conv_rhs => rw [hv]
  · have hlab : (!l.data.isEmpty && l.data.all (fun c => !isWs c)) = true := by
      have heq : labelOk v = (!l.data.isEmpty && l.data.all (fun c => !isWs c)) := by
        unfold labelOk
        rw [hl]
      rw [← heq]
      exact hok
    rw [Bool.and_eq_true] at hlab
    have hne : l.data ≠ [] := by
      intro hcon
      rw [hcon] at hlab
      exact Bool.noConfusion hlab.1
    have hws : ∀ c ∈ l.data, isWs c = false := by
      intro c hc
      have := List.all_eq_true.mp hlab.2 c hc
      rwa [Bool.not_eq_true'] at this
    have hv : v = (⟨v.id, some (String.mk l.data)⟩ : Vertex Nat) := by
      have hstr : some (String.mk l.data) = v.label := by
        rw [hl]
      rw [hstr]
    rw [vertexLine_tokens_some v l hl hne hws, GraphText.add_vertex_two, parseNat_natChars]
    conv_rhs => rw [hv]

theorem add_edge_line (u v : Nat) (w : Option Int) (g0 : Graph Nat Int) :
    GraphText.add_edge (splitWS (arcLine ((u, v), w))) (some g0) =
      match g0.add_edge u ⟨v, w⟩ with
      | (.ok _, g1) => .ok g1
      | (.error e, _) => .error (.operationError e) := by
  rcases w with _ | w0
  · rw [arcLine_tokens_none, GraphText.add_edge_two, parseNat_natChars, parseNat_natChars]
  · rw [arcLine_tokens_some, GraphText.add_edge_three, parseNat_natChars, parseNat_natChars,
      parseInt_intChars]

end LineLemmas

section VertexPhase

theorem from_file_vertex_phase (vs us : List (Vertex Nat)) (rest : List (List Char))
    (d w f : Bool)
    (hsorted : SortedByKey (fun v : Vertex Nat => v.id) (us ++ vs))
    (hlab : ∀ v ∈ vs, labelOk v = true) :
    from_fileLoop (vs.map vertexLine ++ rest) .ParsingVertices
      (some ⟨us, us.map (fun v => (v.id, [])), d, w, f⟩) =
    from_fileLoop rest .ParsingVertices
      (some ⟨us ++ vs, (us ++ vs).map (fun v => (v.id, [])), d, w, f⟩) := by
  induction vs generalizing us with
  | nil => simp
  | cons v vs ih =>
    have hlt : ∀ b ∈ us, b.id < v.id := fun b hb =>
      (List.pairwise_append.mp hsorted).2.2 b hb v (List.mem_cons_self _ _)
    have hnotc : (⟨us, us.map (fun v => (v.id, [])), d, w, f⟩ :
        Graph Nat Int).containsVertex v.id = false := by
      rw [Graph.containsVertex,
        show (mapLookup (fun v' : Vertex Nat => v'.id) v.id us) = none from
          mapLookup_eq_none.mpr (fun b hb => ne_of_lt (hlt b hb))]
      rfl
    show (if vertexLine v = "edges".data then
        from_fileLoop (vs.map vertexLine ++ rest) .ParsingEdges
          (some ⟨us, us.map (fun v => (v.id, [])), d, w, f⟩)
      else
        match GraphText.add_vertex (splitWS (vertexLine v))
            (some ⟨us, us.map (fun v => (v.id, [])), d, w, f⟩) with
        | .error e => .error e
        | .ok g2 => from_fileLoop (vs.map vertexLine ++ rest) .ParsingVertices (some g2)) = _
    rw [if_neg (vertexLine_ne_edges v),
      add_vertex_line v (hlab v (List.mem_cons_self _ _)) _,
      Graph.add_vertex_ok hnotc,
      show mapInsertReplace (fun v' : Vertex Nat => v'.id) v us = us ++ [v] from
        mapInsertReplace_append hlt,
      show mapInsertReplace Prod.fst (v.id, ([] : List (Edge Nat Int)))
          (us.map (fun v => (v.id, []))) = us.map (fun v => (v.id, [])) ++ [(v.id, [])] from
        mapInsertReplace_append (by
          intro b hb
          obtain ⟨c, hc, hcb⟩ := List.mem_map.mp hb
          rw [← hcb]
          exact hlt c hc)]
    have heq : (⟨us ++ [v], us.map (fun v => (v.id, [])) ++ [(v.id, [])], d, w, f⟩ :
        Graph Nat Int) = ⟨us ++ [v], (us ++ [v]).map (fun v => (v.id, [])), d, w, f⟩ := by
      simp
    rw [heq]
    show from_fileLoop (vs.map vertexLine ++ rest) .ParsingVertices
      (some ⟨us ++ [v], (us ++ [v]).map (fun v => (v.id, [])), d, w, f⟩) = _
    have hsorted2 : SortedByKey (fun v : Vertex Nat => v.id) ((us ++ [v]) ++ vs) := by
      rw [List.append_assoc]
      exact hsorted
    rw [ih (us ++ [v]) hsorted2 (fun u hu => hlab u (List.mem_cons_of_mem _ hu))]
    simp

end VertexPhase

/-- Invariant of the edge-reading phase of `from_file` on `to_file` output:
the partially rebuilt graph `g0` agrees with the target graph `g` on vertices,
flags, well-formedness, and carries exactly the arcs whose lines have been
processed (`dk` lists the processed `(from, to)` pairs; for undirected graphs
each processed line carries both orientations). -/
def c3Inv (g : Graph Nat Int) (dk : List (Nat × Nat)) (g0 : Graph Nat Int) : Prop :=
  g0.vertices = g.vertices ∧ g0.is_directed = g.is_directed ∧
  g0.is_weighted = g.is_weighted ∧ g0.is_float_weights = g.is_float_weights ∧
  g0.GSorted ∧ g0.KeysEq ∧
  ∀ u v : Nat,
    (((u, v) ∈ dk ∨ (g.is_directed = false ∧ (v, u) ∈ dk)) →
      g0.edgeWeight u v = g.edgeWeight u v) ∧
    (¬ ((u, v) ∈ dk ∨ (g.is_directed = false ∧ (v, u) ∈ dk)) →
      g0.edgeWeight u v = none)

theorem from_file_edge_phase (g : Graph Nat Int) (hs : g.GSorted) (hk : g.KeysEq)
    (ht : g.TargetsExist)
    (hwm : ∀ p ∈ g.edges, ∀ e ∈ p.2, e.weight.isSome = g.is_weighted)
    (hsym : g.is_directed = false →
      ∀ p ∈ g.edges, ∀ e ∈ p.2, g.edgeWeight e.to_ p.1 = some e.weight) :
    ∀ todo done : List ((Nat × Nat) × Option Int), writtenArcs g = done ++ todo →
    ∀ g0 : Graph Nat Int, c3Inv g (done.map Prod.fst) g0 →
    ∃ g1, from_fileLoop (todo.map arcLine) .ParsingEdges (some g0) = .ok (some g1) ∧
      c3Inv g ((done ++ todo).map Prod.fst) g1 := by
  have hdist := writtenArcs_keys_distinct hs
  intro todo
  induction todo with
  | nil =>
    intro done hsplit g0 hinv
    exact ⟨g0, rfl, by rw [List.append_nil]; exact hinv⟩
  | cons a todo ih =>
    intro done hsplit g0 hinv
    obtain ⟨⟨u, v⟩, w⟩ := a
    obtain ⟨hver, hdir, hwei, hflo, hgs0, hke0, hw0⟩ := hinv
    have hmem : ((u, v), w) ∈ writtenArcs g := by
      rw [hsplit]
      exact List.mem_append_right _ (List.mem_cons_self _ _)
    have harc := writtenArcs_mem hs hmem
    have hwt : w.isSome = g.is_weighted := by
      obtain ⟨p, hp, hpu, e, he, hev, hew⟩ := Graph.edgeWeight_some_elim harc.1
      have hew2 : e.weight = w := hew
      rw [← hew2]
      exact hwm p hp e he
    have hcu : g.containsVertex u = true :=
      contains_of_edgeWeight_ne_none hk (by rw [harc.1]; simp)
    have hcv : g.containsVertex v = true :=
      contains_target_of_edgeWeight_ne_none ht (by rw [harc.1]; simp)
    have hcu0 : g0.containsVertex u = true := by
      rw [Graph.containsVertex_eq_of_vertices hver]
      exact hcu
    have hcv0 : g0.containsVertex v = true := by
      rw [Graph.containsVertex_eq_of_vertices hver]
      exact hcv
    have hdistinct : List.Pairwise (fun a b : (Nat × Nat) × Option Int => a.1 ≠ b.1)
        (done ++ ((u, v), w) :: todo) := by
      rw [← hsplit]
      exact hdist
    have hdone_ne : ∀ b ∈ done, b.1 ≠ (u, v) := by
      intro b hb
      exact (List.pairwise_append.mp hdistinct).2.2 b hb ((u, v), w)
        (List.mem_cons_self _ _)
    have hnotdk : (u, v) ∉ done.map Prod.fst := by
      intro hcon
      obtain ⟨b, hb, hbeq⟩ := List.mem_map.mp hcon
      exact hdone_ne b hb hbeq
    have hnotdk2 : g.is_directed = false → (v, u) ∉ done.map Prod.fst := by
      intro hdf hcon
      obtain ⟨b, hb, hbeq⟩ := List.mem_map.mp hcon
      have hbw := writtenArcs_mem hs (show b ∈ writtenArcs g by
        rw [hsplit]
        exact List.mem_append_left _ hb)
      have hble : b.1.1 ≤ b.1.2 := by
        rcases hbw.2 with hdd | hle
        · rw [hdf] at hdd
          exact absurd hdd (by decide)
        · exact hle
      have hule : u ≤ v := by
        rcases harc.2 with hdd | hle
        · rw [hdf] at hdd
          exact absurd hdd (by decide)
        · exact hle
      rw [hbeq] at hble
      have huv : u = v := le_antisymm hule hble
      exact hdone_ne b hb (by rw [hbeq, huv])
    have habs0 : g0.edgeWeight u v = none := by
      apply (hw0 u v).2
      intro hcon
      rcases hcon with h | ⟨hdf, h⟩
      · exact hnotdk h
      · exact hnotdk2 hdf h
    have hmirrorw : g.is_directed = false → g.edgeWeight v u = some w := fun hdf =>
      Graph.mirror_of_symD (hsym hdf) harc.1
    have hmain : (g0.add_edge u ⟨v, w⟩).1 = .ok () ∧
        ∀ u' v', ((g0.add_edge u ⟨v, w⟩).2).edgeWeight u' v' =
          if (u' = u ∧ v' = v) ∨ (g.is_directed = false ∧ u' = v ∧ v' = u) then some w
          else g0.edgeWeight u' v' := by
      have hwt0 : (⟨v, w⟩ : Edge Nat Int).weight.isSome = g0.is_weighted := by
        rw [hwei]
        exact hwt
      by_cases hgd : g.is_directed = true
      · have hd0 : g0.is_directed = true := by
          rw [hdir]
          exact hgd
        refine ⟨Graph.add_edge_directed_ok hke0 hd0 hwt0 hcu0 hcv0 habs0, ?_⟩
        intro u' v'
        rw [Graph.edgeWeight_add_edge_directed hgs0 hke0 hd0 hwt0 hcu0 hcv0 u' v']
        by_cases h12 : u' = u ∧ v' = v
        · rw [if_pos ⟨h12.1, h12.2, habs0⟩, if_pos (Or.inl h12)]
        · have hno1 : ¬ (u' = u ∧ v' = v ∧ g0.edgeWeight u v = none) :=
            fun hcon => h12 ⟨hcon.1, hcon.2.1⟩
          have hno2 : ¬ ((u' = u ∧ v' = v) ∨
              (g.is_directed = false ∧ u' = v ∧ v' = u)) := by
            intro hcon
            rcases hcon with h | ⟨hdf, _⟩
            · exact h12 h
            · rw [hgd] at hdf
              exact absurd hdf (by decide)
          rw [if_neg hno1, if_neg hno2]
      · have hgdf : g.is_directed = false := by
          cases hb : g.is_directed
          · rfl
          · exact absurd hb hgd
        have hd0 : g0.is_directed = false := by
          rw [hdir]
          exact hgdf
        have habs0m : g0.edgeWeight v u = none := by
          apply (hw0 v u).2
          intro hcon
          rcases hcon with h | ⟨_, h⟩
          · exact hnotdk2 hgdf h
          · exact hnotdk h
        refine ⟨Graph.add_edge_undirected_ok hke0 hd0 hwt0 hcu0 hcv0 habs0 habs0m, ?_⟩
        intro u' v'
        rw [Graph.edgeWeight_add_edge_undirected hgs0 hke0 hd0 hwt0 hcu0 hcv0 habs0
          habs0m u' v']
        by_cases hfr : (u' = u ∧ v' = v) ∨ (u' = v ∧ v' = u)
        · have hfr2 : (u' = u ∧ v' = v) ∨ (g.is_directed = false ∧ u' = v ∧ v' = u) := by
            rcases hfr with h | h
            · exact Or.inl h
            · exact Or.inr ⟨hgdf, h⟩
          rw [if_pos hfr, if_pos hfr2]
        · have hfr2 : ¬ ((u' = u ∧ v' = v) ∨
              (g.is_directed = false ∧ u' = v ∧ v' = u)) := by
            intro hcon
            rcases hcon with h | ⟨_, h⟩
            · exact hfr (Or.inl h)
            · exact hfr (Or.inr h)
          rw [if_neg hfr, if_neg hfr2]
    rcases hstep : g0.add_edge u ⟨v, w⟩ with ⟨res, g1'⟩
    have h2g : (g0.add_edge u ⟨v, w⟩).2 = g1' := by
      rw [hstep]
    have hres : res = Except.ok () := by
      have h1 := hmain.1
      rw [hstep] at h1
      exact h1
    subst hres
    have hline : GraphText.add_edge (splitWS (arcLine ((u, v), w))) (some g0) = .ok g1' := by
      rw [add_edge_line u v w g0, hstep]
    have hloop : from_fileLoop ((((u, v), w) :: todo).map arcLine) .ParsingEdges (some g0) =
        from_fileLoop (todo.map arcLine) .ParsingEdges (some g1') := by
      show (match GraphText.add_edge (splitWS (arcLine ((u, v), w))) (some g0) with
        | .error e => (.error e : Except GraphError (Option (Graph Nat Int)))
        | .ok g2 => from_fileLoop (todo.map arcLine) .ParsingEdges (some g2)) = _
      rw [hline]
    have hnew : ∀ u' v', g1'.edgeWeight u' v' =
        if (u' = u ∧ v' = v) ∨ (g.is_directed = false ∧ u' = v ∧ v' = u) then some w
        else g0.edgeWeight u' v' := by
      intro u' v'
      rw [← h2g]
      exact hmain.2 u' v'
    have hinv2 : c3Inv g ((done ++ [((u, v), w)]).map Prod.fst) g1' := by
      refine ⟨?_, ?_, ?_, ?_, ?_, ?_, ?_⟩
      · rw [← h2g, Graph.add_edge_vertices]
        exact hver
      · rw [← h2g]
        exact Graph.add_edge_flags.1.trans hdir
      · rw [← h2g]
        exact Graph.add_edge_flags.2.1.trans hwei
      · rw [← h2g]
        exact Graph.add_edge_flags.2.2.trans hflo
      · rw [← h2g]
        exact Graph.gsorted_add_edge hgs0
      · rw [← h2g]
        exact Graph.keysEq_add_edge hke0
      · intro u' v'
        constructor
        · intro hc
          by_cases hfr : (u' = u ∧ v' = v) ∨ (g.is_directed = false ∧ u' = v ∧ v' = u)
          · rw [hnew u' v', if_pos hfr]
            rcases hfr with ⟨h1, h2⟩ | ⟨hdf, h1, h2⟩
            · rw [h1, h2]
              exact harc.1.symm
            · rw [h1, h2]
              exact (hmirrorw hdf).symm
          · rw [hnew u' v', if_neg hfr]
            apply (hw0 u' v').1
            rcases hc with hin | ⟨hdf, hin⟩
            · rw [List.map_append] at hin
              rcases List.mem_append.mp hin with h | h
              · exact Or.inl h
              · exfalso
                apply hfr
                left
                simp at h
                exact h
            · rw [List.map_append] at hin
              rcases List.mem_append.mp hin with h | h
              · exact Or.inr ⟨hdf, h⟩
              · exfalso
                apply hfr
                right
                simp at h
                exact ⟨hdf, h.2, h.1⟩
        · intro hc
          have hfr : ¬ ((u' = u ∧ v' = v) ∨ (g.is_directed = false ∧ u' = v ∧ v' = u)) := by
            intro hcon
            apply hc
            rcases hcon with ⟨h1, h2⟩ | ⟨hdf, h1, h2⟩
            · left
              rw [List.map_append]
              refine List.mem_append.mpr (Or.inr ?_)
              simp [h1, h2]
            · right
              refine ⟨hdf, ?_⟩
              rw [List.map_append]
              refine List.mem_append.mpr (Or.inr ?_)
              simp [h1, h2]
          rw [hnew u' v', if_neg hfr]
          apply (hw0 u' v').2
          intro hcon
          apply hc
          rcases hcon with h | ⟨hdf, h⟩
          · left
            rw [List.map_append]
            exact List.mem_append.mpr (Or.inl h)
          · right
            exact ⟨hdf, by rw [List.map_append]; exact List.mem_append.mpr (Or.inl h)⟩
    have hsplit2 : writtenArcs g = (done ++ [((u, v), w)]) ++ todo := by
      rw [hsplit]
      simp
    obtain ⟨g2, hrun, hinv3⟩ := ih (done ++ [((u, v), w)]) hsplit2 g1' hinv2
    refine ⟨g2, ?_, ?_⟩
    · rw [hloop]
      exact hrun
    · have hlist : (done ++ [((u, v), w)]) ++ todo = done ++ ((u, v), w) :: todo := by
        simp
      rwa [hlist] at hinv3

theorem Graph.ext_fields {I W : Type} {g1 g2 : Graph I W}
    (h1 : g1.vertices = g2.vertices) (h2 : g1.edges = g2.edges)
    (h3 : g1.is_directed = g2.is_directed) (h4 : g1.is_weighted = g2.is_weighted)
    (h5 : g1.is_float_weights = g2.is_float_weights) : g1 = g2 := by
  cases g1
  cases g2
  simp only at h1 h2 h3 h4 h5
  rw [h1, h2, h3, h4, h5]

theorem edge_lines_eq (g : Graph Nat Int) :
    g.edges.flatMap (fun p =>
      (p.2.filter (fun e => g.is_directed || decide (p.1 ≤ e.to_))).map (edgeLine p.1)) =
    (writtenArcs g).map arcLine := by
  unfold writtenArcs
  induction g.edges with
  | nil => rfl
  | cons p es ih =>
    simp only [List.flatMap_cons, List.map_append, ih, List.map_map]
    congr 1

/-- C3 (amended): serializing with `to_file` and re-reading with `from_file`
is the identity on well-formed integer-weighted graphs.  Precisely: for every
`Graph Nat Int` satisfying the structural sortedness invariant, the
vertex/adjacency key invariant, endpoint existence (I3), weight/flag
consistency (I2), mirror symmetry when undirected (I1), whose labels are
absent or nonempty and whitespace-free, and whose weights are the integer
variant, `from_file (to_file g) = .ok g`.  (The spec's unconditional claim
fails for labels containing whitespace — see the counterexample.) -/
theorem C3_serialization_round_trip (g : Graph Nat Int)
    (hs : g.GSorted) (hk : g.KeysEq) (ht : g.TargetsExist)
    (hwm : ∀ p ∈ g.edges, ∀ e ∈ p.2, e.weight.isSome = g.is_weighted)
    (hsym : g.is_directed = false →
      ∀ p ∈ g.edges, ∀ e ∈ p.2, g.edgeWeight e.to_ p.1 = some e.weight)
    (hlab : ∀ v ∈ g.vertices, labelOk v = true)
    (hf : g.is_float_weights = false) :
    from_file (to_file g) = .ok g := by
  have hto : to_file g = headerLine g :: "vertices".data ::
      (g.vertices.map vertexLine ++ "edges".data :: (writtenArcs g).map arcLine) := by
    unfold to_file
    rw [edge_lines_eq]
  have h1 : from_fileLoop (to_file g) .NotCreated none =
      from_fileLoop (g.vertices.map vertexLine ++ "edges".data :: (writtenArcs g).map arcLine)
        .ParsingVertices (some (Graph.new g.is_directed g.is_weighted false)) := by
    rw [hto]
    show (match GraphText.new_graph (splitWS (headerLine g)) with
      | .error e => (.error e : Except GraphError (Option (Graph Nat Int)))
      | .ok g2 => from_fileLoop ("vertices".data ::
          (g.vertices.map vertexLine ++ "edges".data :: (writtenArcs g).map arcLine))
          .ParsingVerticesStart (some g2)) = _
    rw [header_parse g hf]
    show (if ("vertices".data : List Char) = "vertices".data then
        from_fileLoop (g.vertices.map vertexLine ++ "edges".data :: (writtenArcs g).map arcLine)
          .ParsingVertices (some (Graph.new g.is_directed g.is_weighted false))
      else .error (.interfaceError .WrongParsingVerticesStart)) = _
    rw [if_pos rfl]
  have h2 : from_fileLoop
      (g.vertices.map vertexLine ++ "edges".data :: (writtenArcs g).map arcLine)
      .ParsingVertices (some (Graph.new g.is_directed g.is_weighted false)) =
      from_fileLoop ("edges".data :: (writtenArcs g).map arcLine) .ParsingVertices
        (some ⟨g.vertices, g.vertices.map (fun v => (v.id, [])),
          g.is_directed, g.is_weighted, false⟩) := by
    exact from_file_vertex_phase g.vertices [] ("edges".data :: (writtenArcs g).map arcLine)
      g.is_directed g.is_weighted false hs.1 hlab
  have h3 : from_fileLoop ("edges".data :: (writtenArcs g).map arcLine) .ParsingVertices
      (some ⟨g.vertices, g.vertices.map (fun v => (v.id, [])),
        g.is_directed, g.is_weighted, false⟩) =
      from_fileLoop ((writtenArcs g).map arcLine) .ParsingEdges
        (some ⟨g.vertices, g.vertices.map (fun v => (v.id, [])),
          g.is_directed, g.is_weighted, false⟩) := by
    show (if ("edges".data : List Char) = "edges".data then
        from_fileLoop ((writtenArcs g).map arcLine) .ParsingEdges
          (some ⟨g.vertices, g.vertices.map (fun v => (v.id, [])),
            g.is_directed, g.is_weighted, false⟩)
      else
        match GraphText.add_vertex (splitWS ("edges".data))
            (some (⟨g.vertices, g.vertices.map (fun v => (v.id, [])),
              g.is_directed, g.is_weighted, false⟩ : Graph Nat Int)) with
        | .error e => (.error e : Except GraphError (Option (Graph Nat Int)))
        | .ok g2 => from_fileLoop ((writtenArcs g).map arcLine) .ParsingVertices (some g2)) = _
    rw [if_pos rfl]
  have hinv0 : c3Inv g (([] : List ((Nat × Nat) × Option Int)).map Prod.fst)
      (⟨g.vertices, g.vertices.map (fun v => (v.id, [])),
        g.is_directed, g.is_weighted, false⟩ : Graph Nat Int) := by
    refine ⟨rfl, rfl, rfl, hf.symm, ⟨hs.1, ?_, ?_⟩, ?_, ?_⟩
    · show SortedByKey Prod.fst (g.vertices.map (fun v => (v.id, [])))
      rw [SortedByKey, List.pairwise_map]
      exact hs.1
    · intro p hp
      obtain ⟨v0, hv0, rfl⟩ := List.mem_map.mp hp
      exact List.Pairwise.nil
    · show g.vertices.map (fun v => v.id) =
        (g.vertices.map (fun v => (v.id, ([] : List (Edge Nat Int))))).map Prod.fst
      rw [List.map_map]
      rfl
    · intro u v
      constructor
      · intro hc
        rcases hc with h | ⟨_, h⟩ <;> simp at h
      · intro _
        exact lookupW_all_empty (fun p hp => by
          obtain ⟨v0, hv0, rfl⟩ := List.mem_map.mp hp
          rfl) u v
  obtain ⟨g1, hrun, hinvF⟩ := from_file_edge_phase g hs hk ht hwm hsym (writtenArcs g) []
    (by rw [List.nil_append]) _ hinv0
  obtain ⟨hver, hdir, hwei, hflo, hgs1, hke1, hw1⟩ := hinvF
  have hkeys : g1.edgeKeys = g.edgeKeys := by
    have hv : g1.vertexKeys = g.vertexKeys := by
      show g1.vertices.map _ = g.vertices.map _
      rw [hver]
    rw [← hke1, hv, ← hk]
  have hww : ∀ u v, g1.edgeWeight u v = g.edgeWeight u v := by
    intro u v
    by_cases hc : (u, v) ∈ (writtenArcs g).map Prod.fst ∨
        (g.is_directed = false ∧ (v, u) ∈ (writtenArcs g).map Prod.fst)
    · exact (hw1 u v).1 hc
    · rw [(hw1 u v).2 hc]
      rcases hgw : g.edgeWeight u v with _ | w
      · rfl
      · exfalso
        apply hc
        by_cases hdd : g.is_directed = true
        · exact Or.inl (List.mem_map.mpr
            ⟨((u, v), w), writtenArcs_complete hs hgw (Or.inl hdd), rfl⟩)
        · have hgdf : g.is_directed = false := by
            cases hb : g.is_directed
            · rfl
            · exact absurd hb hdd
          by_cases hle : u ≤ v
          · exact Or.inl (List.mem_map.mpr
              ⟨((u, v), w), writtenArcs_complete hs hgw (Or.inr hle), rfl⟩)
          · refine Or.inr ⟨hgdf, ?_⟩
            have hvu : g.edgeWeight v u = some w := Graph.mirror_of_symD (hsym hgdf) hgw
            have hle2 : v ≤ u := le_of_not_le hle
            exact List.mem_map.mpr
              ⟨((v, u), w), writtenArcs_complete hs hvu (Or.inr hle2), rfl⟩
  have hedges : g1.edges = g.edges := Graph.edges_ext hgs1 hs hkeys hww
  have hgeq : g1 = g := Graph.ext_fields hver hedges hdir hwei hflo
  show (match from_fileLoop (to_file g) .NotCreated none with
    | .error e => (.error e : Except GraphError (Graph Nat Int))
    | .ok none => .error (.interfaceError .EmptyFile)
    | .ok (some g2) => .ok g2) = .ok g
  rw [h1, h2, h3, hrun, hgeq]

/-- A well-formed graph whose single vertex carries the label `"a b"`; the
spec's data model allows any free-text label. -/
def c3Graph : Graph Nat Int :=
  ⟨[⟨0, some "a b"⟩], [(0, [])], true, false, false⟩

/-- C3 counterexample: the graph `c3Graph` satisfies every data-model
invariant (sortedness, key agreement, endpoint existence, weight/flag
consistency), yet `from_file (to_file c3Graph)` is an
`IncorrectArgumentCount` error, not `c3Graph`: its vertex line `0 a b`
tokenizes into three fragments.  The claimed unconditional round trip is
false. -/
theorem C3_counterexample_label_with_space :
    c3Graph.GSorted ∧ c3Graph.KeysEq ∧ c3Graph.TargetsExist ∧
    (∀ p ∈ c3Graph.edges, ∀ e ∈ p.2, e.weight.isSome = c3Graph.is_weighted) ∧
    from_file (to_file c3Graph) =
      .error (.interfaceError .IncorrectArgumentCount) ∧
    from_file (to_file c3Graph) ≠ .ok c3Graph := by
  refine ⟨by decide, by decide, by decide, by decide, rfl, ?_⟩
  intro hcon
  have h2 : (Except.error (.interfaceError .IncorrectArgumentCount) :
      Except GraphError (Graph Nat Int)) = .ok c3Graph := hcon
  exact Except.noConfusion h2

/-- A concrete well-formed undirected weighted graph with labels, a negative
weight, and a self-loop, used to instantiate the round-trip theorem. -/
def c3wGraph : Graph Nat Int :=
  ⟨[⟨0, some "a"⟩, ⟨1, none⟩, ⟨2, some "bc"⟩],
   [(0, [⟨1, some 5⟩, ⟨2, some (-3)⟩]), (1, [⟨0, some 5⟩]),
    (2, [⟨0, some (-3)⟩, ⟨2, some 7⟩])],
   false, true, false⟩

theorem C3_serialization_round_trip_witness :
    c3wGraph.GSorted ∧ c3wGraph.is_directed = false ∧
    from_file (to_file c3wGraph) = .ok c3wGraph :=
  ⟨by decide, rfl,
    C3_serialization_round_trip c3wGraph (by decide) (by decide) (by decide) (by decide)
      (by decide) (by decide) rfl⟩
